import Mathlib

/-!
# Verification of the Drax binary codec framework

A shallow embedding of the Drax composable codec library.  Byte streams are
modelled as `List Nat` whose elements are bytes (`< 256`); decoders consume a
prefix of the stream and return the decoded value together with the remaining
stream; encoders produce the byte list they would write; `size` mirrors the
library's `Size` algebra.  Rust machine integers are modelled as `Nat`/`Int`
with explicit reductions modulo `2^w` at the points where the source casts.
Floating point values are modelled by their bit patterns (the codecs only move
the raw big-endian bytes, so the bit-pattern level is exactly what is on the
wire).  Rust `String`s are modelled as their lists of Unicode scalar values.
-/

namespace Drax

/-- A byte stream: a list of bytes (each `< 256`). -/
abbrev Bytes := List Nat

/-! ## Size algebra (`src/drax/src/transport.rs`) -/

/-- `Size` from `transport.rs`: a computed byte length, tagged `Dynamic`
(recomputed per value) or `Constant` (cacheable). -/
inductive Size where
  | Dynamic (n : Nat) : Size
  | Constant (n : Nat) : Size
  deriving DecidableEq, Repr

/-- `impl Add for Size`: `Constant + Constant = Constant(sum)`, anything
involving a `Dynamic` is `Dynamic(sum)`. -/
def Size.add : Size → Size → Size
  | .Dynamic x, .Dynamic y => .Dynamic (x + y)
  | .Dynamic x, .Constant y => .Dynamic (x + y)
  | .Constant x, .Dynamic y => .Dynamic (x + y)
  | .Constant x, .Constant y => .Constant (x + y)

/-- `impl Add<usize> for Size`: adding a raw byte count always yields
`Dynamic`. -/
def Size.addUsize : Size → Nat → Size
  | .Dynamic x, rhs => .Dynamic (x + rhs)
  | .Constant x, rhs => .Dynamic (x + rhs)

/-- The byte count carried by a `Size`, forgetting the tag. -/
def Size.bytes : Size → Nat
  | .Dynamic n => n
  | .Constant n => n

/-! ## Errors (`src/drax/src/error.rs`) -/

/-- `NbtError` from `error.rs`. -/
inductive NbtError where
  | ComplexTag : NbtError
  | InvalidTagBit (bit : Nat) : NbtError
  | TagTooBig (expected received : Nat) : NbtError
  | AccounterOverflow : NbtError
  | Cesu8DecodingError : NbtError
  deriving DecidableEq, Repr

/-- `TransportError` from `error.rs`.  `IoError` abstracts the payload of the
underlying I/O fault (end-of-stream on the tokio read extensions surfaces as
an `IoError`, while the hand-rolled var-num reader returns `EOF`);
`Utf8Error` abstracts the `FromUtf8Error` payload. -/
inductive TransportError where
  | EOF : TransportError
  | VarNumTooLarge : TransportError
  | IoError : TransportError
  | Utf8Error : TransportError
  | LimitExceeded (expected received : Int) (label : String) : TransportError
  | NbtErr (e : NbtError) : TransportError
  deriving DecidableEq, Repr

abbrev DraxResult (α : Type) := Except TransportError α

instance {ε α : Type} [DecidableEq ε] [DecidableEq α] : DecidableEq (Except ε α) := by
  intro a b
  cases a <;> cases b
  case error.error e f => exact decidable_of_iff (e = f) (by simp)
  case ok.ok x y => exact decidable_of_iff (x = y) (by simp)
  all_goals exact .isFalse (by simp)

/-! ## Raw stream reads

`readU8` models `AsyncReadExt::read_u8`, `readExact n` models
`read_exact` into an `n`-byte buffer (failing with an I/O fault when the
stream is exhausted early). -/

def readU8 : Bytes → DraxResult (Nat × Bytes)
  | [] => .error .IoError
  | b :: rest => .ok (b, rest)

def readExact (n : Nat) (bs : Bytes) : DraxResult (Bytes × Bytes) :=
  if n ≤ bs.length then .ok (bs.take n, bs.drop n) else .error .IoError

/-- Big-endian bytes of `v` as a `w`-byte unsigned integer
(`to_be_bytes` after reducing mod `2^(8w)`). -/
def beBytes : (w : Nat) → (v : Nat) → Bytes
  | 0, _ => []
  | w + 1, v => (v / 2 ^ (8 * w)) % 256 :: beBytes w v

/-- Recompose big-endian bytes into an unsigned integer
(`from_be_bytes`). -/
def beValue : Bytes → Nat
  | [] => 0
  | b :: rest => b * 2 ^ (8 * rest.length) + beValue rest

/-! ## Variable-length integer codec
(`src/drax/src/delegate/primitive.rs`, `declare_var_num_ext!`) -/

/-- The write loop of `WriteVarInt`/`WriteVarLong` on the unsigned
reinterpretation of the value.  `mask` is the macro's `$and_check`
(`0xFFFFFF80` for 32-bit, `0xFFFFFFFFFFFFFF80` for 64-bit): while the value
masked is nonzero, emit `value & 0x7F | 0x80` and shift right by 7;
finally emit `value as u8`. -/
def writeVarNumAux (mask : Nat) (value : Nat) : Bytes :=
  if h : value &&& mask = 0 then [value % 256]
  else (value &&& 0x7F ||| 0x80) :: writeVarNumAux mask (value >>> 7)
termination_by value
decreasing_by
  simp only [Nat.shiftRight_eq_div_pow]
  have : value ≠ 0 := by rintro rfl; simp at h
  exact Nat.div_lt_self (Nat.pos_of_ne_zero this) (by norm_num)

/-- The `$size_fn` loop of `declare_var_num_ext!` on the unsigned
reinterpretation. -/
def sizeVarNumAux (mask : Nat) (temp : Nat) : Nat :=
  if h : temp &&& mask = 0 then 1
  else 1 + sizeVarNumAux mask (temp >>> 7)
termination_by temp
decreasing_by
  simp only [Nat.shiftRight_eq_div_pow]
  have : temp ≠ 0 := by rintro rfl; simp at h
  exact Nat.div_lt_self (Nat.pos_of_ne_zero this) (by norm_num)

/-- Unsigned reinterpretation of a signed `w`-bit integer (`as u32`/`as u64`). -/
def toUnsigned (w : Nat) (v : Int) : Nat := (v % (2 ^ w : Nat)).toNat

/-- Signed reinterpretation of an unsigned `w`-bit integer (`as i32`/`as i64`). -/
def toSigned (w : Nat) (n : Nat) : Int :=
  if n < 2 ^ (w - 1) then (n : Int) else (n : Int) - (2 ^ w : Nat)

/-- `write_var_int`: bytes written by the `WriteVarInt` future for `v : i32`. -/
def write_var_int (v : Int) : Bytes := writeVarNumAux 0xFFFFFF80 (toUnsigned 32 v)

/-- `write_var_long`: bytes written by the `WriteVarLong` future for `v : i64`. -/
def write_var_long (v : Int) : Bytes :=
  writeVarNumAux 0xFFFFFFFFFFFFFF80 (toUnsigned 64 v)

/-- `size_var_int` from `declare_var_num_ext!`. -/
def size_var_int (v : Int) : Nat := sizeVarNumAux 0xFFFFFF80 (toUnsigned 32 v)

/-- `size_var_long` from `declare_var_num_ext!`. -/
def size_var_long (v : Int) : Nat := sizeVarNumAux 0xFFFFFFFFFFFFFF80 (toUnsigned 64 v)

/-- The read loop of `ReadVarInt`/`ReadVarLong`: at every iteration, first
fail with `VarNumTooLarge` if `bitOffset ≥ bitLimit`; then read one byte
(failing with `EOF` on stream end); OR the byte's low 7 bits, shifted left by
the running bit offset (Rust `overflowing_shl`: shift amount mod `w`, result
truncated to `w` bits), into the accumulator; advance the offset by 7; stop
when the byte's high bit is clear. -/
def readVarNumAux (bitLimit w : Nat) (bytes : Bytes) (value : Nat)
    (bitOffset : Nat) : DraxResult (Nat × Bytes) :=
  if bitOffset ≥ bitLimit then .error .VarNumTooLarge
  else
    match bytes with
    | [] => .error .EOF
    | byte :: rest =>
      let value' := value ||| ((byte &&& 0x7F) <<< (bitOffset % w)) % 2 ^ w
      if byte &&& 0x80 = 0 then .ok (value', rest)
      else readVarNumAux bitLimit w rest value' (bitOffset + 7)

/-- `read_var_int`: the `ReadVarInt` future (bit limit 35, 32-bit
accumulator reinterpreted as signed on completion). -/
def read_var_int (bytes : Bytes) : DraxResult (Int × Bytes) :=
  (readVarNumAux 35 32 bytes 0 0).map fun (v, rest) => (toSigned 32 v, rest)

/-- `read_var_long`: the `ReadVarLong` future (bit limit 70, 64-bit
accumulator reinterpreted as signed on completion). -/
def read_var_long (bytes : Bytes) : DraxResult (Int × Bytes) :=
  (readVarNumAux 70 64 bytes 0 0).map fun (v, rest) => (toSigned 64 v, rest)

/-! ## The component contract (`PacketComponent`)

A delegate is modelled as a `Codec`: `enc` produces the bytes `encode` writes
(erroring where `encode` returns an error before/without writing), `dec`
consumes a prefix of the stream, `sz` mirrors `size`.  The embedded delegates
never read or mutate the caller-supplied context, so the context parameter is
dropped from the embedding; every theorem therefore holds for every context. -/

structure Codec (α : Type) where
  enc : α → DraxResult Bytes
  dec : Bytes → DraxResult (α × Bytes)
  sz : α → DraxResult Size

/-- `usize as i32` (wrapping cast), used for length prefixes. -/
def usizeToI32 (n : Nat) : Int := toSigned 32 (n % 2 ^ 32)

/-- `i32 as i32`-wrapping of an unbounded integer (release-mode wrapping
arithmetic). -/
def wrapI32 (x : Int) : Int := toSigned 32 (toUnsigned 32 x)

/-! ## Primitive delegates (`src/drax/src/delegate/primitive.rs`) -/

/-- `define_primitive_bind!` for the unsigned fixed-width integers (`u8`,
`u16`, `u32`, `u64`) and, at the bit-pattern level, the floats: `w`-byte
big-endian payload, `size` is `Constant w`. -/
def uintCodec (w : Nat) : Codec Nat where
  enc v := .ok (beBytes w v)
  dec bs := (readExact w bs).map fun (buf, rest) => (beValue buf, rest)
  sz _ := .ok (.Constant w)

/-- `define_primitive_bind!` for the signed fixed-width integers (`i8`,
`i16`, `i32`, `i64`): two's-complement big-endian payload. -/
def sintCodec (w : Nat) : Codec Int where
  enc v := .ok (beBytes w (toUnsigned (8 * w) v))
  dec bs := (readExact w bs).map fun (buf, rest) => (toSigned (8 * w) (beValue buf), rest)
  sz _ := .ok (.Constant w)

/-- The `()` delegate: zero bytes, `Constant 0`. -/
def unitCodec : Codec Unit where
  enc _ := .ok []
  dec bs := .ok ((), bs)
  sz _ := .ok (.Constant 0)

/-- The `bool` delegate: one byte, `0x00` decodes to `false` and anything
else to `true`; only `0x01` is written for `true`. -/
def boolCodec : Codec Bool where
  enc v := .ok [if v then 0x1 else 0x0]
  dec bs := (readU8 bs).map fun (b, rest) => (decide (b ≠ 0x0), rest)
  sz _ := .ok (.Constant 1)

/-- The `Uuid` delegate: 16 raw bytes (`Uuid::from_slice` succeeds on any
16-byte buffer).  A `Uuid` is modelled as its 16-byte representation. -/
def uuidCodec : Codec Bytes where
  enc v := .ok v
  dec bs := (readExact 16 bs).map fun (buf, rest) => (buf, rest)
  sz _ := .ok (.Constant 16)

/-- The `VarInt` delegate (`ComponentType = i32`). -/
def varIntCodec : Codec Int where
  enc v := .ok (write_var_int v)
  dec := read_var_int
  sz v := .ok (.Dynamic (size_var_int v))

/-- The `VarLong` delegate (`ComponentType = i64`). -/
def varLongCodec : Codec Int where
  enc v := .ok (write_var_long v)
  dec := read_var_long
  sz v := .ok (.Dynamic (size_var_long v))

/-! ## Option delegate (`src/drax/src/delegate/option.rs`) -/

/-- The `Maybe<T>` delegate: one presence byte (`0x00` = absent, anything
else = present) followed by the inner encoding when present. -/
def maybeCodec (c : Codec α) : Codec (Option α) where
  enc v :=
    match v with
    | some x => (c.enc x).map fun bs => 1 :: bs
    | none => .ok [0]
  dec bs := do
    let (b, rest) ← readU8 bs
    if b = 0x0 then .ok (none, rest)
    else
      let (v, rest') ← c.dec rest
      .ok (some v, rest')
  sz v :=
    match v with
    | some x => (c.sz x).map fun s => (Size.Constant 1).add s
    | none => .ok (.Constant 1)

/-! ## Sequence delegates (`src/drax/src/delegate/vec.rs`) -/

/-- Decode `n` successive values with `c` (the `for _ in 0..len` loops of the
`Vec`/`[T; N]` delegates). -/
def decodeN (c : Codec α) : Nat → Bytes → DraxResult (List α × Bytes)
  | 0, bs => .ok ([], bs)
  | n + 1, bs => do
    let (v, rest) ← c.dec bs
    let (vs, rest') ← decodeN c n rest
    .ok (v :: vs, rest')

/-- Encode a list of values back to back with `c`. -/
def encodeList (c : Codec α) : List α → DraxResult Bytes
  | [] => .ok []
  | v :: vs => do
    let bs ← c.enc v
    let rest ← encodeList c vs
    .ok (bs ++ rest)

/-- The size loop of `Vec<T>::size`: `dynamic_counter` starts at the var-int
prefix size; the first element reporting `Constant x` short-circuits to
`Dynamic (x * len + prefix)`; otherwise the dynamic sizes accumulate. -/
def vecSizeLoop (c : Codec α) (len varIntSize : Nat) :
    List α → Nat → DraxResult Size
  | [], acc => .ok (.Dynamic acc)
  | v :: vs, acc => do
    match ← c.sz v with
    | .Constant x => .ok (.Dynamic (x * len + varIntSize))
    | .Dynamic x => vecSizeLoop c len varIntSize vs (acc + x)

/-- The `Vec<T>` delegate: var-int length prefix followed by the elements in
order. -/
def vecCodec (c : Codec α) : Codec (List α) where
  enc v := do
    let body ← encodeList c v
    .ok (write_var_int (usizeToI32 v.length) ++ body)
  dec bs := do
    let (len, rest) ← read_var_int bs
    decodeN c len.toNat rest
  sz v := vecSizeLoop c v.length (size_var_int (usizeToI32 v.length)) v
    (size_var_int (usizeToI32 v.length))

/-- The size loop of the `[T; N]` delegate: `dynamic_counter` starts at 0;
the first element reporting `Constant x` short-circuits to `Constant (x * N)`;
otherwise the dynamic sizes accumulate into a `Dynamic`. -/
def arraySizeLoop (c : Codec α) (N : Nat) : List α → Nat → DraxResult Size
  | [], acc => .ok (.Dynamic acc)
  | v :: vs, acc => do
    match ← c.sz v with
    | .Constant x => .ok (.Constant (x * N))
    | .Dynamic x => arraySizeLoop c N vs (acc + x)

/-- The `[T; N]` delegate: no length prefix, exactly `N` elements in order
(arrays are modelled as lists of length `N`). -/
def arrayCodec (c : Codec α) (N : Nat) : Codec (List α) where
  enc := encodeList c
  dec bs := decodeN c N bs
  sz v := arraySizeLoop c N v 0

/-- The `VecU8` delegate: var-int length prefix followed by the raw bytes. -/
def vecU8Codec : Codec Bytes where
  enc v := .ok (write_var_int (usizeToI32 v.length) ++ v)
  dec bs := do
    let (len, rest) ← read_var_int bs
    (readExact (toUnsigned 64 len) rest).map fun (buf, r) => (buf, r)
  sz v := .ok (.Dynamic (v.length + size_var_int (usizeToI32 v.length)))

/-- The `ByteDrain` delegate: consumes every remaining byte. -/
def byteDrainCodec : Codec Bytes where
  enc v := .ok v
  dec bs := .ok (bs, [])
  sz v := .ok (.Dynamic v.length)

/-- The `LimitedVec<T, N>` delegate: same framing as `Vec<T>` but both
directions first compare the (declared / actual) length against `N as i32`
and fail with `LimitExceeded` before any element-level work. -/
def limitedVecCodec (c : Codec α) (N : Nat) : Codec (List α) where
  enc v :=
    if usizeToI32 v.length > usizeToI32 N then
      .error (.LimitExceeded (usizeToI32 N) (usizeToI32 v.length) "encoding vec")
    else (vecCodec c).enc v
  dec bs := do
    let (len, rest) ← read_var_int bs
    if len > usizeToI32 N then
      .error (.LimitExceeded (usizeToI32 N) len "decoding vec")
    else decodeN c len.toNat rest
  sz := (vecCodec c).sz

/-! ## Map delegate (`src/drax/src/delegate/map.rs`)

A `HashMap` is modelled as its iteration-order association list; `insert`
replaces the value when the key is already present and appends otherwise. -/

def insertAssoc [DecidableEq κ] : List (κ × ν) → κ → ν → List (κ × ν)
  | [], k, v => [(k, v)]
  | (k', v') :: rest, k, v =>
    if k' = k then (k, v) :: rest else (k', v') :: insertAssoc rest k v

/-- The decode loop of `HashMap<K, V>`: decode `n` key/value pairs,
inserting each into the map. -/
def decodeMapN [DecidableEq κ] (ck : Codec κ) (cv : Codec ν) :
    Nat → Bytes → List (κ × ν) → DraxResult (List (κ × ν) × Bytes)
  | 0, bs, m => .ok (m, bs)
  | n + 1, bs, m => do
    let (k, r1) ← ck.dec bs
    let (v, r2) ← cv.dec r1
    decodeMapN ck cv n r2 (insertAssoc m k v)

/-- The encode loop of `HashMap<K, V>`: each key followed by its value. -/
def encodePairs (ck : Codec κ) (cv : Codec ν) : List (κ × ν) → DraxResult Bytes
  | [] => .ok []
  | (k, x) :: rest => do
    let bk ← ck.enc k
    let bv ← cv.enc x
    let br ← encodePairs ck cv rest
    .ok (bk ++ bv ++ br)

/-- The size loop of `HashMap<K, V>::size`: fold the key and value sizes
into the running `Size` with the `Size` algebra. -/
def mapSizeLoop (ck : Codec κ) (cv : Codec ν) : List (κ × ν) → Size → DraxResult Size
  | [], s => .ok s
  | (k, x) :: rest, s => do
    let sk ← ck.sz k
    let sx ← cv.sz x
    mapSizeLoop ck cv rest ((s.add sk).add sx)

/-- The `HashMap<K, V>` delegate: var-int entry-count prefix followed by the
key/value encodings; `size` combines the sub-sizes with the `Size` algebra. -/
def mapCodec [DecidableEq κ] (ck : Codec κ) (cv : Codec ν) : Codec (List (κ × ν)) where
  enc v := do
    let body ← encodePairs ck cv v
    .ok (write_var_int (usizeToI32 v.length) ++ body)
  dec bs := do
    let (len, rest) ← read_var_int bs
    decodeMapN ck cv len.toNat rest []
  sz v := mapSizeLoop ck cv v
    ((Size.Constant 0).add (.Dynamic (size_var_int (usizeToI32 v.length))))

/-- The `LimitedMap<K, V, N>` delegate. -/
def limitedMapCodec [DecidableEq κ] (ck : Codec κ) (cv : Codec ν) (N : Nat) :
    Codec (List (κ × ν)) where
  enc v :=
    if usizeToI32 v.length > usizeToI32 N then
      .error (.LimitExceeded (usizeToI32 N) (usizeToI32 v.length) "encoding map")
    else (mapCodec ck cv).enc v
  dec bs := do
    let (len, rest) ← read_var_int bs
    if len > usizeToI32 N then
      .error (.LimitExceeded (usizeToI32 N) len "decoding map")
    else decodeMapN ck cv len.toNat rest []
  sz := (mapCodec ck cv).sz

/-! ## Strings

A Rust `String` is modelled as its list of Unicode scalar values.  `utf8Encode`
and `fromUtf8` model `str::as_bytes` / `String::from_utf8` at the external
standard-library boundary (RFC 3629 UTF-8). -/

/-- A Unicode scalar value: below `0x110000` and not a surrogate. -/
def ValidScalar (c : Nat) : Prop := c < 0x110000 ∧ (c < 0xD800 ∨ 0xE000 ≤ c)

instance : DecidablePred ValidScalar := fun _ => by unfold ValidScalar; infer_instance

/-- UTF-8 encoding of one scalar value. -/
def utf8EncodeChar (c : Nat) : Bytes :=
  if c < 0x80 then [c]
  else if c < 0x800 then [0xC0 + c / 64, 0x80 + c % 64]
  else if c < 0x10000 then
    [0xE0 + c / 4096, 0x80 + c / 64 % 64, 0x80 + c % 64]
  else
    [0xF0 + c / 262144, 0x80 + c / 4096 % 64, 0x80 + c / 64 % 64, 0x80 + c % 64]

/-- `str::as_bytes`: the UTF-8 encoding of the string. -/
def utf8Encode (s : List Nat) : Bytes := (s.map utf8EncodeChar).flatten

/-- `str::len`: the UTF-8 byte length. -/
def utf8Len (s : List Nat) : Nat := (utf8Encode s).length

/-- Whether a byte is a UTF-8 continuation byte. -/
def isCont (b : Nat) : Bool := 0x80 ≤ b ∧ b < 0xC0

/-- One UTF-8 character step of `String::from_utf8`: `b` is the lead byte,
`rest` the bytes after it; rejects overlong forms, surrogates and
out-of-range values. -/
def utf8DecodeChar (b : Nat) (rest : Bytes) :
    DraxResult (Nat × {r : Bytes // r.length ≤ rest.length}) :=
  if b < 0x80 then .ok (b, ⟨rest, le_refl _⟩)
  else if b < 0xC2 then .error .Utf8Error
  else if b < 0xE0 then
    match rest with
    | b1 :: r =>
      if isCont b1 then .ok ((b - 0xC0) * 64 + (b1 - 0x80), ⟨r, by simp⟩)
      else .error .Utf8Error
    | _ => .error .Utf8Error
  else if b < 0xF0 then
    match rest with
    | b1 :: b2 :: r =>
      if isCont b1 && isCont b2 &&
          !(b = 0xE0 && b1 < 0xA0) && !(b = 0xED && 0xA0 ≤ b1) then
        .ok ((b - 0xE0) * 4096 + (b1 - 0x80) * 64 + (b2 - 0x80), ⟨r, by simp; omega⟩)
      else .error .Utf8Error
    | _ => .error .Utf8Error
  else if b < 0xF5 then
    match rest with
    | b1 :: b2 :: b3 :: r =>
      if isCont b1 && isCont b2 && isCont b3 &&
          !(b = 0xF0 && b1 < 0x90) && !(b = 0xF4 && 0x90 ≤ b1) then
        .ok ((b - 0xF0) * 262144 + (b1 - 0x80) * 4096 + (b2 - 0x80) * 64 + (b3 - 0x80),
          ⟨r, by simp; omega⟩)
      else .error .Utf8Error
    | _ => .error .Utf8Error
  else .error .Utf8Error

/-- `String::from_utf8`: parse and validate UTF-8 one character at a
time. -/
def fromUtf8 (bs : Bytes) : DraxResult (List Nat) :=
  match bs with
  | [] => .ok []
  | b :: rest =>
    match utf8DecodeChar b rest with
    | .error e => .error e
    | .ok (c, ⟨r, _⟩) => (fromUtf8 r).map fun s => c :: s
termination_by bs.length
decreasing_by simp; omega

/-! ## String delegates (`src/drax/src/delegate/string.rs`) -/

/-- `STRING_DEFAULT_CAP = 32767 * 4`. -/
def STRING_DEFAULT_CAP : Int := 32767 * 4

/-- The `String` delegate: var-int byte-length prefix followed by the UTF-8
bytes; both directions reject lengths above `STRING_DEFAULT_CAP` with
`LimitExceeded` before the buffer is allocated or written. -/
def stringCodec : Codec (List Nat) where
  enc s :=
    let len := usizeToI32 (utf8Len s)
    if len > STRING_DEFAULT_CAP then
      .error (.LimitExceeded STRING_DEFAULT_CAP len "encoding string")
    else .ok (write_var_int len ++ utf8Encode s)
  dec bs := do
    let (len, rest) ← read_var_int bs
    if len > STRING_DEFAULT_CAP then
      .error (.LimitExceeded STRING_DEFAULT_CAP len "decoding string")
    else do
      let (buf, r) ← readExact (toUnsigned 64 len) rest
      let s ← fromUtf8 buf
      .ok (s, r)
  sz s := .ok (.Dynamic (utf8Len s + size_var_int (usizeToI32 (utf8Len s))))

/-- The `LimitedString<N>` delegate: compares the byte length against
`N as i32` before delegating to the `String` delegate. -/
def limitedStringCodec (N : Nat) : Codec (List Nat) where
  enc s :=
    let len := usizeToI32 (utf8Len s)
    if len > usizeToI32 N then
      .error (.LimitExceeded (usizeToI32 N) len "encoding string")
    else stringCodec.enc s
  dec bs := do
    let (stringSize, rest) ← read_var_int bs
    if stringSize > usizeToI32 N then
      .error (.LimitExceeded (usizeToI32 N) stringSize "decoding string")
    else do
      let (buf, r) ← readExact (toUnsigned 64 stringSize) rest
      let s ← fromUtf8 buf
      .ok (s, r)
  sz := stringCodec.sz

/-! ## Indirection delegates (`src/drax/src/delegate/referenced.rs`)

`Box<T>` and `Arc<T>` forward every operation to `T`; the indirection is
modelled as the identity on the component type. -/

def boxCodec (c : Codec α) : Codec α where
  enc := c.enc
  dec := c.dec
  sz := c.sz

/-! ## Round-trip predicates -/

/-- The spec's round-trip contract for a delegate, restricted to the values
`P` (the values representable by the delegate's Rust component type):
encoding succeeds, decoding the produced bytes (before any continuation)
returns the value and leaves the continuation untouched, and the reported
size carries exactly the number of bytes written. -/
def GoodOn (c : Codec α) (P : α → Prop) : Prop :=
  ∀ v, P v → ∃ bs, c.enc v = .ok bs ∧
    (∀ rest, c.dec (bs ++ rest) = .ok (v, rest)) ∧
    ∃ s, c.sz v = .ok s ∧ s.bytes = bs.length

/-- Every `P`-value reports the same constant size `k`. -/
def SizeAllConstant (c : Codec α) (P : α → Prop) (k : Nat) : Prop :=
  ∀ v, P v → c.sz v = .ok (.Constant k)

/-- Every `P`-value reports a dynamic size. -/
def SizeAllDynamic (c : Codec α) (P : α → Prop) : Prop :=
  ∀ v, P v → ∃ d, c.sz v = .ok (.Dynamic d)

/-! ## NBT tree codec (`src/drax/src/delegate/nbt.rs`) -/

/-- `readExact` variant whose remainder carries its length bound (used by the
recursive tree decoder so that termination and consumption bounds flow
through the recursion). -/
def readExactSub (n : Nat) (bs : Bytes) :
    DraxResult (Bytes × {r : Bytes // r.length + n ≤ bs.length}) :=
  if h : n ≤ bs.length then
    .ok (bs.take n, ⟨bs.drop n, by simp; omega⟩)
  else .error .IoError

/-- CESU-8 / Java modified UTF-8 encoding of one scalar value (the `cesu8`
crate's `to_java_cesu8` at the dependency boundary): `NUL` becomes
`C0 80`, BMP characters use the 1–3 byte UTF-8 forms, supplementary
characters become a surrogate pair of two 3-byte sequences. -/
def cesuEncodeChar (c : Nat) : Bytes :=
  if c = 0 then [0xC0, 0x80]
  else if c < 0x80 then [c]
  else if c < 0x800 then [0xC0 + c / 64, 0x80 + c % 64]
  else if c < 0x10000 then [0xE0 + c / 4096, 0x80 + c / 64 % 64, 0x80 + c % 64]
  else
    let v := c - 0x10000
    let hi := 0xD800 + v / 1024
    let lo := 0xDC00 + v % 1024
    [0xE0 + hi / 4096, 0x80 + hi / 64 % 64, 0x80 + hi % 64,
      0xE0 + lo / 4096, 0x80 + lo / 64 % 64, 0x80 + lo % 64]

/-- `to_java_cesu8` on a whole string. -/
def cesuEncode (s : List Nat) : Bytes := (s.map cesuEncodeChar).flatten

/-- The CESU-8 byte length of a string. -/
def cesuLen (s : List Nat) : Nat := (cesuEncode s).length

/-- One character step of `from_java_cesu8` (the `cesu8` crate at the
dependency boundary): `b` is the lead byte, `rest`
the bytes after it; 3-byte high-surrogate sequences must be followed by a
3-byte low-surrogate sequence, which is combined into a supplementary
scalar; unpaired surrogates and malformed or 4-byte sequences are
rejected. -/
def cesuDecodeChar (b : Nat) (rest : Bytes) :
    Option (Nat × {r : Bytes // r.length ≤ rest.length}) :=
  if b < 0x80 then some (b, ⟨rest, le_refl _⟩)
  else if b < 0xC0 then none
  else if b < 0xE0 then
    match rest with
    | b1 :: r =>
      if isCont b1 then some ((b - 0xC0) * 64 + (b1 - 0x80), ⟨r, by simp⟩)
      else none
    | _ => none
  else if b < 0xF0 then
    match rest with
    | b1 :: b2 :: r =>
      if isCont b1 && isCont b2 then
        if 0xD800 ≤ (b - 0xE0) * 4096 + (b1 - 0x80) * 64 + (b2 - 0x80) ∧
            (b - 0xE0) * 4096 + (b1 - 0x80) * 64 + (b2 - 0x80) < 0xDC00 then
          match r with
          | c0 :: c1 :: c2 :: r2 =>
            if 0xE0 ≤ c0 ∧ c0 < 0xF0 ∧ isCont c1 ∧ isCont c2 then
              if 0xDC00 ≤ (c0 - 0xE0) * 4096 + (c1 - 0x80) * 64 + (c2 - 0x80) ∧
                  (c0 - 0xE0) * 4096 + (c1 - 0x80) * 64 + (c2 - 0x80) < 0xE000 then
                some (0x10000 +
                  ((b - 0xE0) * 4096 + (b1 - 0x80) * 64 + (b2 - 0x80) - 0xD800) * 1024 +
                  ((c0 - 0xE0) * 4096 + (c1 - 0x80) * 64 + (c2 - 0x80) - 0xDC00),
                  ⟨r2, by simp; omega⟩)
              else none
            else none
          | _ => none
        else if 0xDC00 ≤ (b - 0xE0) * 4096 + (b1 - 0x80) * 64 + (b2 - 0x80) ∧
            (b - 0xE0) * 4096 + (b1 - 0x80) * 64 + (b2 - 0x80) < 0xE000 then
          none
        else
          some ((b - 0xE0) * 4096 + (b1 - 0x80) * 64 + (b2 - 0x80), ⟨r, by simp; omega⟩)
      else none
    | _ => none
  else none

/-- `from_java_cesu8` one character at a time. -/
def cesuDecode (bs : Bytes) : Option (List Nat) :=
  match bs with
  | [] => some []
  | b :: rest =>
    match cesuDecodeChar b rest with
    | none => none
    | some (c, ⟨r, _⟩) => (cesuDecode r).map fun s => c :: s
termination_by bs.length
decreasing_by simp; omega

/-- `NbtAccounter`: the byte-budget tracker (`limit` and `current` are
`u64`; `limit = 0` disables the guard). -/
structure NbtAccounter where
  limit : Nat
  current : Nat
  deriving DecidableEq, Repr

/-- `NbtAccounter::account_bytes`: a no-op when `limit = 0`; otherwise
`current + bytes` is computed with `u64::checked_add` (`AccounterOverflow`
past `2^64`), compared against `limit` (`TagTooBig` when exceeded) and
stored. -/
def NbtAccounter.account_bytes (a : NbtAccounter) (bytes : Nat) :
    DraxResult NbtAccounter :=
  if a.limit = 0 then .ok a
  else if a.current + bytes < 2 ^ 64 then
    if a.current + bytes > a.limit then
      .error (.NbtErr (.TagTooBig a.limit (a.current + bytes)))
    else .ok ⟨a.limit, a.current + bytes⟩
  else .error (.NbtErr .AccounterOverflow)

/-- The `Tag` tree (`define_tags!`): one case per tag kind.  `u8`/`u16`
payloads are `Nat`s, `i32`/`i64` payloads are `Int`s, floats are their bit
patterns, strings are scalar-value lists. -/
inductive Tag where
  | TagEnd : Tag
  | TagByte (v : Nat) : Tag
  | TagShort (v : Nat) : Tag
  | TagInt (v : Int) : Tag
  | TagLong (v : Int) : Tag
  | TagFloat (bits : Nat) : Tag
  | TagDouble (bits : Nat) : Tag
  | TagByteArray (v : List Nat) : Tag
  | TagString (s : List Nat) : Tag
  | TagList (elemBit : Nat) (elems : List Tag) : Tag
  | CompoundTag (entries : List (List Nat × Tag)) : Tag
  | TagIntArray (v : List Int) : Tag
  | TagLongArray (v : List Int) : Tag

/-- `Tag::get_tag_bit`: the wire tag-kind identifier (0–12). -/
def Tag.getTagBit : Tag → Nat
  | .TagEnd => 0
  | .TagByte _ => 1
  | .TagShort _ => 2
  | .TagInt _ => 3
  | .TagLong _ => 4
  | .TagFloat _ => 5
  | .TagDouble _ => 6
  | .TagByteArray _ => 7
  | .TagString _ => 8
  | .TagList _ _ => 9
  | .CompoundTag _ => 10
  | .TagIntArray _ => 11
  | .TagLongArray _ => 12

/-- `write_string`: 2-byte big-endian length prefix (`cesu_8.len() as u16`,
i.e. the CESU-8 length reduced mod `2^16`) followed by all CESU-8 bytes. -/
def write_string (s : List Nat) : Bytes := beBytes 2 (cesuLen s) ++ cesuEncode s

/-- `size_string`: 2 bytes of prefix plus the CESU-8 length. -/
def size_string (s : List Nat) : DraxResult Nat := .ok (2 + cesuLen s)

/-- `write_tag`: the per-kind write rules of `define_tags!` (the kind byte
is written by the container, not here). -/
def write_tag : Tag → Bytes
  | .TagEnd => []
  | .TagByte v => beBytes 1 v
  | .TagShort v => beBytes 2 v
  | .TagInt v => beBytes 4 (toUnsigned 32 v)
  | .TagLong v => beBytes 8 (toUnsigned 64 v)
  | .TagFloat bits => beBytes 4 bits
  | .TagDouble bits => beBytes 8 bits
  | .TagByteArray v => beBytes 4 v.length ++ v
  | .TagString s => write_string s
  | .TagList b elems =>
    beBytes 1 b ++ beBytes 4 elems.length ++
      (elems.attach.map fun t => write_tag t.val).flatten
  | .CompoundTag entries =>
    if entries.isEmpty then [0]
    else
      (entries.attach.map fun e =>
        beBytes 1 e.val.2.getTagBit ++ write_string e.val.1 ++ write_tag e.val.2).flatten
        ++ [0]
  | .TagIntArray v =>
    beBytes 4 v.length ++ (v.map fun i => beBytes 4 (toUnsigned 32 i)).flatten
  | .TagLongArray v =>
    beBytes 4 v.length ++ (v.map fun i => beBytes 8 (toUnsigned 64 i)).flatten
termination_by t => t
decreasing_by
  · have := List.sizeOf_lt_of_mem t.property
    simp_wf
    omega
  · have h1 := List.sizeOf_lt_of_mem e.property
    have h2 : sizeOf e.val = 1 + sizeOf e.val.1 + sizeOf e.val.2 := by
      obtain ⟨⟨k, v⟩, hm⟩ := e
      simp
    simp_wf
    omega

/-- The pure value of `size_tag` (whose source body never returns an
error). -/
def sizeTagNat : Tag → Nat
  | .TagEnd => 0
  | .TagByte _ => 1
  | .TagShort _ => 2
  | .TagInt _ => 4
  | .TagLong _ => 8
  | .TagFloat _ => 4
  | .TagDouble _ => 8
  | .TagByteArray v => 4 + v.length
  | .TagString s => 2 + cesuLen s
  | .TagList _ elems => 5 + (elems.attach.map fun t => sizeTagNat t.val).sum
  | .CompoundTag entries =>
    if entries.isEmpty then 1
    else
      (entries.attach.map fun e => (2 + cesuLen e.val.1) + 1 + sizeTagNat e.val.2).sum + 1
  | .TagIntArray v => 4 + 4 * v.length
  | .TagLongArray v => 4 + 8 * v.length
termination_by t => t
decreasing_by
  · have := List.sizeOf_lt_of_mem t.property
    simp_wf
    omega
  · have h1 := List.sizeOf_lt_of_mem e.property
    have h2 : sizeOf e.val = 1 + sizeOf e.val.1 + sizeOf e.val.2 := by
      obtain ⟨⟨k, v⟩, hm⟩ := e
      simp
    simp_wf
    omega

/-- `size_tag` from `define_tags!`. -/
def size_tag (t : Tag) : DraxResult Nat := .ok (sizeTagNat t)

/-- `read_string` with a consumption bound on the remainder (at least the
2-byte prefix is consumed): reads the `u16` length, then that many payload
bytes, CESU-8 decodes them, and debits the decoded string's UTF-8 length
from the accounter. -/
def read_string_sub (bs : Bytes) (acct : NbtAccounter) :
    DraxResult ((List Nat × NbtAccounter) × {r : Bytes // r.length + 2 ≤ bs.length}) :=
  match readExactSub 2 bs with
  | .error e => .error e
  | .ok (lenBytes, ⟨r1, hr1⟩) =>
    match readExactSub (beValue lenBytes) r1 with
    | .error e => .error e
    | .ok (payload, ⟨r2, hr2⟩) =>
      match cesuDecode payload with
      | none => .error (.NbtErr .Cesu8DecodingError)
      | some s =>
        match acct.account_bytes (utf8Len s) with
        | .error e => .error e
        | .ok a => .ok ((s, a), ⟨r2, by omega⟩)

/-- `read_string` from `nbt.rs`. -/
def read_string (bs : Bytes) (acct : NbtAccounter) :
    DraxResult (List Nat × NbtAccounter × Bytes) :=
  (read_string_sub bs acct).map fun (p, r) => (p.1, p.2, r.val)

/-- The `for _ in 0..len { read_iw() }` loops of `TagIntArray`/`TagLongArray`:
read `n` big-endian `w`-byte signed integers. -/
def readIntsSub (w : Nat) : (n : Nat) → (bs : Bytes) →
    DraxResult (List Int × {r : Bytes // r.length ≤ bs.length})
  | 0, bs => .ok ([], ⟨bs, le_refl _⟩)
  | n + 1, bs =>
    match readExactSub w bs with
    | .error e => .error e
    | .ok (buf, ⟨r1, hr1⟩) =>
      match readIntsSub w n r1 with
      | .error e => .error e
      | .ok (vs, ⟨r2, hr2⟩) =>
        .ok (toSigned (8 * w) (beValue buf) :: vs, ⟨r2, by omega⟩)

mutual

/-- `load_tag` from `define_tags!`: dispatch on the tag-kind `bit`, debit
the per-kind weight, and read the payload (recursively for `TagList` /
`CompoundTag`, which first check the depth guard `depth > 512`). -/
def loadTagSub (bytes : Bytes) (bit : Nat) (depth : Nat) (acct : NbtAccounter) :
    DraxResult (Tag × NbtAccounter × {r : Bytes // r.length ≤ bytes.length}) :=
  match bit with
  | 0 => (acct.account_bytes 8).map fun a => (.TagEnd, a, ⟨bytes, le_refl _⟩)
  | 1 =>
    match acct.account_bytes 9 with
    | .error e => .error e
    | .ok a =>
      match bytes with
      | [] => .error .IoError
      | b :: r => .ok (.TagByte b, a, ⟨r, by simp⟩)
  | 2 =>
    match acct.account_bytes 10 with
    | .error e => .error e
    | .ok a =>
      match readExactSub 2 bytes with
      | .error e => .error e
      | .ok (buf, ⟨r, hr⟩) => .ok (.TagShort (beValue buf), a, ⟨r, by omega⟩)
  | 3 =>
    match acct.account_bytes 12 with
    | .error e => .error e
    | .ok a =>
      match readExactSub 4 bytes with
      | .error e => .error e
      | .ok (buf, ⟨r, hr⟩) =>
        .ok (.TagInt (toSigned 32 (beValue buf)), a, ⟨r, by omega⟩)
  | 4 =>
    match acct.account_bytes 16 with
    | .error e => .error e
    | .ok a =>
      match readExactSub 8 bytes with
      | .error e => .error e
      | .ok (buf, ⟨r, hr⟩) =>
        .ok (.TagLong (toSigned 64 (beValue buf)), a, ⟨r, by omega⟩)
  | 5 =>
    match acct.account_bytes 12 with
    | .error e => .error e
    | .ok a =>
      match readExactSub 4 bytes with
      | .error e => .error e
      | .ok (buf, ⟨r, hr⟩) => .ok (.TagFloat (beValue buf), a, ⟨r, by omega⟩)
  | 6 =>
    match acct.account_bytes 16 with
    | .error e => .error e
    | .ok a =>
      match readExactSub 8 bytes with
      | .error e => .error e
      | .ok (buf, ⟨r, hr⟩) => .ok (.TagDouble (beValue buf), a, ⟨r, by omega⟩)
  | 7 =>
    match acct.account_bytes 24 with
    | .error e => .error e
    | .ok a =>
      match readExactSub 4 bytes with
      | .error e => .error e
      | .ok (lenb, ⟨r1, hr1⟩) =>
        let len := toSigned 32 (beValue lenb)
        match a.account_bytes (toUnsigned 64 len) with
        | .error e => .error e
        | .ok a2 =>
          match readExactSub (toUnsigned 64 len) r1 with
          | .error e => .error e
          | .ok (payload, ⟨r2, hr2⟩) =>
            .ok (.TagByteArray payload, a2, ⟨r2, by omega⟩)
  | 8 =>
    match acct.account_bytes 36 with
    | .error e => .error e
    | .ok a =>
      match read_string_sub bytes a with
      | .error e => .error e
      | .ok ((s, a2), ⟨r, hr⟩) => .ok (.TagString s, a2, ⟨r, by omega⟩)
  | 9 =>
    match acct.account_bytes 37 with
    | .error e => .error e
    | .ok a =>
      if depth > 512 then .error (.NbtErr .ComplexTag)
      else
        match bytes with
        | [] => .error .IoError
        | tagByte :: r1 =>
          match readExactSub 4 r1 with
          | .error e => .error e
          | .ok (lenb, ⟨r2, hr2⟩) =>
            let length := toSigned 32 (beValue lenb)
            match a.account_bytes (toUnsigned 64 (wrapI32 (4 * length))) with
            | .error e => .error e
            | .ok a2 =>
              match loadListSub r2 tagByte length.toNat (depth + 1) a2 with
              | .error e => .error e
              | .ok (elems, a3, ⟨r3, hr3⟩) =>
                .ok (.TagList tagByte elems, a3, ⟨r3, by simp; omega⟩)
  | 10 =>
    match acct.account_bytes 48 with
    | .error e => .error e
    | .ok a =>
      if depth > 512 then .error (.NbtErr .ComplexTag)
      else
        match loadCompoundSub bytes depth a with
        | .error e => .error e
        | .ok (entries, a2, ⟨r, hr⟩) => .ok (.CompoundTag entries, a2, ⟨r, hr⟩)
  | 11 =>
    match acct.account_bytes 24 with
    | .error e => .error e
    | .ok a =>
      match readExactSub 4 bytes with
      | .error e => .error e
      | .ok (lenb, ⟨r1, hr1⟩) =>
        let len := toSigned 32 (beValue lenb)
        match a.account_bytes (toUnsigned 64 (wrapI32 (4 * len))) with
        | .error e => .error e
        | .ok a2 =>
          match readIntsSub 4 len.toNat r1 with
          | .error e => .error e
          | .ok (vs, ⟨r2, hr2⟩) => .ok (.TagIntArray vs, a2, ⟨r2, by omega⟩)
  | 12 =>
    match acct.account_bytes 24 with
    | .error e => .error e
    | .ok a =>
      match readExactSub 4 bytes with
      | .error e => .error e
      | .ok (lenb, ⟨r1, hr1⟩) =>
        let len := toSigned 32 (beValue lenb)
        match a.account_bytes (toUnsigned 64 (wrapI32 (8 * len))) with
        | .error e => .error e
        | .ok a2 =>
          match readIntsSub 8 len.toNat r1 with
          | .error e => .error e
          | .ok (vs, ⟨r2, hr2⟩) => .ok (.TagLongArray vs, a2, ⟨r2, by omega⟩)
  | b => .error (.NbtErr (.InvalidTagBit b))
termination_by (bytes.length, 1)
decreasing_by
  all_goals simp_wf
  · exact Prod.Lex.left _ _ (by omega)
  · exact Prod.Lex.right _ (by omega)

/-- The element loop of `TagList` reading: `count` payloads of kind
`tagByte`, each at the already-incremented depth. -/
def loadListSub (bytes : Bytes) (tagByte count depth : Nat) (acct : NbtAccounter) :
    DraxResult (List Tag × NbtAccounter × {r : Bytes // r.length ≤ bytes.length}) :=
  match count with
  | 0 => .ok ([], acct, ⟨bytes, le_refl _⟩)
  | n + 1 =>
    match loadTagSub bytes tagByte depth acct with
    | .error e => .error e
    | .ok (t, a, ⟨r, hr⟩) =>
      match loadListSub r tagByte n depth a with
      | .error e => .error e
      | .ok (ts, a2, ⟨r2, hr2⟩) => .ok (t :: ts, a2, ⟨r2, by omega⟩)
termination_by (bytes.length, 2 + count)
decreasing_by
  all_goals simp_wf
  · exact Prod.Lex.right _ (by omega)
  · rcases Nat.lt_or_ge r.length bytes.length with h | h
    · exact Prod.Lex.left _ _ h
    · have : r.length = bytes.length := by omega
      rw [this]
      exact Prod.Lex.right _ (by omega)

/-- The entry loop of `CompoundTag` reading: read a kind byte (0
terminates), debit the entry overhead, read the name and the payload (at
`depth + 1`), then the trailing per-entry weight, and continue. -/
def loadCompoundSub (bytes : Bytes) (depth : Nat) (acct : NbtAccounter) :
    DraxResult (List (List Nat × Tag) × NbtAccounter ×
      {r : Bytes // r.length ≤ bytes.length}) :=
  match bytes with
  | [] => .error .IoError
  | tagByte :: r1 =>
    if tagByte = 0 then .ok ([], acct, ⟨r1, by simp⟩)
    else
      match acct.account_bytes 28 with
      | .error e => .error e
      | .ok a =>
        match read_string_sub r1 a with
        | .error e => .error e
        | .ok ((key, a2), ⟨r2, hr2⟩) =>
          match loadTagSub r2 tagByte (depth + 1) a2 with
          | .error e => .error e
          | .ok (data, a3, ⟨r3, hr3⟩) =>
            match a3.account_bytes 36 with
            | .error e => .error e
            | .ok a4 =>
              match loadCompoundSub r3 depth a4 with
              | .error e => .error e
              | .ok (entries, a5, ⟨r4, hr4⟩) =>
                .ok ((key, data) :: entries, a5, ⟨r4, by simp; omega⟩)
termination_by (bytes.length, 0)
decreasing_by
  all_goals simp_wf
  · exact Prod.Lex.left _ _ (by omega)
  · exact Prod.Lex.left _ _ (by omega)

end

/-- `load_tag` from `nbt.rs` (remainder bound stripped). -/
def load_tag (bytes : Bytes) (bit depth : Nat) (acct : NbtAccounter) :
    DraxResult (Tag × NbtAccounter × Bytes) :=
  (loadTagSub bytes bit depth acct).map fun (t, a, r) => (t, a, r.val)

/-- The `EnsuredCompoundTag<LIMIT>` delegate: 1 framing byte (0 = absent,
10 = present compound), then an (ignored, empty-on-write) root name string,
then the compound payload decoded at depth 0 with a fresh accounter wired to
`LIMIT`. -/
def ensuredCompoundTag (LIMIT : Nat) : Codec (Option Tag) where
  enc v :=
    match v with
    | some tag => .ok (beBytes 1 10 ++ write_string [] ++ write_tag tag)
    | none => .ok [0]
  dec bs :=
    match bs with
    | [] => .error .IoError
    | b :: rest =>
      if b = 0 then .ok (none, rest)
      else if b ≠ 10 then .error (.NbtErr (.InvalidTagBit b))
      else do
        let (_, a1, r1) ← read_string rest ⟨LIMIT, 0⟩
        let (tag, _, r2) ← load_tag r1 b 0 a1
        .ok (some tag, r2)
  sz v :=
    match v with
    | some tag => (size_tag tag).map fun n => (Size.Dynamic 3).addUsize n
    | none => .ok (.Constant 1)

/-! ## Synthetic nested-list chains (for the depth-guard analysis)

`chainPayload n` is the wire payload of `n + 1` nested `TagList` nodes (the
kind byte of the outermost node is supplied out of band, as always): each
level declares element kind 9 and count 1, and the innermost level is an
empty list of element kind 1.  `chainTag n` is the corresponding value. -/

def chainPayload : Nat → Bytes
  | 0 => [1, 0, 0, 0, 0]
  | n + 1 => 9 :: 0 :: 0 :: 0 :: 1 :: chainPayload n

def chainTag : Nat → Tag
  | 0 => .TagList 1 []
  | n + 1 => .TagList 9 [chainTag n]

/-- Budget-guard errors. -/
def notBudgetErr : TransportError → Prop
  | .NbtErr (.TagTooBig _ _) => False
  | .NbtErr .AccounterOverflow => False
  | _ => True

/-- Result of a limit-0 decode step: the accounter is untouched on success,
and failures are never budget failures. -/
def limit0Ok (c : Nat) : DraxResult (α × NbtAccounter × β) → Prop
  | .ok (_, a, _) => a = ⟨0, c⟩
  | .error e => notBudgetErr e

/-- A string payload representable on the wire: scalar values with a CESU-8
length that fits the `u16` prefix. -/
def wfString (s : List Nat) : Prop := (∀ c ∈ s, ValidScalar c) ∧ cesuLen s < 2 ^ 16

mutual

/-- Well-formedness of a tag at decode depth `d`: payloads representable by
the Rust component types, homogeneous lists whose kind byte matches the
elements, no `TagEnd` compound entries, and nesting compatible with the
depth guard. -/
def wfTag : Nat → Tag → Prop
  | _, .TagEnd => True
  | _, .TagByte v => v < 2 ^ 8
  | _, .TagShort v => v < 2 ^ 16
  | _, .TagInt v => -((2 ^ 31 : Nat) : Int) ≤ v ∧ v < ((2 ^ 31 : Nat) : Int)
  | _, .TagLong v => -((2 ^ 63 : Nat) : Int) ≤ v ∧ v < ((2 ^ 63 : Nat) : Int)
  | _, .TagFloat bits => bits < 2 ^ 32
  | _, .TagDouble bits => bits < 2 ^ 64
  | _, .TagByteArray v => (∀ b ∈ v, b < 2 ^ 8) ∧ v.length < 2 ^ 31
  | _, .TagString s => wfString s
  | d, .TagList b elems => d ≤ 512 ∧ b < 2 ^ 8 ∧ elems.length < 2 ^ 31 ∧
      wfList b (d + 1) elems
  | d, .CompoundTag entries => d ≤ 512 ∧ wfEntries (d + 1) entries
  | _, .TagIntArray v => v.length < 2 ^ 31 ∧
      ∀ i ∈ v, -((2 ^ 31 : Nat) : Int) ≤ i ∧ i < ((2 ^ 31 : Nat) : Int)
  | _, .TagLongArray v => v.length < 2 ^ 31 ∧
      ∀ i ∈ v, -((2 ^ 63 : Nat) : Int) ≤ i ∧ i < ((2 ^ 63 : Nat) : Int)

/-- Every element has kind byte `b` and is well-formed at depth `d`. -/
def wfList (b : Nat) : Nat → List Tag → Prop
  | _, [] => True
  | d, t :: ts => t.getTagBit = b ∧ wfTag d t ∧ wfList b d ts

/-- Every entry has a representable name, a non-`TagEnd` value, and a
well-formed value at depth `d`. -/
def wfEntries : Nat → List (List Nat × Tag) → Prop
  | _, [] => True
  | d, (k, t) :: es => wfString k ∧ t.getTagBit ≠ 0 ∧ wfTag d t ∧ wfEntries d es

end

/-- The `TagList` element loop with the remainder bound stripped. -/
def load_list (bytes : Bytes) (tagByte count depth : Nat) (acct : NbtAccounter) :
    DraxResult (List Tag × NbtAccounter × Bytes) :=
  (loadListSub bytes tagByte count depth acct).map fun y => (y.1, y.2.1, y.2.2.val)

/-- The `CompoundTag` entry loop with the remainder bound stripped. -/
def load_compound (bytes : Bytes) (depth : Nat) (acct : NbtAccounter) :
    DraxResult (List (List Nat × Tag) × NbtAccounter × Bytes) :=
  (loadCompoundSub bytes depth acct).map fun y => (y.1, y.2.1, y.2.2.val)


/-! ### Bit-arithmetic helpers -/

theorem and_mask_high (a b u : Nat) (hb : b ≤ a) (hu : u < 2 ^ a) :
    u &&& (2 ^ a - 2 ^ b) = 2 ^ b * (u / 2 ^ b) := by
  have hmask : 2 ^ a - 2 ^ b = (2 ^ (a - b) - 1) <<< b := by
    rw [Nat.shiftLeft_eq, Nat.sub_mul, ← Nat.pow_add, one_mul]
    congr 2
    omega
  have hres : 2 ^ b * (u / 2 ^ b) = (u >>> b) <<< b := by
    rw [Nat.shiftLeft_eq, Nat.shiftRight_eq_div_pow, Nat.mul_comm]
  rw [hmask, hres]
  refine Nat.eq_of_testBit_eq fun i => ?_
  rw [Nat.testBit_and, Nat.testBit_shiftLeft, Nat.testBit_shiftLeft,
    Nat.testBit_two_pow_sub_one, Nat.testBit_shiftRight]
  by_cases h1 : b ≤ i
  · by_cases h2 : i < a
    · have h3 : b + (i - b) = i := by omega
      have h4 : i - b < a - b := by omega
      simp [h1, h3, h4]
    · have hfalse : u.testBit i = false :=
        Nat.testBit_lt_two_pow (lt_of_lt_of_le hu (Nat.pow_le_pow_right (by omega) (by omega)))
      have h3 : b + (i - b) = i := by omega
      simp [h1, h3, hfalse]
  · simp [h1]

theorem and_mask_high_eq_zero_iff (a b u : Nat) (hb : b ≤ a) (hu : u < 2 ^ a) :
    u &&& (2 ^ a - 2 ^ b) = 0 ↔ u < 2 ^ b := by
  rw [and_mask_high a b u hb hu]
  have hpos : 0 < 2 ^ b := Nat.pos_pow_of_pos b (by omega)
  constructor
  · intro h
    rcases Nat.mul_eq_zero.mp h with h | h
    · omega
    · exact (Nat.div_eq_zero_iff hpos).mp h
  · intro h
    rw [Nat.div_eq_of_lt h, Nat.mul_zero]

theorem or_two_pow_and_low (x : Nat) : (x ||| 2 ^ 7) &&& (2 ^ 7 - 1) = x &&& (2 ^ 7 - 1) := by
  refine Nat.eq_of_testBit_eq fun i => ?_
  rw [Nat.testBit_and, Nat.testBit_and, Nat.testBit_or, Nat.testBit_two_pow,
    Nat.testBit_two_pow_sub_one]
  by_cases h : i < 7 <;> simp [h] <;> omega

theorem or_two_pow_and_self_ne (x : Nat) : (x ||| 2 ^ 7) &&& 2 ^ 7 ≠ 0 := by
  rw [Nat.and_two_pow, Nat.testBit_or, Nat.testBit_two_pow]
  simp

theorem lt_two_pow_and_self (u : Nat) (h : u < 2 ^ 7) : u &&& 2 ^ 7 = 0 := by
  rw [Nat.and_two_pow, Nat.testBit_lt_two_pow h]
  simp

theorem and_mask_low (x n : Nat) : x &&& (2 ^ n - 1) = x % 2 ^ n := by
  refine Nat.eq_of_testBit_eq fun i => ?_
  rw [Nat.testBit_and, Nat.testBit_two_pow_sub_one, Nat.testBit_mod_two_pow]
  by_cases h : i < n <;> simp [h]

theorem shift_or_recombine (u offset : Nat) :
    (u % 2 ^ 7) <<< offset ||| (u / 2 ^ 7) <<< (offset + 7) = u <<< offset := by
  have hdiv : u / 2 ^ 7 = u >>> 7 := (Nat.shiftRight_eq_div_pow u 7).symm
  rw [hdiv]
  refine Nat.eq_of_testBit_eq fun i => ?_
  rw [Nat.testBit_or, Nat.testBit_shiftLeft, Nat.testBit_shiftLeft,
    Nat.testBit_shiftLeft, Nat.testBit_mod_two_pow, Nat.testBit_shiftRight]
  by_cases h1 : offset ≤ i
  · by_cases h2 : offset + 7 ≤ i
    · have he : ¬ (i - offset < 7) := by omega
      have he2 : 7 + (i - (offset + 7)) = i - offset := by omega
      simp [h1, h2, he, he2]
    · have he : i - offset < 7 := by omega
      simp [h1, h2, he]
  · have h2 : ¬ offset + 7 ≤ i := by omega
    simp [h1, h2]

theorem writeVarNumAux_length (mask : Nat) :
    ∀ u, (writeVarNumAux mask u).length = sizeVarNumAux mask u := by
  intro u
  induction u using writeVarNumAux.induct mask with
  | case1 v hv => rw [writeVarNumAux, sizeVarNumAux]; simp [hv]
  | case2 v hv ih => rw [writeVarNumAux, sizeVarNumAux]; simp [hv, ih]; omega

theorem readVarNumAux_writeVarNumAux (L w : Nat) (hw : 7 ≤ w) (hLw : w ≤ L) :
    ∀ u value offset rest, u < 2 ^ (w - offset) → offset < w → value < 2 ^ w →
      readVarNumAux L w (writeVarNumAux (2 ^ w - 2 ^ 7) u ++ rest) value offset =
        .ok (value ||| u <<< offset, rest) := by
  intro u
  induction u using writeVarNumAux.induct (2 ^ w - 2 ^ 7) with
  | case1 v hv =>
    intro value offset rest hu hoff hval
    have hva : v < 2 ^ w := lt_of_lt_of_le hu (Nat.pow_le_pow_right (by omega) (by omega))
    have hvlt : v < 2 ^ 7 := (and_mask_high_eq_zero_iff w 7 v hw hva).mp hv
    rw [writeVarNumAux]
    simp only [hv, dif_pos]
    rw [Nat.mod_eq_of_lt (lt_of_lt_of_le hvlt (by norm_num)), List.cons_append,
      readVarNumAux]
    have hoffL : ¬ offset ≥ L := by omega
    have hterm : v &&& 0x80 = 0 := by
      have h80 : (0x80 : Nat) = 2 ^ 7 := by norm_num
      rw [h80]
      exact lt_two_pow_and_self v hvlt
    simp only [hoffL, if_false, hterm, if_pos]
    have h127 : v &&& 0x7F = v := by
      have h7f : (0x7F : Nat) = 2 ^ 7 - 1 := by norm_num
      rw [h7f, and_mask_low, Nat.mod_eq_of_lt hvlt]
    have hshift : v <<< (offset % w) % 2 ^ w = v <<< offset := by
      rw [Nat.mod_eq_of_lt hoff, Nat.shiftLeft_eq, Nat.mod_eq_of_lt]
      calc v * 2 ^ offset < 2 ^ (w - offset) * 2 ^ offset :=
            (Nat.mul_lt_mul_right (Nat.pos_pow_of_pos _ (by omega))).mpr hu
        _ = 2 ^ w := by rw [← Nat.pow_add]; congr 1; omega
    rw [h127, hshift, List.nil_append]
  | case2 v hv ih =>
    intro value offset rest hu hoff hval
    have hva : v < 2 ^ w := lt_of_lt_of_le hu (Nat.pow_le_pow_right (by omega) (by omega))
    have hvge : ¬ v < 2 ^ 7 := fun h =>
      hv ((and_mask_high_eq_zero_iff w 7 v hw hva).mpr h)
    have hwoff : offset + 7 < w := by
      by_contra hcon
      have : 2 ^ (w - offset) ≤ 2 ^ 7 := Nat.pow_le_pow_right (by omega) (by omega)
      omega
    rw [writeVarNumAux]
    simp only [hv, dif_neg, not_false_iff, List.cons_append]
    rw [readVarNumAux]
    have hoffL : ¬ offset ≥ L := by omega
    have h80 : (0x80 : Nat) = 2 ^ 7 := by norm_num
    have h7f : (0x7F : Nat) = 2 ^ 7 - 1 := by norm_num
    simp only [hoffL, if_false]
    rw [if_neg (by rw [h80]; exact or_two_pow_and_self_ne _)]
    have hbyte : (v &&& 0x7F ||| 0x80) &&& 0x7F = v % 2 ^ 7 := by
      rw [h80, h7f, or_two_pow_and_low, and_mask_low, and_mask_low]
      exact Nat.mod_mod_of_dvd v (dvd_refl _)
    have hfit : v % 2 ^ 7 * 2 ^ offset < 2 ^ w := by
      calc v % 2 ^ 7 * 2 ^ offset < 2 ^ 7 * 2 ^ offset :=
            (Nat.mul_lt_mul_right (Nat.pos_pow_of_pos _ (by omega))).mpr
              (Nat.mod_lt v (by norm_num))
        _ = 2 ^ (7 + offset) := by rw [← Nat.pow_add]
        _ ≤ 2 ^ w := Nat.pow_le_pow_right (by omega) (by omega)
    have hshift : (v % 2 ^ 7) <<< (offset % w) % 2 ^ w = (v % 2 ^ 7) <<< offset := by
      rw [Nat.mod_eq_of_lt hoff, Nat.shiftLeft_eq]
      exact Nat.mod_eq_of_lt hfit
    rw [hbyte, hshift]
    have hsh : v >>> 7 = v / 2 ^ 7 := Nat.shiftRight_eq_div_pow v 7
    have hdd : 2 ^ (w - offset) / 2 ^ 7 = 2 ^ (w - (offset + 7)) := by
      rw [Nat.pow_div (by omega) (by norm_num)]
      congr 1
    have hdvd : 2 ^ 7 ∣ 2 ^ (w - offset) := pow_dvd_pow 2 (by omega)
    have hu' : v >>> 7 < 2 ^ (w - (offset + 7)) := by
      rw [hsh, ← hdd]
      exact Nat.div_lt_div_of_lt_of_dvd hdvd hu
    have hval' : value ||| (v % 2 ^ 7) <<< offset < 2 ^ w := by
      refine Nat.or_lt_two_pow hval ?_
      rw [Nat.shiftLeft_eq]
      exact hfit
    rw [ih (value ||| (v % 2 ^ 7) <<< offset) (offset + 7) rest hu' (by omega) hval']
    rw [hsh, Nat.or_assoc, shift_or_recombine]

/-! ### Signed/unsigned reinterpretation -/

theorem toUnsigned_lt (w : Nat) (v : Int) : toUnsigned w v < 2 ^ w := by
  unfold toUnsigned
  have hpos : (0 : Int) < ((2 ^ w : Nat) : Int) := by positivity
  have h1 : v % ((2 ^ w : Nat) : Int) < ((2 ^ w : Nat) : Int) := Int.emod_lt_of_pos v hpos
  omega

theorem toSigned_toUnsigned (w : Nat) (hw : 0 < w) (v : Int)
    (h1 : -((2 ^ (w - 1) : Nat) : Int) ≤ v) (h2 : v < ((2 ^ (w - 1) : Nat) : Int)) :
    toSigned w (toUnsigned w v) = v := by
  unfold toSigned toUnsigned
  have hpow : ((2 ^ w : Nat) : Int) = 2 * ((2 ^ (w - 1) : Nat) : Int) := by
    push_cast
    rw [← pow_succ']
    congr 1
    omega
  have hmod : v % ((2 ^ w : Nat) : Int) =
      if 0 ≤ v then v else v + ((2 ^ w : Nat) : Int) := by
    split
    · exact Int.emod_eq_of_lt (by assumption) (by omega)
    · have hself : (v + ((2 ^ w : Nat) : Int) * 1) % ((2 ^ w : Nat) : Int) =
          v % ((2 ^ w : Nat) : Int) :=
        Int.add_mul_emod_self_left v ((2 ^ w : Nat) : Int) 1
      rw [mul_one] at hself
      rw [← hself]
      exact Int.emod_eq_of_lt (by omega) (by omega)
  rw [hmod]
  split_ifs <;> omega

theorem usizeToI32_small (n : Nat) (h : n < 2 ^ 31) : usizeToI32 n = n := by
  unfold usizeToI32 toSigned
  rw [Nat.mod_eq_of_lt (lt_trans h (by norm_num))]
  simp only [show (32 : Nat) - 1 = 31 from rfl, h, if_pos]

/-! ### Var-num round trips -/

theorem read_write_var_int (v : Int) (h1 : -((2 ^ 31 : Nat) : Int) ≤ v)
    (h2 : v < ((2 ^ 31 : Nat) : Int)) (rest : Bytes) :
    read_var_int (write_var_int v ++ rest) = .ok (v, rest) := by
  unfold read_var_int write_var_int
  have hmask : (0xFFFFFF80 : Nat) = 2 ^ 32 - 2 ^ 7 := by norm_num
  rw [hmask, readVarNumAux_writeVarNumAux 35 32 (by norm_num) (by norm_num)
    (toUnsigned 32 v) 0 0 rest (by simpa using toUnsigned_lt 32 v) (by norm_num)
    (by positivity)]
  simp only [Except.map, Nat.zero_or, Nat.shiftLeft_zero]
  rw [toSigned_toUnsigned 32 (by norm_num) v (by exact_mod_cast h1) (by exact_mod_cast h2)]

theorem read_write_var_long (v : Int) (h1 : -((2 ^ 63 : Nat) : Int) ≤ v)
    (h2 : v < ((2 ^ 63 : Nat) : Int)) (rest : Bytes) :
    read_var_long (write_var_long v ++ rest) = .ok (v, rest) := by
  unfold read_var_long write_var_long
  have hmask : (0xFFFFFFFFFFFFFF80 : Nat) = 2 ^ 64 - 2 ^ 7 := by norm_num
  rw [hmask, readVarNumAux_writeVarNumAux 70 64 (by norm_num) (by norm_num)
    (toUnsigned 64 v) 0 0 rest (by simpa using toUnsigned_lt 64 v) (by norm_num)
    (by positivity)]
  simp only [Except.map, Nat.zero_or, Nat.shiftLeft_zero]
  rw [toSigned_toUnsigned 64 (by norm_num) v (by exact_mod_cast h1) (by exact_mod_cast h2)]

theorem size_var_int_eq_length (v : Int) : size_var_int v = (write_var_int v).length :=
  (writeVarNumAux_length _ _).symm

theorem size_var_long_eq_length (v : Int) : size_var_long v = (write_var_long v).length :=
  (writeVarNumAux_length _ _).symm

/-! ### Helper lemmas about the var-num read loop -/

/-- A stream of continuation bytes whose bit offsets stay under the ceiling is
exhausted and yields `EOF`. -/
theorem readVarNumAux_cont_eof (L w : Nat) :
    ∀ (bytes : Bytes) (value offset : Nat), (∀ b ∈ bytes, b &&& 0x80 ≠ 0) →
      offset + 7 * bytes.length < L →
      readVarNumAux L w bytes value offset = .error .EOF := by
  intro bytes
  induction bytes with
  | nil =>
    intro value offset _ hlt
    simp at hlt
    simp [readVarNumAux, Nat.not_le.mpr hlt]
  | cons b rest ih =>
    intro value offset hcont hlt
    rw [readVarNumAux]
    have hb : b &&& 0x80 ≠ 0 := hcont b (List.mem_cons_self b rest)
    have hoff : ¬ offset ≥ L := by simp [List.length_cons] at hlt; omega
    simp only [hoff, if_false, hb, if_neg hb]
    exact ih _ _ (fun x hx => hcont x (List.mem_cons_of_mem b hx))
      (by simp [List.length_cons] at hlt ⊢; omega)

/-- A stream of continuation bytes long enough to push the bit offset to the
ceiling fails with `VarNumTooLarge`. -/
theorem readVarNumAux_cont_too_large (L w : Nat) :
    ∀ (bytes : Bytes) (value offset : Nat), (∀ b ∈ bytes, b &&& 0x80 ≠ 0) →
      L ≤ offset + 7 * bytes.length →
      readVarNumAux L w bytes value offset = .error .VarNumTooLarge := by
  intro bytes
  induction bytes with
  | nil =>
    intro value offset _ hge
    simp at hge
    simp [readVarNumAux, hge]
  | cons b rest ih =>
    intro value offset hcont hge
    by_cases hoff : offset ≥ L
    · rw [readVarNumAux]; simp [hoff]
    · rw [readVarNumAux]
      have hb : b &&& 0x80 ≠ 0 := hcont b (List.mem_cons_self b rest)
      simp only [hoff, if_false, hb, if_neg hb]
      exact ih _ _ (fun x hx => hcont x (List.mem_cons_of_mem b hx))
        (by simp [List.length_cons] at hge ⊢; omega)

end Drax

namespace Drax

/-! ## Claim theorems: Size algebra -/

/-- C8: `Constant x + Constant y = Constant (x+y)`; any combination with a
`Dynamic` operand is `Dynamic (x+y)` (hence `Size.add` is commutative); and
adding a raw `usize` always yields a `Dynamic`, even on a `Constant`. -/
theorem size_algebra_combination :
    (∀ x y : Nat, (Size.Constant x).add (Size.Constant y) = Size.Constant (x + y)) ∧
    (∀ x y : Nat, (Size.Dynamic x).add (Size.Dynamic y) = Size.Dynamic (x + y)) ∧
    (∀ x y : Nat, (Size.Dynamic x).add (Size.Constant y) = Size.Dynamic (x + y)) ∧
    (∀ x y : Nat, (Size.Constant x).add (Size.Dynamic y) = Size.Dynamic (x + y)) ∧
    (∀ s t : Size, s.add t = t.add s) ∧
    (∀ (s : Size) (n : Nat), ∃ m, s.addUsize n = Size.Dynamic m ∧ m = s.bytes + n) :=
  ⟨fun _ _ => rfl, fun _ _ => rfl, fun _ _ => rfl, fun _ _ => rfl,
    fun s t => by cases s <;> cases t <;> simp [Size.add, Nat.add_comm],
    fun s n => by cases s <;> exact ⟨_, rfl, rfl⟩⟩

/-! ## Claim theorems: var-int table -/

/-- C3: the 32-bit varint codec maps the five table entries of the spec to
exactly the listed byte sequences, in both directions. -/
theorem var_int_table :
    (write_var_int 25 = [0x19] ∧ read_var_int [0x19] = .ok (25, [])) ∧
    (write_var_int 55324 = [0x9C, 0xB0, 0x03] ∧
      read_var_int [0x9C, 0xB0, 0x03] = .ok (55324, [])) ∧
    (write_var_int (-8877777) = [0xAF, 0x92, 0xE2, 0xFB, 0x0F] ∧
      read_var_int [0xAF, 0x92, 0xE2, 0xFB, 0x0F] = .ok (-8877777, [])) ∧
    (write_var_int 2147483647 = [0xFF, 0xFF, 0xFF, 0xFF, 0x07] ∧
      read_var_int [0xFF, 0xFF, 0xFF, 0xFF, 0x07] = .ok (2147483647, [])) ∧
    (write_var_int (-2147483648) = [0x80, 0x80, 0x80, 0x80, 0x08] ∧
      read_var_int [0x80, 0x80, 0x80, 0x80, 0x08] = .ok (-2147483648, [])) := by
  refine ⟨⟨?_, by rfl⟩, ⟨?_, by rfl⟩, ⟨?_, by rfl⟩, ⟨?_, by rfl⟩, ⟨?_, by rfl⟩⟩ <;>
  · simp [write_var_int, toUnsigned, writeVarNumAux]
    decide

end Drax

namespace Drax

/-- C6: var-num decoding reads one byte at a time, ORing the byte's low 7
bits shifted by the running bit offset into the accumulator (stopping on a
clear high bit); a run of continuation bytes fails with `VarNumTooLarge`
once the bit offset reaches 35 (32-bit) or 70 (64-bit), and fails with
`EOF` when the stream ends before a terminating byte is seen. -/
theorem var_num_read_error_behavior :
    (∀ (byte : Nat) (bytes : Bytes) (value offset : Nat),
      offset < 35 → byte &&& 0x80 ≠ 0 →
      readVarNumAux 35 32 (byte :: bytes) value offset =
        readVarNumAux 35 32 bytes
          (value ||| ((byte &&& 0x7F) <<< (offset % 32)) % 2 ^ 32) (offset + 7)) ∧
    (∀ (byte : Nat) (bytes : Bytes) (value offset : Nat),
      offset < 35 → byte &&& 0x80 = 0 →
      readVarNumAux 35 32 (byte :: bytes) value offset =
        .ok (value ||| ((byte &&& 0x7F) <<< (offset % 32)) % 2 ^ 32, bytes)) ∧
    (∀ bytes : Bytes, (∀ b ∈ bytes, b &&& 0x80 ≠ 0) →
      (5 ≤ bytes.length → read_var_int bytes = .error .VarNumTooLarge) ∧
      (bytes.length < 5 → read_var_int bytes = .error .EOF)) ∧
    (∀ bytes : Bytes, (∀ b ∈ bytes, b &&& 0x80 ≠ 0) →
      (10 ≤ bytes.length → read_var_long bytes = .error .VarNumTooLarge) ∧
      (bytes.length < 10 → read_var_long bytes = .error .EOF)) := by
  refine ⟨?_, ?_, ?_, ?_⟩
  · intro byte bytes value offset hlt hb
    rw [readVarNumAux]
    simp [Nat.not_le.mpr hlt, hb]
  · intro byte bytes value offset hlt hb
    rw [readVarNumAux]
    simp [Nat.not_le.mpr hlt, hb]
  · intro bytes hcont
    constructor
    · intro hlen
      simp only [read_var_int]
      rw [readVarNumAux_cont_too_large 35 32 bytes 0 0 hcont (by omega)]
      rfl
    · intro hlen
      simp only [read_var_int]
      rw [readVarNumAux_cont_eof 35 32 bytes 0 0 hcont (by omega)]
      rfl
  · intro bytes hcont
    constructor
    · intro hlen
      simp only [read_var_long]
      rw [readVarNumAux_cont_too_large 70 64 bytes 0 0 hcont (by omega)]
      rfl
    · intro hlen
      simp only [read_var_long]
      rw [readVarNumAux_cont_eof 70 64 bytes 0 0 hcont (by omega)]
      rfl

/-- Witness for C6 at concrete inputs: five continuation bytes overflow the
32-bit form, and two continuation bytes starve it. -/
theorem var_num_read_error_behavior_witness :
    read_var_int [0x80, 0x80, 0x80, 0x80, 0x80] = .error .VarNumTooLarge ∧
    read_var_int [0x80, 0x80] = .error .EOF :=
  ⟨(var_num_read_error_behavior.2.2.1 [0x80, 0x80, 0x80, 0x80, 0x80]
      (by decide)).1 (by decide),
    (var_num_read_error_behavior.2.2.1 [0x80, 0x80] (by decide)).2 (by decide)⟩

end Drax

namespace Drax

/-- C9: for `Maybe` over the 32-bit big-endian integer element, encoding
`Some 10` produces exactly `[0x01,0x00,0x00,0x00,0x0A]`, encoding `None`
produces exactly `[0x00]`, and decoding any stream starting with `0x00`
yields `None` with the trailing bytes unconsumed. -/
theorem maybe_i32_encoding :
    (maybeCodec (sintCodec 4)).enc (some 10) = .ok [0x01, 0x00, 0x00, 0x00, 0x0A] ∧
    (maybeCodec (sintCodec 4)).enc none = .ok [0x00] ∧
    ∀ rest : Bytes, (maybeCodec (sintCodec 4)).dec (0x00 :: rest) = .ok (none, rest) :=
  ⟨by decide, by decide, fun rest => rfl⟩

/-- C5: the `LimitedString<10>` delegate rejects a string whose byte length
exceeds 10 on encode with `LimitExceeded(10, len, "encoding string")`
(producing no bytes), and rejects a stream whose var-int prefix declares a
length above 10 with `LimitExceeded(10, len, "decoding string")` without
reading any payload byte (the error is independent of the payload). -/
theorem limited_string_limit_behavior :
    (∀ s : List Nat, utf8Len s < 2 ^ 31 → 10 < utf8Len s →
      (limitedStringCodec 10).enc s =
        .error (.LimitExceeded 10 (utf8Len s) "encoding string")) ∧
    (∀ (n : Int) (payload : Bytes), 10 < n → n < 2 ^ 31 →
      (limitedStringCodec 10).dec (write_var_int n ++ payload) =
        .error (.LimitExceeded 10 n "decoding string")) := by
  constructor
  · intro s hs hlen
    have h10 : usizeToI32 10 = 10 := by decide
    have hlen' : usizeToI32 (utf8Len s) = utf8Len s := usizeToI32_small _ hs
    simp only [limitedStringCodec, hlen', h10]
    rw [if_pos (by exact_mod_cast hlen)]
  · intro n payload hlo hhi
    have h10 : usizeToI32 10 = 10 := by decide
    have hround := read_write_var_int n (by push_cast; omega) (by push_cast; omega) payload
    simp only [limitedStringCodec, bind, Except.bind, hround, h10]
    rw [if_pos hlo]

/-- Witness for C5: an 11-byte ASCII string is rejected on encode, and a
declared length of 11 is rejected on decode, with the exact
`LimitExceeded(10, 11, …)` errors of the spec. -/
theorem limited_string_limit_behavior_witness :
    (limitedStringCodec 10).enc (List.replicate 11 97) =
      .error (.LimitExceeded 10 11 "encoding string") ∧
    (limitedStringCodec 10).dec (write_var_int 11 ++ [0, 0]) =
      .error (.LimitExceeded 10 11 "decoding string") := by
  constructor
  · have h := limited_string_limit_behavior.1 (List.replicate 11 97)
      (by decide) (by decide)
    rw [h]
    norm_num [utf8Len, utf8Encode, utf8EncodeChar]
  · exact limited_string_limit_behavior.2 11 [0, 0] (by norm_num) (by norm_num)

end Drax

namespace Drax

/-! ### Container combinator lemmas -/

theorem encodeList_dec (c : Codec α) (P : α → Prop) (h : GoodOn c P) :
    ∀ l : List α, (∀ x ∈ l, P x) → ∃ bs, encodeList c l = .ok bs ∧
      ∀ rest, decodeN c l.length (bs ++ rest) = .ok (l, rest) := by
  intro l
  induction l with
  | nil => exact fun _ => ⟨[], rfl, fun rest => rfl⟩
  | cons x xs ih =>
    intro hall
    obtain ⟨bs, henc, hdec, _⟩ := h x (hall x (by simp))
    obtain ⟨bs2, henc2, hdec2⟩ := ih fun y hy => hall y (by simp [hy])
    refine ⟨bs ++ bs2, ?_, ?_⟩
    · simp only [encodeList, henc, henc2, bind, Except.bind]
    · intro rest
      show decodeN c (xs.length + 1) (bs ++ bs2 ++ rest) = .ok (x :: xs, rest)
      simp only [decodeN, bind, Except.bind, List.append_assoc,
        hdec (bs2 ++ rest), hdec2 rest]

theorem encodeList_length_const (c : Codec α) (P : α → Prop) (k : Nat)
    (hg : GoodOn c P) (hk : SizeAllConstant c P k) :
    ∀ l : List α, (∀ x ∈ l, P x) → ∃ bs, encodeList c l = .ok bs ∧
      bs.length = k * l.length := by
  intro l
  induction l with
  | nil => exact fun _ => ⟨[], rfl, by simp⟩
  | cons x xs ih =>
    intro hall
    obtain ⟨bs, henc, _, s, hsz, hsb⟩ := hg x (hall x (by simp))
    obtain ⟨bs2, henc2, hlen2⟩ := ih fun y hy => hall y (by simp [hy])
    have hsk : s = .Constant k := by
      have := hk x (hall x (by simp))
      rw [hsz] at this
      exact (Except.ok.injEq _ _).mp this.symm |>.symm
    refine ⟨bs ++ bs2, ?_, ?_⟩
    · simp only [encodeList, henc, henc2, bind, Except.bind]
    · subst hsk
      simp only [Size.bytes] at hsb
      simp [hlen2, ← hsb, Nat.mul_succ]
      omega

theorem arraySizeLoop_head_const (c : Codec α) (N : Nat) (x : α) (xs : List α)
    (k acc : Nat) (hx : c.sz x = .ok (.Constant k)) :
    arraySizeLoop c N (x :: xs) acc = .ok (.Constant (k * N)) := by
  simp only [arraySizeLoop, hx, bind, Except.bind]

theorem arraySizeLoop_all_dynamic (c : Codec α) (P : α → Prop) (N : Nat)
    (hg : GoodOn c P) (hd : SizeAllDynamic c P) :
    ∀ (l : List α) (acc : Nat), (∀ x ∈ l, P x) →
      ∃ bs, encodeList c l = .ok bs ∧
        arraySizeLoop c N l acc = .ok (.Dynamic (acc + bs.length)) := by
  intro l
  induction l with
  | nil => exact fun acc _ => ⟨[], rfl, by simp [arraySizeLoop]⟩
  | cons x xs ih =>
    intro acc hall
    obtain ⟨bs, henc, _, s, hsz, hsb⟩ := hg x (hall x (by simp))
    obtain ⟨d, hdyn⟩ := hd x (hall x (by simp))
    have hsd : s = .Dynamic d := by
      rw [hsz] at hdyn
      exact (Except.ok.injEq _ _).mp hdyn
    obtain ⟨bs2, henc2, hloop⟩ := ih (acc + d) fun y hy => hall y (by simp [hy])
    refine ⟨bs ++ bs2, ?_, ?_⟩
    · simp only [encodeList, henc, henc2, bind, Except.bind]
    · subst hsd
      simp only [Size.bytes] at hsb
      simp only [arraySizeLoop, hsz, bind, Except.bind, hloop]
      congr 2
      simp [← hsb]
      omega

end Drax

namespace Drax

/-- C7 counterexample: for `[Maybe<VarInt>; 2]` at the value
`[None, Some 1]`, the element sizes are `Constant 1` and `Dynamic 2`
(not all constant), yet `size` short-circuits on the first element and
returns `Constant (1 × 2) = Constant 2` — not the `Dynamic 3` (the sum of
the element sizes) the claim requires in that case. -/
theorem array_size_claim_counterexample :
    (arrayCodec (maybeCodec varIntCodec) 2).sz [none, some 1] = .ok (.Constant 2) ∧
    (maybeCodec varIntCodec).sz none = .ok (.Constant 1) ∧
    (maybeCodec varIntCodec).sz (some 1) = .ok (.Dynamic 2) ∧
    Size.Constant 2 ≠ Size.Dynamic 3 := by
  have hs1 : size_var_int 1 = 1 := by
    simp [size_var_int, toUnsigned, sizeVarNumAux]
  refine ⟨?_, rfl, ?_, by decide⟩
  · simp only [arrayCodec]
    exact arraySizeLoop_head_const _ 2 _ _ 1 0 rfl
  · simp only [maybeCodec, varIntCodec, hs1, Except.map, Size.add]

/-- C7 (amended): the `[T; N]` delegate uses no length prefix and encodes /
decodes exactly `N` elements in order; when every element reports the same
constant size `k` (and `N > 0`), `size` is `Constant (k·N)` and that equals
the total bytes written; when every element reports a dynamic size, `size`
is a `Dynamic` equal to the total bytes written; in general `size`
short-circuits to `Constant (k·N)` at the *first* element reporting a
constant size `k`, even when later elements are dynamic. -/
theorem array_delegate_behavior :
    (∀ {α : Type} (c : Codec α) (P : α → Prop) (N : Nat), GoodOn c P →
      ∀ l : List α, l.length = N → (∀ x ∈ l, P x) →
        ∃ bs, (arrayCodec c N).enc l = .ok bs ∧
          ∀ rest, (arrayCodec c N).dec (bs ++ rest) = .ok (l, rest)) ∧
    (∀ {α : Type} (c : Codec α) (P : α → Prop) (N k : Nat), GoodOn c P →
      SizeAllConstant c P k →
      ∀ l : List α, l.length = N → 0 < N → (∀ x ∈ l, P x) →
        (arrayCodec c N).sz l = .ok (.Constant (k * N)) ∧
        ∃ bs, (arrayCodec c N).enc l = .ok bs ∧ bs.length = k * N) ∧
    (∀ {α : Type} (c : Codec α) (P : α → Prop) (N : Nat), GoodOn c P →
      SizeAllDynamic c P →
      ∀ l : List α, l.length = N → (∀ x ∈ l, P x) →
        ∃ bs m, (arrayCodec c N).enc l = .ok bs ∧
          (arrayCodec c N).sz l = .ok (.Dynamic m) ∧ m = bs.length) ∧
    (∀ {α : Type} (c : Codec α) (N k : Nat) (x : α) (xs : List α),
      c.sz x = .ok (.Constant k) →
      (arrayCodec c N).sz (x :: xs) = .ok (.Constant (k * N))) := by
  refine ⟨?_, ?_, ?_, ?_⟩
  · intro α c P N hg l hlen hall
    obtain ⟨bs, henc, hdec⟩ := encodeList_dec c P hg l hall
    exact ⟨bs, henc, fun rest => by
      simp only [arrayCodec, ← hlen]
      exact hdec rest⟩
  · intro α c P N k hg hk l hlen hpos hall
    rcases l with _ | ⟨x, xs⟩
    · simp at hlen
      omega
    constructor
    · simp only [arrayCodec]
      exact arraySizeLoop_head_const c N x xs k 0 (hk x (hall x (by simp)))
    · obtain ⟨bs, henc, hblen⟩ := encodeList_length_const c P k hg hk (x :: xs) hall
      exact ⟨bs, henc, by rw [hblen, hlen]⟩
  · intro α c P N hg hd l hlen hall
    obtain ⟨bs, henc, hsz⟩ := arraySizeLoop_all_dynamic c P N hg hd l 0 hall
    exact ⟨bs, bs.length, henc, by simpa [arrayCodec] using hsz, rfl⟩
  · intro α c N k x xs hx
    simp only [arrayCodec]
    exact arraySizeLoop_head_const _ _ _ _ _ 0 hx

/-- Witness for C7: the short-circuit clause applied at
`[Maybe<VarInt>; 3]` with first element `None` (`Constant 1`). -/
theorem array_delegate_behavior_witness :
    (arrayCodec (maybeCodec varIntCodec) 3).sz [none, some 1, none] =
      .ok (.Constant 3) := by
  have h := array_delegate_behavior.2.2.2 (maybeCodec varIntCodec) 3 1 none
    [some 1, none] rfl
  simpa using h

end Drax

namespace Drax

/-! ### NBT depth-guard lemmas -/

theorem readExactSub_cons4 (a b c d : Nat) (rest : Bytes) :
    readExactSub 4 (a :: b :: c :: d :: rest) =
      .ok ([a, b, c, d], ⟨rest, by simp⟩) := by
  unfold readExactSub
  rw [dif_pos (by simp)]
  rfl

theorem account_bytes_zero (c b : Nat) :
    NbtAccounter.account_bytes ⟨0, c⟩ b = .ok ⟨0, c⟩ := by
  simp [NbtAccounter.account_bytes]

theorem loadListSub_zero (bytes : Bytes) (tagByte depth : Nat) (acct : NbtAccounter) :
    loadListSub bytes tagByte 0 depth acct = .ok ([], acct, ⟨bytes, le_refl _⟩) := by
  rw [loadListSub.eq_def]

theorem loadTagSub_chain :
    ∀ (n d : Nat) (rest : Bytes), d + n ≤ 512 →
      loadTagSub (chainPayload n ++ rest) 9 d ⟨0, 0⟩ =
        .ok (chainTag n, ⟨0, 0⟩, ⟨rest, by simp⟩) := by
  intro n
  induction n with
  | zero =>
    intro d rest hle
    rw [chainPayload, chainTag]
    rw [loadTagSub]
    simp only [account_bytes_zero, List.cons_append]
    rw [if_neg (by omega)]
    rw [readExactSub_cons4]
    simp only [show (toSigned 32 (beValue [0, 0, 0, 0])).toNat = 0 from rfl,
      loadListSub_zero, account_bytes_zero, List.nil_append]
  | succ n ih =>
    intro d rest hle
    rw [chainPayload, chainTag]
    rw [loadTagSub]
    simp only [account_bytes_zero, List.cons_append]
    rw [if_neg (by omega)]
    rw [readExactSub_cons4]
    simp only [show (toSigned 32 (beValue [0, 0, 0, 1])).toNat = 1 from rfl]
    rw [loadListSub.eq_def]
    simp only []
    rw [ih (d + 1) rest (by omega)]
    simp only [loadListSub_zero, account_bytes_zero]
theorem loadTagSub_list_depth_fail (bytes : Bytes) (d c : Nat) (hd : 512 < d) :
    loadTagSub bytes 9 d ⟨0, c⟩ = .error (.NbtErr .ComplexTag) := by
  rw [loadTagSub]
  simp only [account_bytes_zero]
  rw [if_pos hd]

theorem loadTagSub_compound_depth_fail (bytes : Bytes) (d c : Nat) (hd : 512 < d) :
    loadTagSub bytes 10 d ⟨0, c⟩ = .error (.NbtErr .ComplexTag) := by
  rw [loadTagSub]
  simp only [account_bytes_zero]
  rw [if_pos hd]

theorem loadTagSub_chain_fail :
    ∀ (n d : Nat) (rest : Bytes), 512 < d + n →
      loadTagSub (chainPayload n ++ rest) 9 d ⟨0, 0⟩ =
        .error (.NbtErr .ComplexTag) := by
  intro n
  induction n with
  | zero =>
    intro d rest hgt
    exact loadTagSub_list_depth_fail _ d 0 (by omega)
  | succ n ih =>
    intro d rest hgt
    by_cases hd : 512 < d
    · exact loadTagSub_list_depth_fail _ d 0 hd
    · rw [chainPayload]
      rw [loadTagSub]
      simp only [account_bytes_zero, List.cons_append]
      rw [if_neg hd]
      rw [readExactSub_cons4]
      simp only [show (toSigned 32 (beValue [0, 0, 0, 1])).toNat = 1 from rfl]
      rw [loadListSub.eq_def]
      simp only []
      rw [ih (d + 1) rest (by omega)]

/-- C2 counterexample: a synthetically nested list chain 513 levels deep
(root at depth 0, innermost at depth 512) decodes *successfully* — the
guard `depth > 512` never trips, so the claim that a 513-deep chain fails
with `TreeTooComplex` is false. -/
theorem nbt_depth_guard_claim_counterexample :
    load_tag (chainPayload 512) 9 0 ⟨0, 0⟩ = .ok (chainTag 512, ⟨0, 0⟩, []) ∧
    load_tag (chainPayload 512) 9 0 ⟨0, 0⟩ ≠ .error (.NbtErr .ComplexTag) := by
  have h := loadTagSub_chain 512 0 [] (by norm_num)
  have hg : (chainPayload 512 : Bytes) = chainPayload 512 ++ [] := (List.append_nil _).symm
  constructor
  · rw [hg, load_tag, h]
    rfl
  · rw [hg, load_tag, h]
    exact fun hc => Except.noConfusion hc

/-- C2 (amended): tree decoding tracks a depth counter starting at 0 for
the root; each nested `List`/`Compound` loads its children at `depth + 1`;
a node whose own depth exceeds 512 fails with `TreeTooComplex` regardless
of the stream contents (so before any further bytes are consumed).  A
nested list chain decodes successfully while every node's depth stays at
most 512 (in particular a 513-level chain succeeds), and fails with
`TreeTooComplex` as soon as some node's depth exceeds 512 — the shallowest
failing chain is 514 levels deep. -/
theorem nbt_depth_guard :
    (∀ (bytes : Bytes) (d : Nat) (acct : NbtAccounter), acct.limit = 0 → 512 < d →
      load_tag bytes 9 d acct = .error (.NbtErr .ComplexTag) ∧
      load_tag bytes 10 d acct = .error (.NbtErr .ComplexTag)) ∧
    (∀ (n d : Nat) (rest : Bytes), d + n ≤ 512 →
      load_tag (chainPayload n ++ rest) 9 d ⟨0, 0⟩ = .ok (chainTag n, ⟨0, 0⟩, rest)) ∧
    (∀ (n d : Nat) (rest : Bytes), 512 < d + n →
      load_tag (chainPayload n ++ rest) 9 d ⟨0, 0⟩ = .error (.NbtErr .ComplexTag)) ∧
    load_tag (chainPayload 513) 9 0 ⟨0, 0⟩ = .error (.NbtErr .ComplexTag) := by
  refine ⟨?_, ?_, ?_, ?_⟩
  · rintro bytes d ⟨l, c⟩ hl hd
    simp only at hl
    subst hl
    exact ⟨by rw [load_tag, loadTagSub_list_depth_fail bytes d c hd]; rfl,
      by rw [load_tag, loadTagSub_compound_depth_fail bytes d c hd]; rfl⟩
  · intro n d rest h
    rw [load_tag, loadTagSub_chain n d rest h]
    rfl
  · intro n d rest h
    rw [load_tag, loadTagSub_chain_fail n d rest h]
    rfl
  · have h := loadTagSub_chain_fail 513 0 [] (by norm_num)
    have hg : (chainPayload 513 : Bytes) = chainPayload 513 ++ [] :=
      (List.append_nil _).symm
    rw [hg, load_tag, h]
    rfl

/-- Witness for C2: a 2-level chain decodes at depth 0, and the guard trips
on any stream at depth 513. -/
theorem nbt_depth_guard_witness :
    load_tag (chainPayload 1 ++ []) 9 0 ⟨0, 0⟩ = .ok (chainTag 1, ⟨0, 0⟩, []) ∧
    load_tag [] 9 513 ⟨0, 0⟩ = .error (.NbtErr .ComplexTag) :=
  ⟨nbt_depth_guard.2.1 1 0 [] (by norm_num),
    (nbt_depth_guard.1 [] 513 ⟨0, 0⟩ rfl (by norm_num)).1⟩

end Drax

namespace Drax

/-! ### Big-endian and NBT string lemmas -/

theorem beBytes_length (w v : Nat) : (beBytes w v).length = w := by
  induction w generalizing v with
  | zero => rfl
  | succ w ih => simp [beBytes, ih]

theorem beValue_beBytes (w v : Nat) : beValue (beBytes w v) = v % 2 ^ (8 * w) := by
  induction w generalizing v with
  | zero => simp [beBytes, beValue, Nat.mod_one]
  | succ w ih =>
    rw [beBytes, beValue, ih, beBytes_length]
    have hmul : 2 ^ (8 * (w + 1)) = 2 ^ (8 * w) * 2 ^ 8 := by
      rw [← Nat.pow_add]
      congr 1
      try omega
    rw [hmul, Nat.mod_mul]
    try ring

theorem readExactSub_cons2 (a b : Nat) (rest : Bytes) :
    readExactSub 2 (a :: b :: rest) = .ok ([a, b], ⟨rest, by simp⟩) := by
  unfold readExactSub
  rw [dif_pos (by simp)]
  rfl

theorem cesuEncode_cons (c : Nat) (s : List Nat) :
    cesuEncode (c :: s) = cesuEncodeChar c ++ cesuEncode s := by
  simp [cesuEncode]

theorem cesuLen_replicate_65 (n : Nat) : cesuLen (List.replicate n 65) = n := by
  induction n with
  | zero => rfl
  | succ n ih =>
    rw [List.replicate_succ]
    unfold cesuLen at ih ⊢
    rw [cesuEncode_cons, List.length_append, ih]
    norm_num [cesuEncodeChar]
    omega

theorem read_string_write_string_truncates (s : List Nat) (rest : Bytes)
    (a : NbtAccounter) (h : 65535 < cesuLen s) :
    read_string (write_string s ++ rest) ⟨0, 0⟩ ≠ .ok (s, a, rest) := by
  have hL : cesuLen s % 2 ^ 16 < cesuLen s :=
    lt_of_lt_of_le (Nat.mod_lt _ (by norm_num)) (by omega)
  have hsplit : write_string s ++ rest =
      (cesuLen s / 256) % 256 :: cesuLen s % 256 :: (cesuEncode s ++ rest) := by
    rw [write_string]
    simp [beBytes]
  rw [hsplit]
  unfold read_string read_string_sub
  rw [readExactSub_cons2]
  dsimp only
  have hbv : beValue [(cesuLen s / 256) % 256, cesuLen s % 256] =
      cesuLen s % 2 ^ 16 := by
    rw [show ([(cesuLen s / 256) % 256, cesuLen s % 256] : Bytes) =
      beBytes 2 (cesuLen s) from by simp [beBytes]]
    rw [beValue_beBytes]
  have hle : beValue [(cesuLen s / 256) % 256, cesuLen s % 256] ≤
      (cesuEncode s ++ rest).length := by
    rw [hbv, List.length_append]
    unfold cesuLen at hL ⊢
    omega
  unfold readExactSub
  rw [dif_pos hle]
  cases hdec : cesuDecode ((cesuEncode s ++ rest).take
      (beValue [(cesuLen s / 256) % 256, cesuLen s % 256])) with
  | none => simp [hdec, Except.map]
  | some t =>
    simp only [hdec, account_bytes_zero, Except.map]
    intro hEq
    have hinj := (Except.ok.injEq _ _).mp hEq
    have hrest : ((cesuEncode s ++ rest).drop
        (beValue [(cesuLen s / 256) % 256, cesuLen s % 256])) = rest :=
      congrArg (fun p => p.2.2) hinj
    have hlen := congrArg List.length hrest
    rw [List.length_drop, List.length_append, hbv] at hlen
    unfold cesuLen at hL
    omega

/-- C10: the tree codec's string writer emits a 2-byte big-endian prefix
whose value is the CESU-8 byte length reduced mod `2^16`, followed by all
the CESU-8 bytes; for every string whose CESU-8 encoding exceeds 65535
bytes the prefix therefore differs from the payload byte count, and
`read_string` cannot reproduce the original value from `write_string`'s
output (it truncates the payload, so the round trip never returns the
original string with the stream correctly positioned). -/
theorem nbt_write_string_truncation :
    (∀ s : List Nat,
      write_string s = (cesuLen s / 256) % 256 :: cesuLen s % 256 :: cesuEncode s ∧
      beValue [(cesuLen s / 256) % 256, cesuLen s % 256] = cesuLen s % 2 ^ 16) ∧
    (∀ s : List Nat, 65535 < cesuLen s →
      beValue [(cesuLen s / 256) % 256, cesuLen s % 256] ≠ cesuLen s) ∧
    (∀ (s : List Nat) (rest : Bytes) (a : NbtAccounter), 65535 < cesuLen s →
      read_string (write_string s ++ rest) ⟨0, 0⟩ ≠ .ok (s, a, rest)) := by
  have hbv : ∀ s : List Nat,
      beValue [(cesuLen s / 256) % 256, cesuLen s % 256] = cesuLen s % 2 ^ 16 := by
    intro s
    rw [show ([(cesuLen s / 256) % 256, cesuLen s % 256] : Bytes) =
      beBytes 2 (cesuLen s) from by simp [beBytes]]
    rw [beValue_beBytes]
  refine ⟨fun s => ⟨?_, hbv s⟩, fun s hs => ?_, read_string_write_string_truncates⟩
  · rw [write_string]
    simp [beBytes]
  · rw [hbv s]
    have : cesuLen s % 2 ^ 16 < 2 ^ 16 := Nat.mod_lt _ (by norm_num)
    omega

/-- Witness for C10: a 65536-character ASCII string has CESU-8 length
65536 > 65535, and its `write_string` output does not round-trip through
`read_string`. -/
theorem nbt_write_string_truncation_witness :
    65535 < cesuLen (List.replicate 65536 65) ∧
    read_string (write_string (List.replicate 65536 65) ++ []) ⟨0, 0⟩ ≠
      .ok (List.replicate 65536 65, ⟨0, 0⟩, []) :=
  have hlen : 65535 < cesuLen (List.replicate 65536 65) := by
    rw [cesuLen_replicate_65]
    norm_num
  ⟨hlen, nbt_write_string_truncation.2.2 _ [] ⟨0, 0⟩ hlen⟩

end Drax

/-! ### Budget accounting (`NbtAccounter`): helper lemmas and C4 -/

namespace Drax

theorem map_eq_error {α β : Type} {f : α → β} {x : Except TransportError α}
    {e : TransportError} : x.map f = .error e ↔ x = .error e := by
  cases x <;> simp [Except.map]

theorem readExactSub_error {n : Nat} {bs : Bytes} {e : TransportError}
    (h : readExactSub n bs = .error e) : e = .IoError := by
  unfold readExactSub at h
  split at h
  · exact absurd h (by simp)
  · exact ((Except.error.injEq _ _).mp h).symm

theorem readIntsSub_error {w : Nat} : ∀ {n : Nat} {bs : Bytes} {e : TransportError},
    readIntsSub w n bs = .error e → e = .IoError := by
  intro n
  induction n with
  | zero => intro bs e h; exact absurd h (by rw [readIntsSub]; simp)
  | succ n ih =>
    intro bs e h
    rw [readIntsSub] at h
    split at h
    next e2 heq =>
      cases h
      exact readExactSub_error heq
    next buf r1 hr1 heq =>
      split at h
      next e2 heq2 =>
        cases h
        exact ih heq2
      next vs r2 hr2 heq2 => cases h

theorem read_string_sub_limit0 (bs : Bytes) (c : Nat) :
    (∀ s a r, read_string_sub bs ⟨0, c⟩ = .ok ((s, a), r) → a = ⟨0, c⟩) ∧
    (∀ e, read_string_sub bs ⟨0, c⟩ = .error e → notBudgetErr e) := by
  constructor
  · intro s a r h
    unfold read_string_sub at h
    split at h
    next => cases h
    next lenBytes r1 hr1 heq =>
      split at h
      next => cases h
      next payload r2 hr2 heq2 =>
        split at h
        next => cases h
        next s2 heq3 =>
          rw [account_bytes_zero] at h
          cases h
          rfl
  · intro e h
    unfold read_string_sub at h
    split at h
    next e2 heq =>
      cases h
      rw [readExactSub_error heq]
      trivial
    next lenBytes r1 hr1 heq =>
      split at h
      next e2 heq2 =>
        cases h
        rw [readExactSub_error heq2]
        trivial
      next payload r2 hr2 heq2 =>
        split at h
        next heq3 =>
          cases h
          trivial
        next s2 heq3 =>
          rw [account_bytes_zero] at h
          cases h
theorem load_limit0 : ∀ n : Nat,
    (∀ bytes : Bytes, bytes.length ≤ n → ∀ depth c,
      limit0Ok c (loadCompoundSub bytes depth ⟨0, c⟩)) ∧
    (∀ bytes : Bytes, bytes.length ≤ n → ∀ bit depth c,
      limit0Ok c (loadTagSub bytes bit depth ⟨0, c⟩)) ∧
    (∀ (count : Nat) (bytes : Bytes), bytes.length ≤ n → ∀ tagByte depth c,
      limit0Ok c (loadListSub bytes tagByte count depth ⟨0, c⟩)) := by
  intro n
  induction n using Nat.strong_induction_on with
  | _ n ih =>
  have hcomp : ∀ bytes : Bytes, bytes.length ≤ n → ∀ depth c,
      limit0Ok c (loadCompoundSub bytes depth ⟨0, c⟩) := by
    intro bytes hlen depth c
    rw [loadCompoundSub.eq_def]
    split
    · trivial
    next tagByte r1 =>
      have hn1 : 1 ≤ n := by simp at hlen; omega
      have hr1n : r1.length + 1 ≤ n := by simpa using hlen
      split
      · exact rfl
      · simp only [account_bytes_zero]
        cases hrs : read_string_sub r1 ⟨0, c⟩ with
        | error e => exact (read_string_sub_limit0 r1 c).2 e hrs
        | ok p =>
          obtain ⟨⟨key, a2⟩, r2, hr2⟩ := p
          dsimp only
          have ha2 : a2 = ⟨0, c⟩ := (read_string_sub_limit0 r1 c).1 _ _ _ hrs
          subst ha2
          have htag2 := (ih (n - 1) (by omega)).2.1 r2 (by omega) tagByte (depth + 1) c
          cases hlt : loadTagSub r2 tagByte (depth + 1) ⟨0, c⟩ with
          | error e =>
            rw [hlt] at htag2
            exact htag2
          | ok q =>
            obtain ⟨data, a3, r3, hr3⟩ := q
            dsimp only
            rw [hlt] at htag2
            have ha3 : a3 = ⟨0, c⟩ := htag2
            subst ha3
            simp only [account_bytes_zero]
            have hcompn := (ih (n - 1) (by omega)).1 r3 (by omega) depth c
            cases hlc : loadCompoundSub r3 depth ⟨0, c⟩ with
            | error e =>
              rw [hlc] at hcompn
              exact hcompn
            | ok q2 =>
              obtain ⟨entries, a5, r4, hr4⟩ := q2
              dsimp only
              rw [hlc] at hcompn
              have ha5 : a5 = ⟨0, c⟩ := hcompn
              subst ha5
              exact rfl
  have htag : ∀ bytes : Bytes, bytes.length ≤ n → ∀ bit depth c,
      limit0Ok c (loadTagSub bytes bit depth ⟨0, c⟩) := by
    intro bytes hlen bit depth c
    rw [loadTagSub.eq_def]
    split
    · simp only [account_bytes_zero, Except.map]
      exact rfl
    · simp only [account_bytes_zero]
      split
      · trivial
      · exact rfl
    · simp only [account_bytes_zero]
      cases hre : readExactSub 2 bytes with
      | error e =>
        rw [readExactSub_error hre]
        trivial
      | ok p =>
        obtain ⟨buf, r, hr⟩ := p
        exact rfl
    · simp only [account_bytes_zero]
      cases hre : readExactSub 4 bytes with
      | error e =>
        rw [readExactSub_error hre]
        trivial
      | ok p =>
        obtain ⟨buf, r, hr⟩ := p
        exact rfl
    · simp only [account_bytes_zero]
      cases hre : readExactSub 8 bytes with
      | error e =>
        rw [readExactSub_error hre]
        trivial
      | ok p =>
        obtain ⟨buf, r, hr⟩ := p
        exact rfl
    · simp only [account_bytes_zero]
      cases hre : readExactSub 4 bytes with
      | error e =>
        rw [readExactSub_error hre]
        trivial
      | ok p =>
        obtain ⟨buf, r, hr⟩ := p
        exact rfl
    · simp only [account_bytes_zero]
      cases hre : readExactSub 8 bytes with
      | error e =>
        rw [readExactSub_error hre]
        trivial
      | ok p =>
        obtain ⟨buf, r, hr⟩ := p
        exact rfl
    · simp only [account_bytes_zero]
      cases hre : readExactSub 4 bytes with
      | error e =>
        rw [readExactSub_error hre]
        trivial
      | ok p =>
        obtain ⟨lenb, r1, hr1⟩ := p
        dsimp only
        cases hre2 : readExactSub (toUnsigned 64 (toSigned 32 (beValue lenb))) r1 with
        | error e =>
          rw [readExactSub_error hre2]
          trivial
        | ok q =>
          obtain ⟨payload, r2, hr2⟩ := q
          dsimp only
          exact rfl
    · simp only [account_bytes_zero]
      cases hrs : read_string_sub bytes ⟨0, c⟩ with
      | error e => exact (read_string_sub_limit0 bytes c).2 e hrs
      | ok p =>
        obtain ⟨⟨s, a2⟩, r, hr⟩ := p
        dsimp only
        have ha2 : a2 = ⟨0, c⟩ := (read_string_sub_limit0 bytes c).1 _ _ _ hrs
        subst ha2
        exact rfl
    · simp only [account_bytes_zero]
      split
      · trivial
      · split
        · trivial
        next tagByte r1 =>
          cases hre : readExactSub 4 r1 with
          | error e =>
            rw [readExactSub_error hre]
            trivial
          | ok p =>
            obtain ⟨lenb, r2, hr2⟩ := p
            dsimp only
            have hn1 : 1 ≤ n := by simp at hlen; omega
            have hll := (ih (n - 1) (by omega)).2.2
              (toSigned 32 (beValue lenb)).toNat r2 (by simp at hlen; omega)
              tagByte (depth + 1) c
            cases hl : loadListSub r2 tagByte (toSigned 32 (beValue lenb)).toNat
                (depth + 1) ⟨0, c⟩ with
            | error e =>
              rw [hl] at hll
              exact hll
            | ok q =>
              obtain ⟨elems, a3, r3, hr3⟩ := q
              dsimp only
              rw [hl] at hll
              have ha3 : a3 = ⟨0, c⟩ := hll
              subst ha3
              exact rfl
    · simp only [account_bytes_zero]
      split
      · trivial
      · cases hlc : loadCompoundSub bytes depth ⟨0, c⟩ with
        | error e =>
          have := hcomp bytes hlen depth c
          rw [hlc] at this
          exact this
        | ok q =>
          obtain ⟨entries, a2, r, hr⟩ := q
          dsimp only
          have hres := hcomp bytes hlen depth c
          rw [hlc] at hres
          have ha2 : a2 = ⟨0, c⟩ := hres
          subst ha2
          exact rfl
    · simp only [account_bytes_zero]
      cases hre : readExactSub 4 bytes with
      | error e =>
        rw [readExactSub_error hre]
        trivial
      | ok p =>
        obtain ⟨lenb, r1, hr1⟩ := p
        dsimp only
        cases hri : readIntsSub 4 (toSigned 32 (beValue lenb)).toNat r1 with
        | error e =>
          rw [readIntsSub_error hri]
          trivial
        | ok q =>
          obtain ⟨vs, r2, hr2⟩ := q
          dsimp only
          exact rfl
    · simp only [account_bytes_zero]
      cases hre : readExactSub 4 bytes with
      | error e =>
        rw [readExactSub_error hre]
        trivial
      | ok p =>
        obtain ⟨lenb, r1, hr1⟩ := p
        dsimp only
        cases hri : readIntsSub 8 (toSigned 32 (beValue lenb)).toNat r1 with
        | error e =>
          rw [readIntsSub_error hri]
          trivial
        | ok q =>
          obtain ⟨vs, r2, hr2⟩ := q
          dsimp only
          exact rfl
    · trivial
  have hlist : ∀ (count : Nat) (bytes : Bytes), bytes.length ≤ n →
      ∀ tagByte depth c, limit0Ok c (loadListSub bytes tagByte count depth ⟨0, c⟩) := by
    intro count
    induction count with
    | zero =>
      intro bytes hlen tagByte depth c
      rw [loadListSub.eq_def]
      exact rfl
    | succ cnt ihc =>
      intro bytes hlen tagByte depth c
      rw [loadListSub.eq_def]
      dsimp only
      cases htg : loadTagSub bytes tagByte depth ⟨0, c⟩ with
      | error e =>
        have := htag bytes hlen tagByte depth c
        rw [htg] at this
        exact this
      | ok q =>
        obtain ⟨t, a2, r, hr⟩ := q
        dsimp only
        have hres := htag bytes hlen tagByte depth c
        rw [htg] at hres
        have ha2 : a2 = ⟨0, c⟩ := hres
        subst ha2
        cases hrec : loadListSub r tagByte cnt depth ⟨0, c⟩ with
        | error e =>
          have := ihc r (by omega) tagByte depth c
          rw [hrec] at this
          exact this
        | ok q2 =>
          obtain ⟨ts, a3, r2, hr2⟩ := q2
          dsimp only
          have hres2 := ihc r (by omega) tagByte depth c
          rw [hrec] at hres2
          have ha3 : a3 = ⟨0, c⟩ := hres2
          subst ha3
          exact rfl
  exact ⟨hcomp, htag, hlist⟩

/-- A successful `account_bytes` step under a nonzero limit adds exactly
`b` and stays within the limit. -/
theorem account_bytes_ok {L1 c1 b : Nat} (h1 : L1 ≠ 0) {a : NbtAccounter}
    (h : NbtAccounter.account_bytes ⟨L1, c1⟩ b = .ok a) :
    a = ⟨L1, c1 + b⟩ ∧ c1 + b ≤ L1 := by
  unfold NbtAccounter.account_bytes at h
  dsimp only at h
  rw [if_neg h1] at h
  split at h
  · split at h
    · cases h
    · next hover hgt => exact ⟨((Except.ok.injEq _ _).mp h).symm, by omega⟩
  · cases h

/-- Under a nonzero limit, an `account_bytes` step either trips the budget
or adds exactly `b` within the limit. -/
theorem account_bytes_run2 (L2 c2 b : Nat) (h2 : L2 ≠ 0) :
    (∃ m, NbtAccounter.account_bytes ⟨L2, c2⟩ b = .error (.NbtErr (.TagTooBig L2 m))) ∨
    NbtAccounter.account_bytes ⟨L2, c2⟩ b = .error (.NbtErr .AccounterOverflow) ∨
    (NbtAccounter.account_bytes ⟨L2, c2⟩ b = .ok ⟨L2, c2 + b⟩ ∧ c2 + b ≤ L2) := by
  unfold NbtAccounter.account_bytes
  dsimp only
  rw [if_neg h2]
  split
  · split
    · exact Or.inl ⟨c2 + b, rfl⟩
    · next hgt2 => exact Or.inr (Or.inr ⟨rfl, by omega⟩)
  · exact Or.inr (Or.inl rfl)

/-- `read_string_sub` transfer: the first run's success determines the debit
(`utf8Len s`), and any second run with a nonzero limit either trips its
budget or succeeds identically. -/
theorem read_string_sub_transfer (bs : Bytes) (L1 c1 : Nat) (h1 : L1 ≠ 0) :
    ∀ s a r, read_string_sub bs ⟨L1, c1⟩ = .ok ((s, a), r) →
      a = ⟨L1, c1 + utf8Len s⟩ ∧ c1 + utf8Len s ≤ L1 ∧
      ∀ L2 c2, L2 ≠ 0 →
        ((∃ m, read_string_sub bs ⟨L2, c2⟩ = .error (.NbtErr (.TagTooBig L2 m))) ∨
         read_string_sub bs ⟨L2, c2⟩ = .error (.NbtErr .AccounterOverflow) ∨
         (read_string_sub bs ⟨L2, c2⟩ = .ok ((s, ⟨L2, c2 + utf8Len s⟩), r) ∧
           c2 + utf8Len s ≤ L2)) := by
  intro s a r h
  unfold read_string_sub at h ⊢
  split at h
  next => cases h
  next lenBytes r1 hr1 heq =>
    split at h
    next => cases h
    next payload r2 hr2 heq2 =>
      split at h
      next => cases h
      next s2 heq3 =>
        split at h
        next => cases h
        next a2 heqacc =>
          cases h
          obtain ⟨ha, hle⟩ := account_bytes_ok h1 heqacc
          subst ha
          refine ⟨rfl, hle, ?_⟩
          intro L2 c2 hL2
          rcases account_bytes_run2 L2 c2 (utf8Len s) hL2 with ⟨m, hm⟩ | hov | ⟨hok, hle2⟩
          · exact Or.inl ⟨m, by rw [hm]⟩
          · exact Or.inr (Or.inl (by rw [hov]))
          · exact Or.inr (Or.inr ⟨by rw [hok], hle2⟩)
theorem acctmk_congr {L x y : Nat} (h : x = y) :
    (⟨L, x⟩ : NbtAccounter) = ⟨L, y⟩ := by rw [h]

theorem ok_triple_congr {α γ : Type _} {x : α} {r : γ} {L c c' : Nat}
    (h : c = c') :
    (Except.ok (x, (⟨L, c⟩ : NbtAccounter), r) :
      DraxResult (α × NbtAccounter × γ)) = .ok (x, ⟨L, c'⟩, r) := by rw [h]

theorem load_transfer : ∀ n : Nat,
    (∀ bytes : Bytes, bytes.length ≤ n → ∀ depth L1 c1, L1 ≠ 0 → c1 ≤ L1 →
      ∀ t a r, loadCompoundSub bytes depth ⟨L1, c1⟩ = .ok (t, a, r) →
        ∃ d, a = ⟨L1, c1 + d⟩ ∧ c1 + d ≤ L1 ∧
          ∀ L2 c2, L2 ≠ 0 → c2 ≤ L2 →
            ((∃ m, loadCompoundSub bytes depth ⟨L2, c2⟩ =
                .error (.NbtErr (.TagTooBig L2 m))) ∨
             loadCompoundSub bytes depth ⟨L2, c2⟩ =
                .error (.NbtErr .AccounterOverflow) ∨
             (loadCompoundSub bytes depth ⟨L2, c2⟩ = .ok (t, ⟨L2, c2 + d⟩, r) ∧
               c2 + d ≤ L2))) ∧
    (∀ bytes : Bytes, bytes.length ≤ n → ∀ bit depth L1 c1, L1 ≠ 0 → c1 ≤ L1 →
      ∀ t a r, loadTagSub bytes bit depth ⟨L1, c1⟩ = .ok (t, a, r) →
        ∃ d, a = ⟨L1, c1 + d⟩ ∧ c1 + d ≤ L1 ∧
          ∀ L2 c2, L2 ≠ 0 → c2 ≤ L2 →
            ((∃ m, loadTagSub bytes bit depth ⟨L2, c2⟩ =
                .error (.NbtErr (.TagTooBig L2 m))) ∨
             loadTagSub bytes bit depth ⟨L2, c2⟩ =
                .error (.NbtErr .AccounterOverflow) ∨
             (loadTagSub bytes bit depth ⟨L2, c2⟩ = .ok (t, ⟨L2, c2 + d⟩, r) ∧
               c2 + d ≤ L2))) ∧
    (∀ (count : Nat) (bytes : Bytes), bytes.length ≤ n →
      ∀ tagByte depth L1 c1, L1 ≠ 0 → c1 ≤ L1 →
      ∀ t a r, loadListSub bytes tagByte count depth ⟨L1, c1⟩ = .ok (t, a, r) →
        ∃ d, a = ⟨L1, c1 + d⟩ ∧ c1 + d ≤ L1 ∧
          ∀ L2 c2, L2 ≠ 0 → c2 ≤ L2 →
            ((∃ m, loadListSub bytes tagByte count depth ⟨L2, c2⟩ =
                .error (.NbtErr (.TagTooBig L2 m))) ∨
             loadListSub bytes tagByte count depth ⟨L2, c2⟩ =
                .error (.NbtErr .AccounterOverflow) ∨
             (loadListSub bytes tagByte count depth ⟨L2, c2⟩ =
                .ok (t, ⟨L2, c2 + d⟩, r) ∧ c2 + d ≤ L2))) := by
  intro n
  induction n using Nat.strong_induction_on with
  | _ n ih =>
  have hcomp : ∀ bytes : Bytes, bytes.length ≤ n → ∀ depth L1 c1, L1 ≠ 0 → c1 ≤ L1 →
      ∀ t a r, loadCompoundSub bytes depth ⟨L1, c1⟩ = .ok (t, a, r) →
        ∃ d, a = ⟨L1, c1 + d⟩ ∧ c1 + d ≤ L1 ∧
          ∀ L2 c2, L2 ≠ 0 → c2 ≤ L2 →
            ((∃ m, loadCompoundSub bytes depth ⟨L2, c2⟩ =
                .error (.NbtErr (.TagTooBig L2 m))) ∨
             loadCompoundSub bytes depth ⟨L2, c2⟩ =
                .error (.NbtErr .AccounterOverflow) ∨
             (loadCompoundSub bytes depth ⟨L2, c2⟩ = .ok (t, ⟨L2, c2 + d⟩, r) ∧
               c2 + d ≤ L2)) := by
    intro bytes hlen depth L1 c1 h1 hc1 t a r h
    rw [loadCompoundSub.eq_def] at h
    split at h
    · cases h
    next tagByte r1 =>
      have hn1 : 1 ≤ n := by simp at hlen; omega
      have hr1n : r1.length + 1 ≤ n := by simpa using hlen
      split at h
      next h0 =>
        cases h
        refine ⟨0, acctmk_congr (by omega), by omega, ?_⟩
        intro L2 c2 hL2 hc2
        refine Or.inr (Or.inr ⟨?_, by omega⟩)
        rw [loadCompoundSub.eq_def]
        dsimp only
        rw [if_pos h0]
        exact ok_triple_congr (by omega)
      next h0 =>
        cases hacc : NbtAccounter.account_bytes ⟨L1, c1⟩ 28 with
        | error e =>
          rw [hacc] at h
          cases h
        | ok a1 =>
          obtain ⟨ha1, hle1⟩ := account_bytes_ok h1 hacc
          subst ha1
          rw [hacc] at h
          dsimp only at h
          cases hrs : read_string_sub r1 ⟨L1, c1 + 28⟩ with
          | error e =>
            rw [hrs] at h
            cases h
          | ok p =>
            obtain ⟨⟨key, a2⟩, r2, hr2⟩ := p
            obtain ⟨ha2, hle2, hrun2⟩ := read_string_sub_transfer r1 L1 (c1 + 28) h1 _ _ _ hrs
            subst ha2
            rw [hrs] at h
            dsimp only at h
            cases hlt : loadTagSub r2 tagByte (depth + 1)
                ⟨L1, c1 + 28 + utf8Len key⟩ with
            | error e =>
              rw [hlt] at h
              cases h
            | ok q =>
              obtain ⟨data, a3, r3, hr3⟩ := q
              obtain ⟨d3, ha3, hle3, hrun3⟩ :=
                (ih (n - 1) (by omega)).2.1 r2 (by omega) tagByte (depth + 1)
                  L1 (c1 + 28 + utf8Len key) h1 hle2 _ _ _ hlt
              subst ha3
              rw [hlt] at h
              dsimp only at h
              cases hacc2 : NbtAccounter.account_bytes
                  ⟨L1, c1 + 28 + utf8Len key + d3⟩ 36 with
              | error e =>
                rw [hacc2] at h
                cases h
              | ok a4 =>
                obtain ⟨ha4, hle4⟩ := account_bytes_ok h1 hacc2
                subst ha4
                rw [hacc2] at h
                dsimp only at h
                cases hlc : loadCompoundSub r3 depth
                    ⟨L1, c1 + 28 + utf8Len key + d3 + 36⟩ with
                | error e =>
                  rw [hlc] at h
                  cases h
                | ok q2 =>
                  obtain ⟨entries, a5, r4, hr4⟩ := q2
                  obtain ⟨d5, ha5, hle5, hrun5⟩ :=
                    (ih (n - 1) (by omega)).1 r3 (by omega) depth
                      L1 (c1 + 28 + utf8Len key + d3 + 36) h1 hle4 _ _ _ hlc
                  subst ha5
                  rw [hlc] at h
                  dsimp only at h
                  cases h
                  refine ⟨28 + utf8Len key + d3 + 36 + d5,
                    acctmk_congr (by omega), by omega, ?_⟩
                  intro L2 c2 hL2 hc2
                  rw [loadCompoundSub.eq_def]
                  dsimp only
                  rw [if_neg h0]
                  rcases account_bytes_run2 L2 c2 28 hL2 with ⟨m, hm⟩ | hov | ⟨hok1, hleb1⟩
                  · exact Or.inl ⟨m, by rw [hm]⟩
                  · exact Or.inr (Or.inl (by rw [hov]))
                  · rw [hok1]
                    dsimp only
                    rcases hrun2 L2 (c2 + 28) hL2 with ⟨m, hm⟩ | hov | ⟨hok2, hleb2⟩
                    · exact Or.inl ⟨m, by rw [hm]⟩
                    · exact Or.inr (Or.inl (by rw [hov]))
                    · rw [hok2]
                      dsimp only
                      rcases hrun3 L2 (c2 + 28 + utf8Len key) hL2 hleb2 with
                        ⟨m, hm⟩ | hov | ⟨hok3, hleb3⟩
                      · exact Or.inl ⟨m, by rw [hm]⟩
                      · exact Or.inr (Or.inl (by rw [hov]))
                      · rw [hok3]
                        dsimp only
                        rcases account_bytes_run2 L2 (c2 + 28 + utf8Len key + d3) 36 hL2 with
                          ⟨m, hm⟩ | hov | ⟨hok4, hleb4⟩
                        · exact Or.inl ⟨m, by rw [hm]⟩
                        · exact Or.inr (Or.inl (by rw [hov]))
                        · rw [hok4]
                          dsimp only
                          rcases hrun5 L2 (c2 + 28 + utf8Len key + d3 + 36) hL2 hleb4 with
                            ⟨m, hm⟩ | hov | ⟨hok5, hleb5⟩
                          · exact Or.inl ⟨m, by rw [hm]⟩
                          · exact Or.inr (Or.inl (by rw [hov]))
                          · rw [hok5]
                            exact Or.inr (Or.inr ⟨ok_triple_congr (by omega),
                              by omega⟩)
  have htag : ∀ bytes : Bytes, bytes.length ≤ n → ∀ bit depth L1 c1, L1 ≠ 0 → c1 ≤ L1 →
      ∀ t a r, loadTagSub bytes bit depth ⟨L1, c1⟩ = .ok (t, a, r) →
        ∃ d, a = ⟨L1, c1 + d⟩ ∧ c1 + d ≤ L1 ∧
          ∀ L2 c2, L2 ≠ 0 → c2 ≤ L2 →
            ((∃ m, loadTagSub bytes bit depth ⟨L2, c2⟩ =
                .error (.NbtErr (.TagTooBig L2 m))) ∨
             loadTagSub bytes bit depth ⟨L2, c2⟩ =
                .error (.NbtErr .AccounterOverflow) ∨
             (loadTagSub bytes bit depth ⟨L2, c2⟩ = .ok (t, ⟨L2, c2 + d⟩, r) ∧
               c2 + d ≤ L2)) := by
    intro bytes hlen bit depth L1 c1 h1 hc1 t a r h
    rw [loadTagSub.eq_def] at h
    split at h
    · cases hacc : NbtAccounter.account_bytes ⟨L1, c1⟩ 8 with
      | error e =>
        rw [hacc] at h
        dsimp only [Except.map] at h
        cases h
      | ok a1 =>
        obtain ⟨ha1, hle1⟩ := account_bytes_ok h1 hacc
        subst ha1
        rw [hacc] at h
        dsimp only [Except.map] at h
        cases h
        refine ⟨8, acctmk_congr (by omega), by omega, ?_⟩
        intro L2 c2 hL2 hc2
        rw [loadTagSub.eq_def]
        dsimp only
        rcases account_bytes_run2 L2 c2 8 hL2 with ⟨m, hm⟩ | hov | ⟨hok1, hleb1⟩
        · exact Or.inl ⟨m, by rw [hm]; rfl⟩
        · exact Or.inr (Or.inl (by rw [hov]; rfl))
        · rw [hok1]
          dsimp only [Except.map]
          exact Or.inr (Or.inr ⟨ok_triple_congr (by omega), by omega⟩)
    · cases hacc : NbtAccounter.account_bytes ⟨L1, c1⟩ 9 with
      | error e =>
        rw [hacc] at h
        cases h
      | ok a1 =>
        obtain ⟨ha1, hle1⟩ := account_bytes_ok h1 hacc
        subst ha1
        rw [hacc] at h
        dsimp only at h
        split at h
        · cases h
        next b r2 =>
          cases h
          refine ⟨9, acctmk_congr (by omega), by omega, ?_⟩
          intro L2 c2 hL2 hc2
          rw [loadTagSub.eq_def]
          dsimp only
          rcases account_bytes_run2 L2 c2 9 hL2 with ⟨m, hm⟩ | hov | ⟨hok1, hleb1⟩
          · exact Or.inl ⟨m, by rw [hm]⟩
          · exact Or.inr (Or.inl (by rw [hov]))
          · rw [hok1]
            dsimp only
            exact Or.inr (Or.inr ⟨ok_triple_congr (by omega), by omega⟩)
    · cases hacc : NbtAccounter.account_bytes ⟨L1, c1⟩ 10 with
      | error e =>
        rw [hacc] at h
        cases h
      | ok a1 =>
        obtain ⟨ha1, hle1⟩ := account_bytes_ok h1 hacc
        subst ha1
        rw [hacc] at h
        dsimp only at h
        cases hre : readExactSub 2 bytes with
        | error e =>
          rw [hre] at h
          cases h
        | ok p =>
          obtain ⟨buf, r2, hr2⟩ := p
          rw [hre] at h
          dsimp only at h
          cases h
          refine ⟨10, acctmk_congr (by omega), by omega, ?_⟩
          intro L2 c2 hL2 hc2
          rw [loadTagSub.eq_def]
          dsimp only
          rcases account_bytes_run2 L2 c2 10 hL2 with ⟨m, hm⟩ | hov | ⟨hok1, hleb1⟩
          · exact Or.inl ⟨m, by rw [hm]⟩
          · exact Or.inr (Or.inl (by rw [hov]))
          · rw [hok1]
            dsimp only
            rw [hre]
            dsimp only
            exact Or.inr (Or.inr ⟨ok_triple_congr (by omega), by omega⟩)
    · cases hacc : NbtAccounter.account_bytes ⟨L1, c1⟩ 12 with
      | error e =>
        rw [hacc] at h
        cases h
      | ok a1 =>
        obtain ⟨ha1, hle1⟩ := account_bytes_ok h1 hacc
        subst ha1
        rw [hacc] at h
        dsimp only at h
        cases hre : readExactSub 4 bytes with
        | error e =>
          rw [hre] at h
          cases h
        | ok p =>
          obtain ⟨buf, r2, hr2⟩ := p
          rw [hre] at h
          dsimp only at h
          cases h
          refine ⟨12, acctmk_congr (by omega), by omega, ?_⟩
          intro L2 c2 hL2 hc2
          rw [loadTagSub.eq_def]
          dsimp only
          rcases account_bytes_run2 L2 c2 12 hL2 with ⟨m, hm⟩ | hov | ⟨hok1, hleb1⟩
          · exact Or.inl ⟨m, by rw [hm]⟩
          · exact Or.inr (Or.inl (by rw [hov]))
          · rw [hok1]
            dsimp only
            rw [hre]
            dsimp only
            exact Or.inr (Or.inr ⟨ok_triple_congr (by omega), by omega⟩)
    · cases hacc : NbtAccounter.account_bytes ⟨L1, c1⟩ 16 with
      | error e =>
        rw [hacc] at h
        cases h
      | ok a1 =>
        obtain ⟨ha1, hle1⟩ := account_bytes_ok h1 hacc
        subst ha1
        rw [hacc] at h
        dsimp only at h
        cases hre : readExactSub 8 bytes with
        | error e =>
          rw [hre] at h
          cases h
        | ok p =>
          obtain ⟨buf, r2, hr2⟩ := p
          rw [hre] at h
          dsimp only at h
          cases h
          refine ⟨16, acctmk_congr (by omega), by omega, ?_⟩
          intro L2 c2 hL2 hc2
          rw [loadTagSub.eq_def]
          dsimp only
          rcases account_bytes_run2 L2 c2 16 hL2 with ⟨m, hm⟩ | hov | ⟨hok1, hleb1⟩
          · exact Or.inl ⟨m, by rw [hm]⟩
          · exact Or.inr (Or.inl (by rw [hov]))
          · rw [hok1]
            dsimp only
            rw [hre]
            dsimp only
            exact Or.inr (Or.inr ⟨ok_triple_congr (by omega), by omega⟩)
    · cases hacc : NbtAccounter.account_bytes ⟨L1, c1⟩ 12 with
      | error e =>
        rw [hacc] at h
        cases h
      | ok a1 =>
        obtain ⟨ha1, hle1⟩ := account_bytes_ok h1 hacc
        subst ha1
        rw [hacc] at h
        dsimp only at h
        cases hre : readExactSub 4 bytes with
        | error e =>
          rw [hre] at h
          cases h
        | ok p =>
          obtain ⟨buf, r2, hr2⟩ := p
          rw [hre] at h
          dsimp only at h
          cases h
          refine ⟨12, acctmk_congr (by omega), by omega, ?_⟩
          intro L2 c2 hL2 hc2
          rw [loadTagSub.eq_def]
          dsimp only
          rcases account_bytes_run2 L2 c2 12 hL2 with ⟨m, hm⟩ | hov | ⟨hok1, hleb1⟩
          · exact Or.inl ⟨m, by rw [hm]⟩
          · exact Or.inr (Or.inl (by rw [hov]))
          · rw [hok1]
            dsimp only
            rw [hre]
            dsimp only
            exact Or.inr (Or.inr ⟨ok_triple_congr (by omega), by omega⟩)
    · cases hacc : NbtAccounter.account_bytes ⟨L1, c1⟩ 16 with
      | error e =>
        rw [hacc] at h
        cases h
      | ok a1 =>
        obtain ⟨ha1, hle1⟩ := account_bytes_ok h1 hacc
        subst ha1
        rw [hacc] at h
        dsimp only at h
        cases hre : readExactSub 8 bytes with
        | error e =>
          rw [hre] at h
          cases h
        | ok p =>
          obtain ⟨buf, r2, hr2⟩ := p
          rw [hre] at h
          dsimp only at h
          cases h
          refine ⟨16, acctmk_congr (by omega), by omega, ?_⟩
          intro L2 c2 hL2 hc2
          rw [loadTagSub.eq_def]
          dsimp only
          rcases account_bytes_run2 L2 c2 16 hL2 with ⟨m, hm⟩ | hov | ⟨hok1, hleb1⟩
          · exact Or.inl ⟨m, by rw [hm]⟩
          · exact Or.inr (Or.inl (by rw [hov]))
          · rw [hok1]
            dsimp only
            rw [hre]
            dsimp only
            exact Or.inr (Or.inr ⟨ok_triple_congr (by omega), by omega⟩)
    · cases hacc : NbtAccounter.account_bytes ⟨L1, c1⟩ 24 with
      | error e =>
        rw [hacc] at h
        cases h
      | ok a1 =>
        obtain ⟨ha1, hle1⟩ := account_bytes_ok h1 hacc
        subst ha1
        rw [hacc] at h
        dsimp only at h
        cases hre : readExactSub 4 bytes with
        | error e =>
          rw [hre] at h
          cases h
        | ok p =>
          obtain ⟨lenb, r1, hr1⟩ := p
          rw [hre] at h
          dsimp only at h
          cases hacc2 : NbtAccounter.account_bytes ⟨L1, c1 + 24⟩
              (toUnsigned 64 (toSigned 32 (beValue lenb))) with
          | error e =>
            rw [hacc2] at h
            cases h
          | ok a2 =>
            obtain ⟨ha2, hle2⟩ := account_bytes_ok h1 hacc2
            subst ha2
            rw [hacc2] at h
            dsimp only at h
            cases hre2 : readExactSub (toUnsigned 64 (toSigned 32 (beValue lenb))) r1 with
            | error e =>
              rw [hre2] at h
              cases h
            | ok q =>
              obtain ⟨payload, r2, hr2⟩ := q
              rw [hre2] at h
              dsimp only at h
              cases h
              refine ⟨24 + toUnsigned 64 (toSigned 32 (beValue lenb)),
                acctmk_congr (by omega), by omega, ?_⟩
              intro L2 c2 hL2 hc2
              rw [loadTagSub.eq_def]
              dsimp only
              rcases account_bytes_run2 L2 c2 24 hL2 with ⟨m, hm⟩ | hov | ⟨hok1, hleb1⟩
              · exact Or.inl ⟨m, by rw [hm]⟩
              · exact Or.inr (Or.inl (by rw [hov]))
              · rw [hok1]
                dsimp only
                rw [hre]
                dsimp only
                rcases account_bytes_run2 L2 (c2 + 24) (toUnsigned 64 (toSigned 32 (beValue lenb))) hL2 with
                  ⟨m, hm⟩ | hov | ⟨hok2, hleb2⟩
                · exact Or.inl ⟨m, by rw [hm]⟩
                · exact Or.inr (Or.inl (by rw [hov]))
                · rw [hok2]
                  dsimp only
                  rw [hre2]
                  dsimp only
                  exact Or.inr (Or.inr ⟨ok_triple_congr (by omega), by omega⟩)
    · cases hacc : NbtAccounter.account_bytes ⟨L1, c1⟩ 36 with
      | error e =>
        rw [hacc] at h
        cases h
      | ok a1 =>
        obtain ⟨ha1, hle1⟩ := account_bytes_ok h1 hacc
        subst ha1
        rw [hacc] at h
        dsimp only at h
        cases hrs : read_string_sub bytes ⟨L1, c1 + 36⟩ with
        | error e =>
          rw [hrs] at h
          cases h
        | ok p =>
          obtain ⟨⟨s, a2⟩, r2, hr2⟩ := p
          obtain ⟨ha2, hle2, hrun2⟩ :=
            read_string_sub_transfer bytes L1 (c1 + 36) h1 _ _ _ hrs
          subst ha2
          rw [hrs] at h
          dsimp only at h
          cases h
          refine ⟨36 + utf8Len s, acctmk_congr (by omega), by omega, ?_⟩
          intro L2 c2 hL2 hc2
          rw [loadTagSub.eq_def]
          dsimp only
          rcases account_bytes_run2 L2 c2 36 hL2 with ⟨m, hm⟩ | hov | ⟨hok1, hleb1⟩
          · exact Or.inl ⟨m, by rw [hm]⟩
          · exact Or.inr (Or.inl (by rw [hov]))
          · rw [hok1]
            dsimp only
            rcases hrun2 L2 (c2 + 36) hL2 with ⟨m, hm⟩ | hov | ⟨hok2, hleb2⟩
            · exact Or.inl ⟨m, by rw [hm]⟩
            · exact Or.inr (Or.inl (by rw [hov]))
            · rw [hok2]
              dsimp only
              exact Or.inr (Or.inr ⟨ok_triple_congr (by omega), by omega⟩)
    · cases hacc : NbtAccounter.account_bytes ⟨L1, c1⟩ 37 with
      | error e =>
        rw [hacc] at h
        cases h
      | ok a1 =>
        obtain ⟨ha1, hle1⟩ := account_bytes_ok h1 hacc
        subst ha1
        rw [hacc] at h
        dsimp only at h
        split at h
        · cases h
        next hd =>
          split at h
          · cases h
          next tagByte2 r1 =>
            have hr1n : r1.length + 1 ≤ n := by simpa using hlen
            cases hre : readExactSub 4 r1 with
            | error e =>
              rw [hre] at h
              cases h
            | ok p =>
              obtain ⟨lenb, r2, hr2⟩ := p
              rw [hre] at h
              dsimp only at h
              cases hacc2 : NbtAccounter.account_bytes ⟨L1, c1 + 37⟩
                  (toUnsigned 64 (wrapI32 (4 * toSigned 32 (beValue lenb)))) with
              | error e =>
                rw [hacc2] at h
                cases h
              | ok a2 =>
                obtain ⟨ha2, hle2⟩ := account_bytes_ok h1 hacc2
                subst ha2
                rw [hacc2] at h
                dsimp only at h
                cases hll : loadListSub r2 tagByte2 (toSigned 32 (beValue lenb)).toNat
                    (depth + 1) ⟨L1, c1 + 37 + toUnsigned 64 (wrapI32 (4 * toSigned 32 (beValue lenb)))⟩ with
                | error e =>
                  rw [hll] at h
                  cases h
                | ok q =>
                  obtain ⟨elems, a3, r3, hr3⟩ := q
                  obtain ⟨d3, ha3, hle3, hrun3⟩ :=
                    (ih (n - 1) (by omega)).2.2 (toSigned 32 (beValue lenb)).toNat
                      r2 (by omega) tagByte2 (depth + 1) L1 _ h1 hle2 _ _ _ hll
                  subst ha3
                  rw [hll] at h
                  dsimp only at h
                  cases h
                  refine ⟨37 + toUnsigned 64 (wrapI32 (4 * toSigned 32 (beValue lenb))) + d3,
                    acctmk_congr (by omega), by omega, ?_⟩
                  intro L2 c2 hL2 hc2
                  rw [loadTagSub.eq_def]
                  dsimp only
                  rcases account_bytes_run2 L2 c2 37 hL2 with ⟨m, hm⟩ | hov | ⟨hok1, hleb1⟩
                  · exact Or.inl ⟨m, by rw [hm]⟩
                  · exact Or.inr (Or.inl (by rw [hov]))
                  · rw [hok1]
                    dsimp only
                    rw [if_neg hd]
                    try dsimp only
                    rw [hre]
                    dsimp only
                    rcases account_bytes_run2 L2 (c2 + 37) (toUnsigned 64 (wrapI32 (4 * toSigned 32 (beValue lenb)))) hL2 with
                      ⟨m, hm⟩ | hov | ⟨hok2, hleb2⟩
                    · exact Or.inl ⟨m, by rw [hm]⟩
                    · exact Or.inr (Or.inl (by rw [hov]))
                    · rw [hok2]
                      dsimp only
                      rcases hrun3 L2 (c2 + 37 + toUnsigned 64 (wrapI32 (4 * toSigned 32 (beValue lenb)))) hL2 hleb2 with
                        ⟨m, hm⟩ | hov | ⟨hok3, hleb3⟩
                      · exact Or.inl ⟨m, by rw [hm]⟩
                      · exact Or.inr (Or.inl (by rw [hov]))
                      · rw [hok3]
                        dsimp only
                        exact Or.inr (Or.inr ⟨ok_triple_congr (by omega), by omega⟩)
    · cases hacc : NbtAccounter.account_bytes ⟨L1, c1⟩ 48 with
      | error e =>
        rw [hacc] at h
        cases h
      | ok a1 =>
        obtain ⟨ha1, hle1⟩ := account_bytes_ok h1 hacc
        subst ha1
        rw [hacc] at h
        dsimp only at h
        split at h
        · cases h
        next hd =>
          cases hlc : loadCompoundSub bytes depth ⟨L1, c1 + 48⟩ with
          | error e =>
            rw [hlc] at h
            cases h
          | ok q =>
            obtain ⟨entries, a2, r2, hr2⟩ := q
            obtain ⟨d2, ha2, hle2, hrun2⟩ :=
              hcomp bytes hlen depth L1 (c1 + 48) h1 hle1 _ _ _ hlc
            subst ha2
            rw [hlc] at h
            dsimp only at h
            cases h
            refine ⟨48 + d2, acctmk_congr (by omega), by omega, ?_⟩
            intro L2 c2 hL2 hc2
            rw [loadTagSub.eq_def]
            dsimp only
            rcases account_bytes_run2 L2 c2 48 hL2 with ⟨m, hm⟩ | hov | ⟨hok1, hleb1⟩
            · exact Or.inl ⟨m, by rw [hm]⟩
            · exact Or.inr (Or.inl (by rw [hov]))
            · rw [hok1]
              dsimp only
              rw [if_neg hd]
              rcases hrun2 L2 (c2 + 48) hL2 hleb1 with ⟨m, hm⟩ | hov | ⟨hok2, hleb2⟩
              · exact Or.inl ⟨m, by rw [hm]⟩
              · exact Or.inr (Or.inl (by rw [hov]))
              · rw [hok2]
                dsimp only
                exact Or.inr (Or.inr ⟨ok_triple_congr (by omega), by omega⟩)
    · cases hacc : NbtAccounter.account_bytes ⟨L1, c1⟩ 24 with
      | error e =>
        rw [hacc] at h
        cases h
      | ok a1 =>
        obtain ⟨ha1, hle1⟩ := account_bytes_ok h1 hacc
        subst ha1
        rw [hacc] at h
        dsimp only at h
        cases hre : readExactSub 4 bytes with
        | error e =>
          rw [hre] at h
          cases h
        | ok p =>
          obtain ⟨lenb, r1, hr1⟩ := p
          rw [hre] at h
          dsimp only at h
          cases hacc2 : NbtAccounter.account_bytes ⟨L1, c1 + 24⟩
              (toUnsigned 64 (wrapI32 (4 * toSigned 32 (beValue lenb)))) with
          | error e =>
            rw [hacc2] at h
            cases h
          | ok a2 =>
            obtain ⟨ha2, hle2⟩ := account_bytes_ok h1 hacc2
            subst ha2
            rw [hacc2] at h
            dsimp only at h
            cases hri : readIntsSub 4 (toSigned 32 (beValue lenb)).toNat r1 with
            | error e =>
              rw [hri] at h
              cases h
            | ok q =>
              obtain ⟨vs, r2, hr2⟩ := q
              rw [hri] at h
              dsimp only at h
              cases h
              refine ⟨24 + toUnsigned 64 (wrapI32 (4 * toSigned 32 (beValue lenb))),
                acctmk_congr (by omega), by omega, ?_⟩
              intro L2 c2 hL2 hc2
              rw [loadTagSub.eq_def]
              dsimp only
              rcases account_bytes_run2 L2 c2 24 hL2 with ⟨m, hm⟩ | hov | ⟨hok1, hleb1⟩
              · exact Or.inl ⟨m, by rw [hm]⟩
              · exact Or.inr (Or.inl (by rw [hov]))
              · rw [hok1]
                dsimp only
                rw [hre]
                dsimp only
                rcases account_bytes_run2 L2 (c2 + 24)
                    (toUnsigned 64 (wrapI32 (4 * toSigned 32 (beValue lenb)))) hL2 with
                  ⟨m, hm⟩ | hov | ⟨hok2, hleb2⟩
                · exact Or.inl ⟨m, by rw [hm]⟩
                · exact Or.inr (Or.inl (by rw [hov]))
                · rw [hok2]
                  dsimp only
                  rw [hri]
                  dsimp only
                  exact Or.inr (Or.inr ⟨ok_triple_congr (by omega), by omega⟩)
    · cases hacc : NbtAccounter.account_bytes ⟨L1, c1⟩ 24 with
      | error e =>
        rw [hacc] at h
        cases h
      | ok a1 =>
        obtain ⟨ha1, hle1⟩ := account_bytes_ok h1 hacc
        subst ha1
        rw [hacc] at h
        dsimp only at h
        cases hre : readExactSub 4 bytes with
        | error e =>
          rw [hre] at h
          cases h
        | ok p =>
          obtain ⟨lenb, r1, hr1⟩ := p
          rw [hre] at h
          dsimp only at h
          cases hacc2 : NbtAccounter.account_bytes ⟨L1, c1 + 24⟩
              (toUnsigned 64 (wrapI32 (8 * toSigned 32 (beValue lenb)))) with
          | error e =>
            rw [hacc2] at h
            cases h
          | ok a2 =>
            obtain ⟨ha2, hle2⟩ := account_bytes_ok h1 hacc2
            subst ha2
            rw [hacc2] at h
            dsimp only at h
            cases hri : readIntsSub 8 (toSigned 32 (beValue lenb)).toNat r1 with
            | error e =>
              rw [hri] at h
              cases h
            | ok q =>
              obtain ⟨vs, r2, hr2⟩ := q
              rw [hri] at h
              dsimp only at h
              cases h
              refine ⟨24 + toUnsigned 64 (wrapI32 (8 * toSigned 32 (beValue lenb))),
                acctmk_congr (by omega), by omega, ?_⟩
              intro L2 c2 hL2 hc2
              rw [loadTagSub.eq_def]
              dsimp only
              rcases account_bytes_run2 L2 c2 24 hL2 with ⟨m, hm⟩ | hov | ⟨hok1, hleb1⟩
              · exact Or.inl ⟨m, by rw [hm]⟩
              · exact Or.inr (Or.inl (by rw [hov]))
              · rw [hok1]
                dsimp only
                rw [hre]
                dsimp only
                rcases account_bytes_run2 L2 (c2 + 24)
                    (toUnsigned 64 (wrapI32 (8 * toSigned 32 (beValue lenb)))) hL2 with
                  ⟨m, hm⟩ | hov | ⟨hok2, hleb2⟩
                · exact Or.inl ⟨m, by rw [hm]⟩
                · exact Or.inr (Or.inl (by rw [hov]))
                · rw [hok2]
                  dsimp only
                  rw [hri]
                  dsimp only
                  exact Or.inr (Or.inr ⟨ok_triple_congr (by omega), by omega⟩)
    · cases h
  have hlist : ∀ (count : Nat) (bytes : Bytes), bytes.length ≤ n →
      ∀ tagByte depth L1 c1, L1 ≠ 0 → c1 ≤ L1 →
      ∀ t a r, loadListSub bytes tagByte count depth ⟨L1, c1⟩ = .ok (t, a, r) →
        ∃ d, a = ⟨L1, c1 + d⟩ ∧ c1 + d ≤ L1 ∧
          ∀ L2 c2, L2 ≠ 0 → c2 ≤ L2 →
            ((∃ m, loadListSub bytes tagByte count depth ⟨L2, c2⟩ =
                .error (.NbtErr (.TagTooBig L2 m))) ∨
             loadListSub bytes tagByte count depth ⟨L2, c2⟩ =
                .error (.NbtErr .AccounterOverflow) ∨
             (loadListSub bytes tagByte count depth ⟨L2, c2⟩ =
                .ok (t, ⟨L2, c2 + d⟩, r) ∧ c2 + d ≤ L2)) := by
    intro count
    induction count with
    | zero =>
      intro bytes hlen tagByte depth L1 c1 h1 hc1 t a r h
      rw [loadListSub.eq_def] at h
      dsimp only at h
      cases h
      refine ⟨0, acctmk_congr (by omega), by omega, ?_⟩
      intro L2 c2 hL2 hc2
      rw [loadListSub.eq_def]
      dsimp only
      exact Or.inr (Or.inr ⟨ok_triple_congr (by omega), by omega⟩)
    | succ cnt ihc =>
      intro bytes hlen tagByte depth L1 c1 h1 hc1 t a r h
      rw [loadListSub.eq_def] at h
      dsimp only at h
      cases htg : loadTagSub bytes tagByte depth ⟨L1, c1⟩ with
      | error e =>
        rw [htg] at h
        cases h
      | ok q =>
        obtain ⟨t1, a1, r1, hr1⟩ := q
        obtain ⟨d1, ha1, hle1, hrun1⟩ := htag bytes hlen tagByte depth L1 c1 h1 hc1 _ _ _ htg
        subst ha1
        rw [htg] at h
        dsimp only at h
        cases hrec : loadListSub r1 tagByte cnt depth ⟨L1, c1 + d1⟩ with
        | error e =>
          rw [hrec] at h
          cases h
        | ok q2 =>
          obtain ⟨ts, a2, r2, hr2⟩ := q2
          obtain ⟨d2, ha2, hle2, hrun2⟩ :=
            ihc r1 (by omega) tagByte depth L1 (c1 + d1) h1 hle1 _ _ _ hrec
          subst ha2
          rw [hrec] at h
          dsimp only at h
          cases h
          refine ⟨d1 + d2, acctmk_congr (by omega), by omega, ?_⟩
          intro L2 c2 hL2 hc2
          rw [loadListSub.eq_def]
          dsimp only
          rcases hrun1 L2 c2 hL2 hc2 with ⟨m, hm⟩ | hov | ⟨hok1, hleb1⟩
          · exact Or.inl ⟨m, by rw [hm]⟩
          · exact Or.inr (Or.inl (by rw [hov]))
          · rw [hok1]
            dsimp only
            rcases hrun2 L2 (c2 + d1) hL2 hleb1 with ⟨m, hm⟩ | hov | ⟨hok2, hleb2⟩
            · exact Or.inl ⟨m, by rw [hm]⟩
            · exact Or.inr (Or.inl (by rw [hov]))
            · rw [hok2]
              dsimp only
              exact Or.inr (Or.inr ⟨ok_triple_congr (by omega), by omega⟩)
  exact ⟨hcomp, htag, hlist⟩

/-- C4: the tree decoder's budget guard.  (a) With a configured limit of 0,
`account_bytes` always succeeds and leaves the accounter untouched.  (b) A
tree decode run with a limit-0 accounter never fails with the budget errors
`TagTooBig` or `AccounterOverflow`, regardless of document size.  (c) If a
decode succeeds under some nonzero limit with cumulative debited weight `W`,
then running the same decode under any nonzero limit `l < W` fails with
`TagTooBig l _` (or `AccounterOverflow` on accumulator overflow). -/
theorem nbt_budget_guard :
    (∀ c b, NbtAccounter.account_bytes ⟨0, c⟩ b = .ok ⟨0, c⟩) ∧
    (∀ bytes bit depth c e, load_tag bytes bit depth ⟨0, c⟩ = .error e →
      (∀ l m, e ≠ .NbtErr (.TagTooBig l m)) ∧ e ≠ .NbtErr .AccounterOverflow) ∧
    (∀ bytes bit depth L1 t W r, L1 ≠ 0 →
      load_tag bytes bit depth ⟨L1, 0⟩ = .ok (t, ⟨L1, W⟩, r) →
      ∀ l, l ≠ 0 → l < W →
        ((∃ m, load_tag bytes bit depth ⟨l, 0⟩ =
            .error (.NbtErr (.TagTooBig l m))) ∨
         load_tag bytes bit depth ⟨l, 0⟩ =
            .error (.NbtErr .AccounterOverflow))) := by
  refine ⟨fun c b => account_bytes_zero c b, ?_, ?_⟩
  · intro bytes bit depth c e h
    unfold load_tag at h
    have hsub := map_eq_error.mp h
    have hres := (load_limit0 bytes.length).2.1 bytes le_rfl bit depth c
    rw [hsub] at hres
    have hnb : notBudgetErr e := hres
    refine ⟨fun l m hlm => ?_, fun hov => ?_⟩
    · rw [hlm] at hnb
      exact hnb
    · rw [hov] at hnb
      exact hnb
  · intro bytes bit depth L1 t W r hL1 hw l hl hlt
    unfold load_tag at hw
    cases hsub : loadTagSub bytes bit depth ⟨L1, 0⟩ with
    | error e =>
      rw [hsub] at hw
      exact absurd hw (by simp [Except.map])
    | ok q =>
      obtain ⟨t2, a2, rsub⟩ := q
      rw [hsub] at hw
      simp only [Except.map, Except.ok.injEq, Prod.mk.injEq] at hw
      obtain ⟨ht, ha, hrv⟩ := hw
      subst ht
      subst ha
      subst hrv
      obtain ⟨d, hd, hdle, hrun⟩ :=
        (load_transfer bytes.length).2.1 bytes le_rfl bit depth L1 0 hL1
          (Nat.zero_le _) _ _ _ hsub
      have hW : W = 0 + d := congrArg NbtAccounter.current hd
      rcases hrun l 0 hl (Nat.zero_le _) with ⟨m, hm⟩ | hov | ⟨hok, hle⟩
      · refine Or.inl ⟨m, ?_⟩
        unfold load_tag
        rw [hm]
        rfl
      · refine Or.inr ?_
        unfold load_tag
        rw [hov]
        rfl
      · exact absurd hle (by omega)

/-- Witness for C4: the single-byte document `[5]` decoded as a `TagByte`
debits 9 under limit 9 and succeeds; under limit 5 the same decode trips the
budget. -/
theorem nbt_budget_guard_witness :
    load_tag [5] 1 0 ⟨9, 0⟩ = .ok (Tag.TagByte 5, ⟨9, 9⟩, []) ∧
    ((∃ m, load_tag [5] 1 0 ⟨5, 0⟩ = .error (.NbtErr (.TagTooBig 5 m))) ∨
     load_tag [5] 1 0 ⟨5, 0⟩ = .error (.NbtErr .AccounterOverflow)) := by
  have hok : load_tag [5] 1 0 ⟨9, 0⟩ = .ok (Tag.TagByte 5, ⟨9, 9⟩, []) := by
    unfold load_tag
    rw [loadTagSub.eq_def]
    rfl
  exact ⟨hok, nbt_budget_guard.2.2 [5] 1 0 9 (Tag.TagByte 5) 9 [] (by decide) hok 5
    (by decide) (by decide)⟩

end Drax

/-! ### C1 development: per-delegate round trips -/

namespace Drax

theorem size_add_bytes (a b : Size) : (a.add b).bytes = a.bytes + b.bytes := by
  cases a <;> cases b <;> simp [Size.add, Size.bytes]

theorem readExact_append (n : Nat) (bs rest : Bytes) (h : bs.length = n) :
    readExact n (bs ++ rest) = .ok (bs, rest) := by
  subst h
  unfold readExact
  rw [if_pos (by simp)]
  rw [List.take_left, List.drop_left]

theorem usizeToI32_range (n : Nat) :
    -((2 ^ 31 : Nat) : Int) ≤ usizeToI32 n ∧ usizeToI32 n < ((2 ^ 31 : Nat) : Int) := by
  unfold usizeToI32 toSigned
  have h : n % 2 ^ 32 < 2 ^ 32 := Nat.mod_lt n (by norm_num)
  split
  · constructor
    · push_cast
      omega
    · next hc =>
      push_cast
      push_cast at hc
      omega
  · next hc =>
    constructor
    · push_cast
      push_cast at hc
      omega
    · push_cast
      omega

theorem uintCodec_good (w : Nat) : GoodOn (uintCodec w) (fun v => v < 2 ^ (8 * w)) := by
  intro v hv
  refine ⟨beBytes w v, rfl, ?_, ⟨.Constant w, rfl, by simp [Size.bytes, beBytes_length]⟩⟩
  intro rest
  show (readExact w (beBytes w v ++ rest)).map _ = _
  rw [readExact_append w _ rest (beBytes_length w v)]
  simp only [Except.map]
  rw [beValue_beBytes, Nat.mod_eq_of_lt hv]

theorem sintCodec_good (w : Nat) (hw : 0 < w) :
    GoodOn (sintCodec w) (fun v =>
      -((2 ^ (8 * w - 1) : Nat) : Int) ≤ v ∧ v < ((2 ^ (8 * w - 1) : Nat) : Int)) := by
  intro v hv
  refine ⟨beBytes w (toUnsigned (8 * w) v), rfl, ?_,
    ⟨.Constant w, rfl, by simp [Size.bytes, beBytes_length]⟩⟩
  intro rest
  show (readExact w _).map _ = _
  rw [readExact_append w _ rest (beBytes_length _ _)]
  simp only [Except.map]
  rw [beValue_beBytes, Nat.mod_eq_of_lt (toUnsigned_lt _ _),
    toSigned_toUnsigned (8 * w) (by omega) v hv.1 hv.2]

theorem unitCodec_good : GoodOn unitCodec (fun _ => True) := by
  intro v _
  exact ⟨[], rfl, fun rest => rfl, ⟨.Constant 0, rfl, rfl⟩⟩

theorem boolCodec_good : GoodOn boolCodec (fun _ => True) := by
  intro v _
  cases v
  · exact ⟨[0], rfl, fun rest => rfl, ⟨.Constant 1, rfl, rfl⟩⟩
  · exact ⟨[1], rfl, fun rest => rfl, ⟨.Constant 1, rfl, rfl⟩⟩

theorem uuidCodec_good : GoodOn uuidCodec (fun v => v.length = 16) := by
  intro v hv
  refine ⟨v, rfl, ?_, ⟨.Constant 16, rfl, by simp [Size.bytes, hv]⟩⟩
  intro rest
  show (readExact 16 (v ++ rest)).map _ = _
  rw [readExact_append 16 v rest hv]
  rfl

theorem varIntCodec_good :
    GoodOn varIntCodec (fun v =>
      -((2 ^ 31 : Nat) : Int) ≤ v ∧ v < ((2 ^ 31 : Nat) : Int)) := by
  intro v hv
  exact ⟨write_var_int v, rfl, fun rest => read_write_var_int v hv.1 hv.2 rest,
    ⟨.Dynamic (size_var_int v), rfl, size_var_int_eq_length v⟩⟩

theorem varLongCodec_good :
    GoodOn varLongCodec (fun v =>
      -((2 ^ 63 : Nat) : Int) ≤ v ∧ v < ((2 ^ 63 : Nat) : Int)) := by
  intro v hv
  exact ⟨write_var_long v, rfl, fun rest => read_write_var_long v hv.1 hv.2 rest,
    ⟨.Dynamic (size_var_long v), rfl, size_var_long_eq_length v⟩⟩

theorem boxCodec_good (c : Codec α) (P : α → Prop) (h : GoodOn c P) :
    GoodOn (boxCodec c) P := by
  intro v hv
  obtain ⟨bs, henc, hdec, s, hsz, hsb⟩ := h v hv
  exact ⟨bs, henc, hdec, s, hsz, hsb⟩

theorem maybeCodec_good (c : Codec α) (P : α → Prop) (h : GoodOn c P) :
    GoodOn (maybeCodec c) (fun v => ∀ x, v = some x → P x) := by
  intro v hv
  cases v with
  | none => exact ⟨[0], rfl, fun rest => rfl, ⟨.Constant 1, rfl, rfl⟩⟩
  | some x =>
    obtain ⟨bs, henc, hdec, s, hsz, hsb⟩ := h x (hv x rfl)
    refine ⟨1 :: bs, ?_, fun rest => ?_, ⟨(Size.Constant 1).add s, ?_, ?_⟩⟩
    · show (c.enc x).map _ = _
      rw [henc]
      rfl
    · simp only [maybeCodec]
      rw [List.cons_append]
      simp only [readU8, bind, Except.bind]
      rw [if_neg (by decide)]
      rw [hdec rest]
    · show (c.sz x).map _ = _
      rw [hsz]
      rfl
    · rw [size_add_bytes, hsb]
      simp [Size.bytes]
      omega


theorem toUnsigned64_usizeToI32 (n : Nat) (h : n < 2 ^ 31) :
    toUnsigned 64 (usizeToI32 n) = n := by
  rw [usizeToI32_small n h]
  unfold toUnsigned
  rw [Int.emod_eq_of_lt (by positivity) (by push_cast; omega)]
  simp

theorem vecSizeLoop_head_const (c : Codec α) (len pre : Nat) (x : α) (xs : List α)
    (k acc : Nat) (hx : c.sz x = .ok (.Constant k)) :
    vecSizeLoop c len pre (x :: xs) acc = .ok (.Dynamic (k * len + pre)) := by
  simp only [vecSizeLoop, hx, bind, Except.bind]

theorem vecSizeLoop_all_dynamic (c : Codec α) (P : α → Prop) (len pre : Nat)
    (hg : GoodOn c P) (hd : SizeAllDynamic c P) :
    ∀ (l : List α) (acc : Nat), (∀ x ∈ l, P x) →
      ∃ bs, encodeList c l = .ok bs ∧
        vecSizeLoop c len pre l acc = .ok (.Dynamic (acc + bs.length)) := by
  intro l
  induction l with
  | nil => exact fun acc _ => ⟨[], rfl, by simp [vecSizeLoop]⟩
  | cons x xs ih =>
    intro acc hall
    obtain ⟨bs, henc, _, s, hsz, hsb⟩ := hg x (hall x (by simp))
    obtain ⟨d, hdyn⟩ := hd x (hall x (by simp))
    have hsd : s = .Dynamic d := by
      rw [hsz] at hdyn
      exact (Except.ok.injEq _ _).mp hdyn
    obtain ⟨bs2, henc2, hloop⟩ := ih (acc + d) fun y hy => hall y (by simp [hy])
    refine ⟨bs ++ bs2, ?_, ?_⟩
    · simp only [encodeList, henc, henc2, bind, Except.bind]
    · subst hsd
      simp only [Size.bytes] at hsb
      simp only [vecSizeLoop, hsz, bind, Except.bind, hloop]
      congr 2
      simp [← hsb]
      omega

theorem vecSz_bytes (c : Codec α) (P : α → Prop) (k : Nat) (hg : GoodOn c P)
    (hsz : SizeAllConstant c P k ∨ SizeAllDynamic c P) (l : List α)
    (hall : ∀ x ∈ l, P x) (body : Bytes) (henc : encodeList c l = .ok body) :
    ∃ s, (vecCodec c).sz l = .ok s ∧
      s.bytes = (write_var_int (usizeToI32 l.length)).length + body.length := by
  rcases hsz with hconst | hdyn
  · cases l with
    | nil =>
      have hb : body = [] := by
        rw [show encodeList c [] = .ok [] from rfl] at henc
        exact ((Except.ok.injEq _ _).mp henc).symm
      subst hb
      refine ⟨.Dynamic (size_var_int (usizeToI32 0)), rfl, ?_⟩
      simp [Size.bytes, size_var_int_eq_length]
    | cons x xs =>
      obtain ⟨body2, henc2, hlen2⟩ :=
        encodeList_length_const c P k hg hconst (x :: xs) hall
      have hb : body = body2 := by
        rw [henc] at henc2
        exact (Except.ok.injEq _ _).mp henc2
      rw [← hb] at hlen2
      refine ⟨.Dynamic (k * (x :: xs).length + size_var_int (usizeToI32 (x :: xs).length)),
        ?_, ?_⟩
      · show vecSizeLoop c _ _ _ _ = _
        exact vecSizeLoop_head_const c _ _ x xs k _ (hconst x (hall x (by simp)))
      · simp only [Size.bytes, size_var_int_eq_length]
        omega
  · obtain ⟨body2, henc2, hloop⟩ := vecSizeLoop_all_dynamic c P l.length
      (size_var_int (usizeToI32 l.length)) hg hdyn l
      (size_var_int (usizeToI32 l.length)) hall
    have hb : body = body2 := by
      rw [henc] at henc2
      exact (Except.ok.injEq _ _).mp henc2
    rw [← hb] at hloop
    refine ⟨.Dynamic (size_var_int (usizeToI32 l.length) + body.length), hloop, ?_⟩
    simp only [Size.bytes, size_var_int_eq_length]

theorem vecCodec_good (c : Codec α) (P : α → Prop) (k : Nat) (hg : GoodOn c P)
    (hsz : SizeAllConstant c P k ∨ SizeAllDynamic c P) :
    GoodOn (vecCodec c) (fun l => (∀ x ∈ l, P x) ∧ l.length < 2 ^ 31) := by
  intro l hl
  obtain ⟨hall, hlen⟩ := hl
  obtain ⟨body, henc, hdec⟩ := encodeList_dec c P hg l hall
  refine ⟨write_var_int (usizeToI32 l.length) ++ body, ?_, fun rest => ?_, ?_⟩
  · simp only [vecCodec, henc, bind, Except.bind]
  · simp only [vecCodec, bind, Except.bind, List.append_assoc,
      read_write_var_int (usizeToI32 l.length) (usizeToI32_range _).1
        (usizeToI32_range _).2 (body ++ rest)]
    rw [show (usizeToI32 l.length).toNat = l.length from by
      rw [usizeToI32_small _ hlen]; simp]
    exact hdec rest
  · obtain ⟨s, hs, hb⟩ := vecSz_bytes c P k hg hsz l hall body henc
    exact ⟨s, hs, by rw [hb]; simp⟩

theorem arrayCodec_good (c : Codec α) (P : α → Prop) (N k : Nat) (hg : GoodOn c P)
    (hsz : SizeAllConstant c P k ∨ SizeAllDynamic c P) :
    GoodOn (arrayCodec c N) (fun l => (∀ x ∈ l, P x) ∧ l.length = N) := by
  intro l hl
  obtain ⟨hall, hlen⟩ := hl
  obtain ⟨body, henc, hdec⟩ := encodeList_dec c P hg l hall
  refine ⟨body, henc, fun rest => ?_, ?_⟩
  · show decodeN c N (body ++ rest) = _
    rw [← hlen]
    exact hdec rest
  · rcases hsz with hconst | hdyn
    · cases l with
      | nil =>
        have hb : body = [] := by
          rw [show encodeList c [] = .ok [] from rfl] at henc
          exact ((Except.ok.injEq _ _).mp henc).symm
        subst hb
        exact ⟨.Dynamic 0, rfl, rfl⟩
      | cons x xs =>
        obtain ⟨body2, henc2, hlen2⟩ :=
          encodeList_length_const c P k hg hconst (x :: xs) hall
        have hb : body = body2 := by
          rw [henc] at henc2
          exact (Except.ok.injEq _ _).mp henc2
        rw [← hb] at hlen2
        refine ⟨.Constant (k * N), ?_, ?_⟩
        · exact arraySizeLoop_head_const c N x xs k 0 (hconst x (hall x (by simp)))
        · simp only [Size.bytes]
          rw [hlen2, hlen]
    · obtain ⟨body2, henc2, hloop⟩ := arraySizeLoop_all_dynamic c P N hg hdyn l 0 hall
      have hb : body = body2 := by
        rw [henc] at henc2
        exact (Except.ok.injEq _ _).mp henc2
      rw [← hb] at hloop
      exact ⟨.Dynamic (0 + body.length), hloop, by simp [Size.bytes]⟩

theorem vecU8Codec_good : GoodOn vecU8Codec (fun v => v.length < 2 ^ 31) := by
  intro v hv
  refine ⟨write_var_int (usizeToI32 v.length) ++ v, rfl, fun rest => ?_, ?_⟩
  · simp only [vecU8Codec, bind, Except.bind, List.append_assoc,
      read_write_var_int (usizeToI32 v.length) (usizeToI32_range _).1
        (usizeToI32_range _).2 (v ++ rest)]
    rw [toUnsigned64_usizeToI32 v.length hv, readExact_append v.length v rest rfl]
    rfl
  · refine ⟨.Dynamic (v.length + size_var_int (usizeToI32 v.length)), rfl, ?_⟩
    simp only [Size.bytes, size_var_int_eq_length]
    simp
    omega

theorem limitedVecCodec_good (c : Codec α) (P : α → Prop) (k N : Nat)
    (hg : GoodOn c P) (hsz : SizeAllConstant c P k ∨ SizeAllDynamic c P)
    (hN : N < 2 ^ 31) :
    GoodOn (limitedVecCodec c N) (fun l => (∀ x ∈ l, P x) ∧ l.length ≤ N) := by
  intro l hl
  obtain ⟨hall, hle⟩ := hl
  have hlen : l.length < 2 ^ 31 := lt_of_le_of_lt hle hN
  have hngt : ¬ usizeToI32 l.length > usizeToI32 N := by
    rw [usizeToI32_small _ hlen, usizeToI32_small _ hN]
    exact_mod_cast Nat.not_lt.mpr hle
  obtain ⟨body, henc, hdec⟩ := encodeList_dec c P hg l hall
  refine ⟨write_var_int (usizeToI32 l.length) ++ body, ?_, fun rest => ?_, ?_⟩
  · show (if usizeToI32 l.length > usizeToI32 N then _ else _) = _
    rw [if_neg hngt]
    simp only [vecCodec, henc, bind, Except.bind]
  · simp only [limitedVecCodec, bind, Except.bind, List.append_assoc,
      read_write_var_int (usizeToI32 l.length) (usizeToI32_range _).1
        (usizeToI32_range _).2 (body ++ rest)]
    rw [if_neg hngt]
    rw [show (usizeToI32 l.length).toNat = l.length from by
      rw [usizeToI32_small _ hlen]; simp]
    exact hdec rest
  · obtain ⟨s, hs, hb⟩ := vecSz_bytes c P k hg hsz l hall body henc
    exact ⟨s, hs, by rw [hb]; simp⟩


theorem insertAssoc_fresh [DecidableEq κ] (m : List (κ × ν)) (k : κ) (v : ν)
    (h : k ∉ m.map Prod.fst) : insertAssoc m k v = m ++ [(k, v)] := by
  induction m with
  | nil => rfl
  | cons p rest ih =>
    obtain ⟨k2, v2⟩ := p
    simp only [List.map_cons, List.mem_cons] at h
    push_neg at h
    simp only [insertAssoc]
    rw [if_neg fun he => h.1 he.symm, ih h.2]
    rfl

theorem encodePairs_dec [DecidableEq κ] (ck : Codec κ) (cv : Codec ν)
    (Pk : κ → Prop) (Pv : ν → Prop) (hk : GoodOn ck Pk) (hv : GoodOn cv Pv) :
    ∀ m : List (κ × ν), (∀ p ∈ m, Pk p.1 ∧ Pv p.2) → (m.map Prod.fst).Nodup →
      ∃ bs, encodePairs ck cv m = .ok bs ∧
        ∀ (acc : List (κ × ν)) (rest : Bytes),
          (∀ p ∈ m, p.1 ∉ acc.map Prod.fst) →
          decodeMapN ck cv m.length (bs ++ rest) acc = .ok (acc ++ m, rest) := by
  intro m
  induction m with
  | nil => exact fun _ _ => ⟨[], rfl, fun acc rest _ => by simp [decodeMapN]⟩
  | cons p ps ih =>
    obtain ⟨k, x⟩ := p
    intro hall hnd
    obtain ⟨bk, hek, hdk, _⟩ := hk k (hall (k, x) (by simp)).1
    obtain ⟨bx, hex, hdx, _⟩ := hv x (hall (k, x) (by simp)).2
    simp only [List.map_cons, List.nodup_cons] at hnd
    obtain ⟨bs2, henc2, hdec2⟩ := ih (fun q hq => hall q (by simp [hq])) hnd.2
    refine ⟨bk ++ bx ++ bs2, ?_, ?_⟩
    · simp only [encodePairs, hek, hex, henc2, bind, Except.bind]
    · intro acc rest hfresh
      show decodeMapN ck cv (ps.length + 1) _ _ = _
      simp only [decodeMapN, bind, Except.bind, List.append_assoc,
        hdk (bx ++ (bs2 ++ rest)), hdx (bs2 ++ rest)]
      rw [insertAssoc_fresh acc k x (hfresh (k, x) (by simp))]
      rw [show acc ++ (k, x) :: ps = (acc ++ [(k, x)]) ++ ps by simp]
      refine hdec2 (acc ++ [(k, x)]) rest ?_
      intro q hq
      simp only [List.map_append, List.mem_append, List.map_cons, List.map_nil,
        List.mem_singleton]
      push_neg
      refine ⟨hfresh q (by simp [hq]), ?_⟩
      intro he
      exact hnd.1 (he ▸ (List.mem_map_of_mem Prod.fst hq))

theorem mapSizeLoop_bytes (ck : Codec κ) (cv : Codec ν)
    (Pk : κ → Prop) (Pv : ν → Prop) (hk : GoodOn ck Pk) (hv : GoodOn cv Pv) :
    ∀ m : List (κ × ν), (∀ p ∈ m, Pk p.1 ∧ Pv p.2) → ∀ s : Size,
      ∃ bs, encodePairs ck cv m = .ok bs ∧
        ∃ s2, mapSizeLoop ck cv m s = .ok s2 ∧ s2.bytes = s.bytes + bs.length := by
  intro m
  induction m with
  | nil => exact fun _ s => ⟨[], rfl, s, rfl, by simp⟩
  | cons p ps ih =>
    obtain ⟨k, x⟩ := p
    intro hall s
    obtain ⟨bk, hek, _, sk, hszk, hbk⟩ := hk k (hall (k, x) (by simp)).1
    obtain ⟨bx, hex, _, sx, hszx, hbx⟩ := hv x (hall (k, x) (by simp)).2
    obtain ⟨bs2, henc2, s2, hloop, hb2⟩ :=
      ih (fun q hq => hall q (by simp [hq])) ((s.add sk).add sx)
    refine ⟨bk ++ bx ++ bs2, ?_, s2, ?_, ?_⟩
    · simp only [encodePairs, hek, hex, henc2, bind, Except.bind]
    · simp only [mapSizeLoop, hszk, hszx, bind, Except.bind, hloop]
    · rw [hb2, size_add_bytes, size_add_bytes, hbk, hbx]
      simp
      omega

theorem mapCodec_good [DecidableEq κ] (ck : Codec κ) (cv : Codec ν)
    (Pk : κ → Prop) (Pv : ν → Prop) (hk : GoodOn ck Pk) (hv : GoodOn cv Pv) :
    GoodOn (mapCodec ck cv) (fun m => (∀ p ∈ m, Pk p.1 ∧ Pv p.2) ∧
      (m.map Prod.fst).Nodup ∧ m.length < 2 ^ 31) := by
  intro m hm
  obtain ⟨hall, hnd, hlen⟩ := hm
  obtain ⟨body, henc, hdec⟩ := encodePairs_dec ck cv Pk Pv hk hv m hall hnd
  refine ⟨write_var_int (usizeToI32 m.length) ++ body, ?_, fun rest => ?_, ?_⟩
  · simp only [mapCodec, henc, bind, Except.bind]
  · simp only [mapCodec, bind, Except.bind, List.append_assoc,
      read_write_var_int (usizeToI32 m.length) (usizeToI32_range _).1
        (usizeToI32_range _).2 (body ++ rest)]
    rw [show (usizeToI32 m.length).toNat = m.length from by
      rw [usizeToI32_small _ hlen]; simp]
    simpa using hdec [] rest (by simp)
  · obtain ⟨body2, henc2, s2, hloop, hb2⟩ := mapSizeLoop_bytes ck cv Pk Pv hk hv m hall
      ((Size.Constant 0).add (.Dynamic (size_var_int (usizeToI32 m.length))))
    have hb : body = body2 := by
      rw [henc] at henc2
      exact (Except.ok.injEq _ _).mp henc2
    refine ⟨s2, hloop, ?_⟩
    rw [hb2, ← hb, size_add_bytes]
    simp [Size.bytes, size_var_int_eq_length]

theorem limitedMapCodec_good [DecidableEq κ] (ck : Codec κ) (cv : Codec ν)
    (Pk : κ → Prop) (Pv : ν → Prop) (N : Nat) (hk : GoodOn ck Pk) (hv : GoodOn cv Pv)
    (hN : N < 2 ^ 31) :
    GoodOn (limitedMapCodec ck cv N) (fun m => (∀ p ∈ m, Pk p.1 ∧ Pv p.2) ∧
      (m.map Prod.fst).Nodup ∧ m.length ≤ N) := by
  intro m hm
  obtain ⟨hall, hnd, hle⟩ := hm
  have hlen : m.length < 2 ^ 31 := lt_of_le_of_lt hle hN
  have hngt : ¬ usizeToI32 m.length > usizeToI32 N := by
    rw [usizeToI32_small _ hlen, usizeToI32_small _ hN]
    exact_mod_cast Nat.not_lt.mpr hle
  obtain ⟨body, henc, hdec⟩ := encodePairs_dec ck cv Pk Pv hk hv m hall hnd
  refine ⟨write_var_int (usizeToI32 m.length) ++ body, ?_, fun rest => ?_, ?_⟩
  · show (if usizeToI32 m.length > usizeToI32 N then _ else _) = _
    rw [if_neg hngt]
    simp only [mapCodec, henc, bind, Except.bind]
  · simp only [limitedMapCodec, bind, Except.bind, List.append_assoc,
      read_write_var_int (usizeToI32 m.length) (usizeToI32_range _).1
        (usizeToI32_range _).2 (body ++ rest)]
    rw [if_neg hngt]
    rw [show (usizeToI32 m.length).toNat = m.length from by
      rw [usizeToI32_small _ hlen]; simp]
    simpa using hdec [] rest (by simp)
  · obtain ⟨body2, henc2, s2, hloop, hb2⟩ := mapSizeLoop_bytes ck cv Pk Pv hk hv m hall
      ((Size.Constant 0).add (.Dynamic (size_var_int (usizeToI32 m.length))))
    have hb : body = body2 := by
      rw [henc] at henc2
      exact (Except.ok.injEq _ _).mp henc2
    refine ⟨s2, hloop, ?_⟩
    rw [hb2, ← hb, size_add_bytes]
    simp [Size.bytes, size_var_int_eq_length]


theorem fromUtf8_utf8Encode : ∀ s : List Nat, (∀ c ∈ s, ValidScalar c) →
    fromUtf8 (utf8Encode s) = .ok s := by
  intro s
  induction s with
  | nil =>
    intro _
    show fromUtf8 [] = .ok []
    rw [fromUtf8.eq_def]
  | cons c cs ih =>
    intro hall
    obtain ⟨hlt, hsur⟩ := hall c (by simp)
    have ihh := ih fun x hx => hall x (by simp [hx])
    have henc : utf8Encode (c :: cs) = utf8EncodeChar c ++ utf8Encode cs := by
      simp [utf8Encode]
    rw [henc]
    by_cases h1 : c < 0x80
    · rw [show utf8EncodeChar c = [c] from by rw [utf8EncodeChar, if_pos h1]]
      simp only [List.cons_append, List.nil_append]
      rw [fromUtf8.eq_def]
      dsimp only
      rw [show utf8DecodeChar c (utf8Encode cs) =
          .ok (c, ⟨utf8Encode cs, le_refl _⟩) from by
        unfold utf8DecodeChar
        rw [if_pos h1]]
      dsimp only
      rw [ihh]
      rfl
    · by_cases h2 : c < 0x800
      · rw [show utf8EncodeChar c = [0xC0 + c / 64, 0x80 + c % 64] from by
          rw [utf8EncodeChar, if_neg h1, if_pos h2]]
        simp only [List.cons_append, List.nil_append]
        rw [fromUtf8.eq_def]
        dsimp only
        rw [show utf8DecodeChar (0xC0 + c / 64) ((0x80 + c % 64) :: utf8Encode cs) =
            .ok (c, ⟨utf8Encode cs, by simp⟩) from by
          unfold utf8DecodeChar
          rw [if_neg (by omega), if_neg (by omega), if_pos (by omega)]
          dsimp only
          rw [if_pos (show isCont (0x80 + c % 64) = true by simp [isCont]; omega)]
          rw [show (0xC0 + c / 64 - 0xC0) * 64 + (0x80 + c % 64 - 0x80) = c from by
            omega]]
        dsimp only
        rw [ihh]
        rfl
      · by_cases h3 : c < 0x10000
        · rw [show utf8EncodeChar c =
              [0xE0 + c / 4096, 0x80 + c / 64 % 64, 0x80 + c % 64] from by
            rw [utf8EncodeChar, if_neg h1, if_neg h2, if_pos h3]]
          simp only [List.cons_append, List.nil_append]
          rw [fromUtf8.eq_def]
          dsimp only
          rw [show utf8DecodeChar (0xE0 + c / 4096)
              ((0x80 + c / 64 % 64) :: (0x80 + c % 64) :: utf8Encode cs) =
              .ok (c, ⟨utf8Encode cs, by simp; omega⟩) from by
            unfold utf8DecodeChar
            rw [if_neg (by omega), if_neg (by omega), if_neg (by omega),
              if_pos (by omega)]
            dsimp only
            rw [if_pos (show (isCont (0x80 + c / 64 % 64) && isCont (0x80 + c % 64) &&
                !(0xE0 + c / 4096 = 0xE0 && 0x80 + c / 64 % 64 < 0xA0) &&
                !(0xE0 + c / 4096 = 0xED && 0xA0 ≤ 0x80 + c / 64 % 64)) = true by
              simp [isCont]
              rcases hsur with h | h <;> omega)]
            rw [show (0xE0 + c / 4096 - 0xE0) * 4096 + (0x80 + c / 64 % 64 - 0x80) * 64 +
              (0x80 + c % 64 - 0x80) = c from by omega]]
          dsimp only
          rw [ihh]
          rfl
        · rw [show utf8EncodeChar c =
              [0xF0 + c / 262144, 0x80 + c / 4096 % 64, 0x80 + c / 64 % 64,
                0x80 + c % 64] from by
            rw [utf8EncodeChar, if_neg h1, if_neg h2, if_neg h3]]
          simp only [List.cons_append, List.nil_append]
          rw [fromUtf8.eq_def]
          dsimp only
          rw [show utf8DecodeChar (0xF0 + c / 262144)
              ((0x80 + c / 4096 % 64) :: (0x80 + c / 64 % 64) :: (0x80 + c % 64) ::
                utf8Encode cs) =
              .ok (c, ⟨utf8Encode cs, by simp; omega⟩) from by
            unfold utf8DecodeChar
            rw [if_neg (by omega), if_neg (by omega), if_neg (by omega),
              if_neg (by omega), if_pos (by omega)]
            dsimp only
            rw [if_pos (show (isCont (0x80 + c / 4096 % 64) &&
                isCont (0x80 + c / 64 % 64) && isCont (0x80 + c % 64) &&
                !(0xF0 + c / 262144 = 0xF0 && 0x80 + c / 4096 % 64 < 0x90) &&
                !(0xF0 + c / 262144 = 0xF4 && 0x90 ≤ 0x80 + c / 4096 % 64)) = true by
              simp [isCont]
              omega)]
            rw [show (0xF0 + c / 262144 - 0xF0) * 262144 +
              (0x80 + c / 4096 % 64 - 0x80) * 4096 +
              (0x80 + c / 64 % 64 - 0x80) * 64 + (0x80 + c % 64 - 0x80) = c from by
              omega]]
          dsimp only
          rw [ihh]
          rfl


theorem stringCodec_good :
    GoodOn stringCodec (fun s => (∀ c ∈ s, ValidScalar c) ∧ utf8Len s ≤ 131068) := by
  intro s hs
  obtain ⟨hval, hlen⟩ := hs
  have hlen31 : utf8Len s < 2 ^ 31 := by omega
  have hngt : ¬ usizeToI32 (utf8Len s) > STRING_DEFAULT_CAP := by
    rw [usizeToI32_small _ hlen31]
    unfold STRING_DEFAULT_CAP
    push_cast
    omega
  refine ⟨write_var_int (usizeToI32 (utf8Len s)) ++ utf8Encode s, ?_, fun rest => ?_, ?_⟩
  · show (if usizeToI32 (utf8Len s) > STRING_DEFAULT_CAP then _ else _) = _
    rw [if_neg hngt]
  · simp only [stringCodec, bind, Except.bind, List.append_assoc,
      read_write_var_int (usizeToI32 (utf8Len s)) (usizeToI32_range _).1
        (usizeToI32_range _).2 (utf8Encode s ++ rest)]
    rw [if_neg hngt]
    rw [toUnsigned64_usizeToI32 _ hlen31,
      readExact_append (utf8Len s) (utf8Encode s) rest rfl]
    dsimp only
    rw [fromUtf8_utf8Encode s hval]
  · refine ⟨.Dynamic (utf8Len s + size_var_int (usizeToI32 (utf8Len s))), rfl, ?_⟩
    simp only [Size.bytes, size_var_int_eq_length, List.length_append]
    rw [show utf8Len s = (utf8Encode s).length from rfl]
    omega

theorem limitedStringCodec_good (N : Nat) (hN : N < 2 ^ 31) :
    GoodOn (limitedStringCodec N) (fun s => (∀ c ∈ s, ValidScalar c) ∧
      utf8Len s ≤ N ∧ utf8Len s ≤ 131068) := by
  intro s hs
  obtain ⟨hval, hle, hcap⟩ := hs
  have hlen31 : utf8Len s < 2 ^ 31 := by omega
  have hngtN : ¬ usizeToI32 (utf8Len s) > usizeToI32 N := by
    rw [usizeToI32_small _ hlen31, usizeToI32_small _ hN]
    exact_mod_cast Nat.not_lt.mpr hle
  have hngt : ¬ usizeToI32 (utf8Len s) > STRING_DEFAULT_CAP := by
    rw [usizeToI32_small _ hlen31]
    unfold STRING_DEFAULT_CAP
    push_cast
    omega
  refine ⟨write_var_int (usizeToI32 (utf8Len s)) ++ utf8Encode s, ?_, fun rest => ?_, ?_⟩
  · show (if usizeToI32 (utf8Len s) > usizeToI32 N then _ else _) = _
    rw [if_neg hngtN]
    show (if usizeToI32 (utf8Len s) > STRING_DEFAULT_CAP then _ else _) = _
    rw [if_neg hngt]
  · simp only [limitedStringCodec, bind, Except.bind, List.append_assoc,
      read_write_var_int (usizeToI32 (utf8Len s)) (usizeToI32_range _).1
        (usizeToI32_range _).2 (utf8Encode s ++ rest)]
    rw [if_neg hngtN]
    rw [toUnsigned64_usizeToI32 _ hlen31,
      readExact_append (utf8Len s) (utf8Encode s) rest rfl]
    dsimp only
    rw [fromUtf8_utf8Encode s hval]
  · refine ⟨.Dynamic (utf8Len s + size_var_int (usizeToI32 (utf8Len s))), rfl, ?_⟩
    simp only [Size.bytes, size_var_int_eq_length, List.length_append]
    rw [show utf8Len s = (utf8Encode s).length from rfl]
    omega


theorem cesuDecodeChar_pair (hi lo : Nat) (tail : Bytes)
    (hhi : 0xD800 ≤ hi ∧ hi < 0xDC00) (hlo : 0xDC00 ≤ lo ∧ lo < 0xE000) :
    cesuDecodeChar (0xE0 + hi / 4096)
      ((0x80 + hi / 64 % 64) :: (0x80 + hi % 64) ::
       (0xE0 + lo / 4096) :: (0x80 + lo / 64 % 64) :: (0x80 + lo % 64) :: tail) =
      some (0x10000 + (hi - 0xD800) * 1024 + (lo - 0xDC00), ⟨tail, by simp; omega⟩) := by
  unfold cesuDecodeChar
  rw [if_neg (by omega), if_neg (by omega), if_neg (by omega), if_pos (by omega)]
  dsimp only
  rw [if_pos (show (isCont (0x80 + hi / 64 % 64) && isCont (0x80 + hi % 64)) = true by
    simp [isCont]; omega)]
  rw [show (0xE0 + hi / 4096 - 0xE0) * 4096 + (0x80 + hi / 64 % 64 - 0x80) * 64 +
    (0x80 + hi % 64 - 0x80) = hi from by omega]
  rw [if_pos (show 0xD800 ≤ hi ∧ hi < 0xDC00 from ⟨hhi.1, hhi.2⟩)]
  rw [if_pos (show 0xE0 ≤ 0xE0 + lo / 4096 ∧ 0xE0 + lo / 4096 < 0xF0 ∧
      isCont (0x80 + lo / 64 % 64) = true ∧ isCont (0x80 + lo % 64) = true from
    ⟨by omega, by omega, by simp [isCont]; omega, by simp [isCont]; omega⟩)]
  rw [show (0xE0 + lo / 4096 - 0xE0) * 4096 + (0x80 + lo / 64 % 64 - 0x80) * 64 +
    (0x80 + lo % 64 - 0x80) = lo from by omega]
  rw [if_pos (show 0xDC00 ≤ lo ∧ lo < 0xE000 from ⟨hlo.1, hlo.2⟩)]

theorem cesuDecode_pair_cons (hi lo : Nat) (tail : Bytes)
    (hhi : 0xD800 ≤ hi ∧ hi < 0xDC00) (hlo : 0xDC00 ≤ lo ∧ lo < 0xE000) :
    cesuDecode ((0xE0 + hi / 4096) :: (0x80 + hi / 64 % 64) :: (0x80 + hi % 64) ::
      (0xE0 + lo / 4096) :: (0x80 + lo / 64 % 64) :: (0x80 + lo % 64) :: tail) =
      (cesuDecode tail).map
        fun s => (0x10000 + (hi - 0xD800) * 1024 + (lo - 0xDC00)) :: s := by
  rw [cesuDecode.eq_def]
  dsimp only
  rw [cesuDecodeChar_pair hi lo tail hhi hlo]

theorem cesuDecode_cesuEncode : ∀ s : List Nat, (∀ c ∈ s, ValidScalar c) →
    cesuDecode (cesuEncode s) = some s := by
  intro s
  induction s with
  | nil =>
    intro _
    show cesuDecode [] = some []
    rw [cesuDecode.eq_def]
  | cons c cs ih =>
    intro hall
    obtain ⟨hlt, hsur⟩ := hall c (by simp)
    have ihh := ih fun x hx => hall x (by simp [hx])
    have henc : cesuEncode (c :: cs) = cesuEncodeChar c ++ cesuEncode cs := by
      simp [cesuEncode]
    rw [henc]
    by_cases h0 : c = 0
    · subst h0
      rw [show cesuEncodeChar 0 = [0xC0, 0x80] from by rw [cesuEncodeChar, if_pos rfl]]
      simp only [List.cons_append, List.nil_append]
      rw [cesuDecode.eq_def]
      dsimp only
      rw [show cesuDecodeChar 0xC0 (0x80 :: cesuEncode cs) =
          some (0, ⟨cesuEncode cs, by simp⟩) from by
        unfold cesuDecodeChar
        rw [if_neg (by omega), if_neg (by omega), if_pos (by omega)]
        dsimp only
        rw [if_pos (show isCont 0x80 = true by simp [isCont])]]
      dsimp only
      rw [ihh]
      rfl
    · by_cases h1 : c < 0x80
      · rw [show cesuEncodeChar c = [c] from by
          rw [cesuEncodeChar, if_neg h0, if_pos h1]]
        simp only [List.cons_append, List.nil_append]
        rw [cesuDecode.eq_def]
        dsimp only
        rw [show cesuDecodeChar c (cesuEncode cs) =
            some (c, ⟨cesuEncode cs, le_refl _⟩) from by
          unfold cesuDecodeChar
          rw [if_pos h1]]
        dsimp only
        rw [ihh]
        rfl
      · by_cases h2 : c < 0x800
        · rw [show cesuEncodeChar c = [0xC0 + c / 64, 0x80 + c % 64] from by
            rw [cesuEncodeChar, if_neg h0, if_neg h1, if_pos h2]]
          simp only [List.cons_append, List.nil_append]
          rw [cesuDecode.eq_def]
          dsimp only
          rw [show cesuDecodeChar (0xC0 + c / 64) ((0x80 + c % 64) :: cesuEncode cs) =
              some (c, ⟨cesuEncode cs, by simp⟩) from by
            unfold cesuDecodeChar
            rw [if_neg (by omega), if_neg (by omega), if_pos (by omega)]
            dsimp only
            rw [if_pos (show isCont (0x80 + c % 64) = true by simp [isCont]; omega)]
            rw [show (0xC0 + c / 64 - 0xC0) * 64 + (0x80 + c % 64 - 0x80) = c from by
              omega]]
          dsimp only
          rw [ihh]
          rfl
        · by_cases h3 : c < 0x10000
          · rw [show cesuEncodeChar c =
                [0xE0 + c / 4096, 0x80 + c / 64 % 64, 0x80 + c % 64] from by
              rw [cesuEncodeChar, if_neg h0, if_neg h1, if_neg h2, if_pos h3]]
            simp only [List.cons_append, List.nil_append]
            rw [cesuDecode.eq_def]
            dsimp only
            rw [show cesuDecodeChar (0xE0 + c / 4096)
                ((0x80 + c / 64 % 64) :: (0x80 + c % 64) :: cesuEncode cs) =
                some (c, ⟨cesuEncode cs, by simp; omega⟩) from by
              unfold cesuDecodeChar
              rw [if_neg (by omega), if_neg (by omega), if_neg (by omega),
                if_pos (by omega)]
              dsimp only
              rw [if_pos (show (isCont (0x80 + c / 64 % 64) &&
                  isCont (0x80 + c % 64)) = true by simp [isCont]; omega)]
              rw [show (0xE0 + c / 4096 - 0xE0) * 4096 +
                (0x80 + c / 64 % 64 - 0x80) * 64 + (0x80 + c % 64 - 0x80) = c from by
                omega]
              rw [if_neg (show ¬ (0xD800 ≤ c ∧ c < 0xDC00) from by
                rcases hsur with h | h <;> omega)]
              rw [if_neg (show ¬ (0xDC00 ≤ c ∧ c < 0xE000) from by
                rcases hsur with h | h <;> omega)]]
            dsimp only
            rw [ihh]
            rfl
          · rw [show cesuEncodeChar c =
                [0xE0 + (0xD800 + (c - 0x10000) / 1024) / 4096, 0x80 + (0xD800 + (c - 0x10000) / 1024) / 64 % 64, 0x80 + (0xD800 + (c - 0x10000) / 1024) % 64,
                 0xE0 + (0xDC00 + (c - 0x10000) % 1024) / 4096, 0x80 + (0xDC00 + (c - 0x10000) % 1024) / 64 % 64, 0x80 + (0xDC00 + (c - 0x10000) % 1024) % 64] from by
              rw [cesuEncodeChar, if_neg h0, if_neg h1, if_neg h2, if_neg h3]]
            simp only [List.cons_append, List.nil_append]
            rw [cesuDecode_pair_cons (0xD800 + (c - 0x10000) / 1024) (0xDC00 + (c - 0x10000) % 1024) (cesuEncode cs)
              ⟨by omega, by omega⟩ ⟨by omega, by omega⟩]
            rw [ihh]
            rw [show 0x10000 + ((0xD800 + (c - 0x10000) / 1024) - 0xD800) * 1024 + ((0xDC00 + (c - 0x10000) % 1024) - 0xDC00) = c from by
              omega]
            rfl


theorem readExactSub_eq (n : Nat) (bs pre post : Bytes)
    (hpre : bs = pre ++ post) (h : pre.length = n) :
    readExactSub n bs = .ok (pre, ⟨post, by simp [hpre]; omega⟩) := by
  subst hpre
  subst h
  unfold readExactSub
  rw [dif_pos (by simp)]
  simp [List.take_left, List.drop_left]

theorem beBytes_one (v : Nat) (h : v < 256) : beBytes 1 v = [v] := by
  unfold beBytes beBytes
  simp [Nat.mod_eq_of_lt h]

theorem getTagBit_lt (t : Tag) : t.getTagBit < 2 ^ 8 := by
  cases t <;> simp [Tag.getTagBit]

theorem toSigned_beValue_beBytes4 (n : Nat) :
    toSigned 32 (beValue (beBytes 4 n)) = usizeToI32 n := by
  rw [beValue_beBytes]
  unfold usizeToI32
  norm_num

theorem read_string_sub_write_string (s : List Nat) (rest : Bytes) (c : Nat)
    (hwf : wfString s) :
    read_string_sub (write_string s ++ rest) ⟨0, c⟩ =
      .ok ((s, ⟨0, c⟩), ⟨rest, by simp [write_string, beBytes_length]; omega⟩) := by
  unfold read_string_sub write_string
  rw [readExactSub_eq 2 (beBytes 2 (cesuLen s) ++ cesuEncode s ++ rest)
    (beBytes 2 (cesuLen s)) (cesuEncode s ++ rest) (by simp) (beBytes_length _ _)]
  dsimp only
  rw [readExactSub_eq (beValue (beBytes 2 (cesuLen s))) (cesuEncode s ++ rest)
    (cesuEncode s) rest rfl (by
      rw [show (cesuEncode s).length = cesuLen s from rfl, beValue_beBytes]
      have h2 := hwf.2
      norm_num at h2 ⊢
      omega)]
  dsimp only
  rw [cesuDecode_cesuEncode s hwf.1]
  dsimp only
  rw [account_bytes_zero]

theorem readIntsSub_write (w : Nat) : ∀ (v : List Int) (rest : Bytes),
    (∀ i ∈ v, -((2 ^ (8 * w - 1) : Nat) : Int) ≤ i ∧
      i < ((2 ^ (8 * w - 1) : Nat) : Int)) → 0 < w →
    readIntsSub w v.length
        ((v.map fun i => beBytes w (toUnsigned (8 * w) i)).flatten ++ rest) =
      .ok (v, ⟨rest, by simp⟩) := by
  intro v
  induction v with
  | nil =>
    intro rest _ _
    rfl
  | cons i is ih =>
    intro rest hall hw
    simp only [List.map_cons, List.flatten_cons, List.length_cons]
    rw [readIntsSub]
    rw [readExactSub_eq w
      ((beBytes w (toUnsigned (8 * w) i) ++
        (List.map (fun i => beBytes w (toUnsigned (8 * w) i)) is).flatten) ++ rest)
      (beBytes w (toUnsigned (8 * w) i))
      ((List.map (fun i => beBytes w (toUnsigned (8 * w) i)) is).flatten ++ rest)
      (by simp) (beBytes_length _ _)]
    dsimp only
    rw [ih rest (fun j hj => hall j (by simp [hj])) hw]
    dsimp only
    rw [beValue_beBytes, Nat.mod_eq_of_lt (toUnsigned_lt _ _),
      toSigned_toUnsigned (8 * w) (by omega) i (hall i (by simp)).1
        (hall i (by simp)).2]

theorem write_tag_list_eq (b : Nat) (elems : List Tag) :
    write_tag (.TagList b elems) =
      beBytes 1 b ++ beBytes 4 elems.length ++ (elems.map write_tag).flatten := by
  rw [write_tag.eq_def]
  dsimp only
  simp

theorem write_tag_compound_eq (entries : List (List Nat × Tag)) :
    write_tag (.CompoundTag entries) =
      (entries.map fun e =>
        beBytes 1 e.2.getTagBit ++ write_string e.1 ++ write_tag e.2).flatten ++ [0] := by
  by_cases he : entries = []
  · subst he
    rw [write_tag.eq_def]
    rfl
  · rw [write_tag.eq_def]
    dsimp only
    rw [if_neg (by simp [he])]
    rw [List.attach_map_val entries
      (fun e => beBytes 1 e.2.getTagBit ++ write_string e.1 ++ write_tag e.2)]

theorem sizeTagNat_list_eq (b : Nat) (elems : List Tag) :
    sizeTagNat (.TagList b elems) = 5 + (elems.map sizeTagNat).sum := by
  rw [sizeTagNat.eq_def]
  dsimp only
  simp

theorem sizeTagNat_compound_eq (entries : List (List Nat × Tag)) :
    sizeTagNat (.CompoundTag entries) =
      (entries.map fun e => (2 + cesuLen e.1) + 1 + sizeTagNat e.2).sum + 1 := by
  by_cases he : entries = []
  · subst he
    rw [sizeTagNat.eq_def]
    rfl
  · rw [sizeTagNat.eq_def]
    dsimp only
    rw [if_neg (by simp [he])]
    rw [List.attach_map_val entries
      (fun e => 2 + cesuLen e.1 + 1 + sizeTagNat e.2)]


theorem toUnsigned64_natCast (n : Nat) (h : n < 2 ^ 64) :
    toUnsigned 64 ((n : Nat) : Int) = n := by
  unfold toUnsigned
  rw [Int.emod_eq_of_lt (by positivity) (by push_cast; omega)]
  simp

theorem load_write : ∀ n : Nat,
    (∀ t : Tag, sizeOf t ≤ n → ∀ d c (rest : Bytes), wfTag d t →
      load_tag (write_tag t ++ rest) t.getTagBit d ⟨0, c⟩ =
        .ok (t, ⟨0, c⟩, rest)) ∧
    (∀ (b : Nat) (elems : List Tag), sizeOf elems ≤ n → ∀ dl c (rest : Bytes),
      wfList b dl elems →
      load_list ((elems.map write_tag).flatten ++ rest) b elems.length dl ⟨0, c⟩ =
        .ok (elems, ⟨0, c⟩, rest)) ∧
    (∀ entries : List (List Nat × Tag), sizeOf entries ≤ n → ∀ d c (rest : Bytes),
      wfEntries (d + 1) entries →
      load_compound ((entries.map fun e =>
          beBytes 1 e.2.getTagBit ++ write_string e.1 ++ write_tag e.2).flatten ++
          [0] ++ rest) d ⟨0, c⟩ = .ok (entries, ⟨0, c⟩, rest)) := by
  intro n
  induction n using Nat.strong_induction_on with
  | _ n ih =>
  refine ⟨?_, ?_, ?_⟩
  · intro t hsz d c rest hwf
    cases t with
    | TagEnd =>
      rw [show write_tag Tag.TagEnd = [] from by rw [write_tag.eq_def]]
      unfold load_tag
      rw [loadTagSub.eq_def]
      dsimp only [Tag.getTagBit]
      rw [account_bytes_zero]
      rfl
    | TagByte v =>
      simp only [wfTag] at hwf
      rw [show write_tag (Tag.TagByte v) = [v] from by
        rw [write_tag.eq_def]
        dsimp only
        exact beBytes_one v (by norm_num at hwf ⊢; omega)]
      simp only [List.cons_append, List.nil_append]
      unfold load_tag
      rw [loadTagSub.eq_def]
      dsimp only [Tag.getTagBit]
      rw [account_bytes_zero]
      rfl
    | TagShort v =>
      simp only [wfTag] at hwf
      rw [show write_tag (Tag.TagShort v) = beBytes 2 v from by rw [write_tag.eq_def]]
      unfold load_tag
      rw [loadTagSub.eq_def]
      dsimp only [Tag.getTagBit]
      rw [account_bytes_zero]
      dsimp only
      rw [readExactSub_eq 2 (beBytes 2 v ++ rest) (beBytes 2 v) rest rfl
        (beBytes_length _ _)]
      dsimp only [Except.map]
      rw [beValue_beBytes,
        show v % 2 ^ (8 * 2) = v from Nat.mod_eq_of_lt (by norm_num at hwf ⊢; omega)]
    | TagInt v =>
      simp only [wfTag] at hwf
      rw [show write_tag (Tag.TagInt v) = beBytes 4 (toUnsigned 32 v) from by
        rw [write_tag.eq_def]]
      unfold load_tag
      rw [loadTagSub.eq_def]
      dsimp only [Tag.getTagBit]
      rw [account_bytes_zero]
      dsimp only
      rw [readExactSub_eq 4 (beBytes 4 (toUnsigned 32 v) ++ rest) _ rest rfl
        (beBytes_length _ _)]
      dsimp only [Except.map]
      rw [beValue_beBytes,
        show toUnsigned 32 v % 2 ^ (8 * 4) = toUnsigned 32 v from
          Nat.mod_eq_of_lt (lt_of_lt_of_le (toUnsigned_lt _ _) (by norm_num)),
        toSigned_toUnsigned 32 (by norm_num) v (by exact_mod_cast hwf.1)
          (by exact_mod_cast hwf.2)]
    | TagLong v =>
      simp only [wfTag] at hwf
      rw [show write_tag (Tag.TagLong v) = beBytes 8 (toUnsigned 64 v) from by
        rw [write_tag.eq_def]]
      unfold load_tag
      rw [loadTagSub.eq_def]
      dsimp only [Tag.getTagBit]
      rw [account_bytes_zero]
      dsimp only
      rw [readExactSub_eq 8 (beBytes 8 (toUnsigned 64 v) ++ rest) _ rest rfl
        (beBytes_length _ _)]
      dsimp only [Except.map]
      rw [beValue_beBytes,
        show toUnsigned 64 v % 2 ^ (8 * 8) = toUnsigned 64 v from
          Nat.mod_eq_of_lt (lt_of_lt_of_le (toUnsigned_lt _ _) (by norm_num)),
        toSigned_toUnsigned 64 (by norm_num) v (by exact_mod_cast hwf.1)
          (by exact_mod_cast hwf.2)]
    | TagFloat bits =>
      simp only [wfTag] at hwf
      rw [show write_tag (Tag.TagFloat bits) = beBytes 4 bits from by
        rw [write_tag.eq_def]]
      unfold load_tag
      rw [loadTagSub.eq_def]
      dsimp only [Tag.getTagBit]
      rw [account_bytes_zero]
      dsimp only
      rw [readExactSub_eq 4 (beBytes 4 bits ++ rest) _ rest rfl (beBytes_length _ _)]
      dsimp only [Except.map]
      rw [beValue_beBytes,
        show bits % 2 ^ (8 * 4) = bits from Nat.mod_eq_of_lt (by
          norm_num at hwf ⊢; omega)]
    | TagDouble bits =>
      simp only [wfTag] at hwf
      rw [show write_tag (Tag.TagDouble bits) = beBytes 8 bits from by
        rw [write_tag.eq_def]]
      unfold load_tag
      rw [loadTagSub.eq_def]
      dsimp only [Tag.getTagBit]
      rw [account_bytes_zero]
      dsimp only
      rw [readExactSub_eq 8 (beBytes 8 bits ++ rest) _ rest rfl (beBytes_length _ _)]
      dsimp only [Except.map]
      rw [beValue_beBytes,
        show bits % 2 ^ (8 * 8) = bits from Nat.mod_eq_of_lt (by
          norm_num at hwf ⊢; omega)]
    | TagByteArray v =>
      simp only [wfTag] at hwf
      rw [show write_tag (Tag.TagByteArray v) = beBytes 4 v.length ++ v from by
        rw [write_tag.eq_def]]
      simp only [List.append_assoc]
      unfold load_tag
      rw [loadTagSub.eq_def]
      dsimp only [Tag.getTagBit]
      rw [account_bytes_zero]
      dsimp only
      rw [readExactSub_eq 4 (beBytes 4 v.length ++ (v ++ rest)) (beBytes 4 v.length)
        (v ++ rest) rfl (beBytes_length _ _)]
      dsimp only
      rw [account_bytes_zero]
      dsimp only
      rw [readExactSub_eq (toUnsigned 64 (toSigned 32 (beValue (beBytes 4 v.length))))
        (v ++ rest) v rest rfl (by
          rw [toSigned_beValue_beBytes4, usizeToI32_small _ hwf.2,
            toUnsigned64_natCast _ (by have := hwf.2; omega)])]
      rfl
    | TagString s =>
      simp only [wfTag] at hwf
      rw [show write_tag (Tag.TagString s) = write_string s from by
        rw [write_tag.eq_def]]
      unfold load_tag
      rw [loadTagSub.eq_def]
      dsimp only [Tag.getTagBit]
      rw [account_bytes_zero]
      dsimp only
      rw [read_string_sub_write_string s rest c hwf]
      rfl
    | TagList b elems =>
      simp only [wfTag] at hwf
      obtain ⟨hd512, hb, hlen, hwl⟩ := hwf
      have hn1 : 1 ≤ n := by
        simp only [Tag.TagList.sizeOf_spec] at hsz
        omega
      have hszl : sizeOf elems ≤ n - 1 := by
        simp only [Tag.TagList.sizeOf_spec] at hsz
        omega
      rw [write_tag_list_eq]
      rw [beBytes_one b (by norm_num at hb ⊢; omega)]
      simp only [List.append_assoc, List.cons_append, List.nil_append]
      unfold load_tag
      rw [loadTagSub.eq_def]
      dsimp only [Tag.getTagBit]
      rw [account_bytes_zero]
      dsimp only
      rw [if_neg (by omega)]
      rw [readExactSub_eq 4 (beBytes 4 elems.length ++
          ((elems.map write_tag).flatten ++ rest)) (beBytes 4 elems.length)
        ((elems.map write_tag).flatten ++ rest) rfl (beBytes_length _ _)]
      dsimp only
      rw [account_bytes_zero]
      dsimp only
      rw [toSigned_beValue_beBytes4, usizeToI32_small _ hlen, Int.toNat_natCast]
      have ihl := (ih (n - 1) (by omega)).2.1 b elems hszl (d + 1) c rest hwl
      unfold load_list at ihl
      cases hx : loadListSub ((elems.map write_tag).flatten ++ rest) b elems.length
          (d + 1) ⟨0, c⟩ with
      | error e =>
        rw [hx] at ihl
        exact absurd ihl (by simp [Except.map])
      | ok q =>
        obtain ⟨es2, a2, r2, hr2⟩ := q
        rw [hx] at ihl
        simp only [Except.map, Except.ok.injEq, Prod.mk.injEq] at ihl
        obtain ⟨hes, ha, hrv⟩ := ihl
        subst hes
        subst ha
        subst hrv
        rfl
    | CompoundTag entries =>
      simp only [wfTag] at hwf
      obtain ⟨hd512, hwe⟩ := hwf
      have hn1 : 1 ≤ n := by
        simp only [Tag.CompoundTag.sizeOf_spec] at hsz
        omega
      have hszc : sizeOf entries ≤ n - 1 := by
        simp only [Tag.CompoundTag.sizeOf_spec] at hsz
        omega
      rw [write_tag_compound_eq]
      unfold load_tag
      rw [show (Tag.CompoundTag entries).getTagBit = 10 from rfl]
      rw [loadTagSub.eq_def]
      dsimp only
      rw [account_bytes_zero]
      dsimp only
      rw [if_neg (by omega)]
      have ihc := (ih (n - 1) (by omega)).2.2 entries hszc d c rest hwe
      unfold load_compound at ihc
      cases hx : loadCompoundSub ((entries.map fun e =>
          beBytes 1 e.2.getTagBit ++ write_string e.1 ++ write_tag e.2).flatten ++
          [0] ++ rest) d ⟨0, c⟩ with
      | error e =>
        rw [hx] at ihc
        exact absurd ihc (by simp [Except.map])
      | ok q =>
        obtain ⟨es2, a2, r2, hr2⟩ := q
        rw [hx] at ihc
        simp only [Except.map, Except.ok.injEq, Prod.mk.injEq] at ihc
        obtain ⟨hes, ha, hrv⟩ := ihc
        subst hes
        subst ha
        subst hrv
        rfl
    | TagIntArray v =>
      simp only [wfTag] at hwf
      obtain ⟨hlen, hall⟩ := hwf
      rw [show write_tag (Tag.TagIntArray v) = beBytes 4 v.length ++
          (v.map fun i => beBytes 4 (toUnsigned 32 i)).flatten from by
        rw [write_tag.eq_def]]
      simp only [List.append_assoc]
      unfold load_tag
      rw [loadTagSub.eq_def]
      dsimp only [Tag.getTagBit]
      rw [account_bytes_zero]
      dsimp only
      rw [readExactSub_eq 4 (beBytes 4 v.length ++
          ((v.map fun i => beBytes 4 (toUnsigned 32 i)).flatten ++ rest))
        (beBytes 4 v.length) _ rfl (beBytes_length _ _)]
      dsimp only
      rw [account_bytes_zero]
      dsimp only
      rw [toSigned_beValue_beBytes4, usizeToI32_small _ hlen, Int.toNat_natCast]
      rw [show (fun (i : Int) => beBytes 4 (toUnsigned 32 i)) =
          (fun i => beBytes 4 (toUnsigned (8 * 4) i)) from by funext i; norm_num]
      rw [readIntsSub_write 4 v rest (by
          intro i hi
          have h := hall i hi
          norm_num at h ⊢
          omega) (by norm_num)]
      rfl
    | TagLongArray v =>
      simp only [wfTag] at hwf
      obtain ⟨hlen, hall⟩ := hwf
      rw [show write_tag (Tag.TagLongArray v) = beBytes 4 v.length ++
          (v.map fun i => beBytes 8 (toUnsigned 64 i)).flatten from by
        rw [write_tag.eq_def]]
      simp only [List.append_assoc]
      unfold load_tag
      rw [loadTagSub.eq_def]
      dsimp only [Tag.getTagBit]
      rw [account_bytes_zero]
      dsimp only
      rw [readExactSub_eq 4 (beBytes 4 v.length ++
          ((v.map fun i => beBytes 8 (toUnsigned 64 i)).flatten ++ rest))
        (beBytes 4 v.length) _ rfl (beBytes_length _ _)]
      dsimp only
      rw [account_bytes_zero]
      dsimp only
      rw [toSigned_beValue_beBytes4, usizeToI32_small _ hlen, Int.toNat_natCast]
      rw [show (fun (i : Int) => beBytes 8 (toUnsigned 64 i)) =
          (fun i => beBytes 8 (toUnsigned (8 * 8) i)) from by funext i; norm_num]
      rw [readIntsSub_write 8 v rest (by
          intro i hi
          have h := hall i hi
          norm_num at h ⊢
          omega) (by norm_num)]
      rfl
  · intro b elems hsz dl c rest hwl
    cases elems with
    | nil =>
      unfold load_list
      simp only [List.map_nil, List.flatten_nil, List.nil_append, List.length_nil]
      rw [loadListSub_zero]
      rfl
    | cons t ts =>
      simp only [wfList] at hwl
      obtain ⟨hbit, hwft, hwfts⟩ := hwl
      subst hbit
      have hn1 : 1 ≤ n := by
        simp only [List.cons.sizeOf_spec] at hsz
        omega
      simp only [List.map_cons, List.flatten_cons, List.append_assoc, List.length_cons]
      have iht := (ih (n - 1) (by omega)).1 t (by
          simp only [List.cons.sizeOf_spec] at hsz
          omega) dl c ((ts.map write_tag).flatten ++ rest) hwft
      unfold load_tag at iht
      unfold load_list
      rw [loadListSub.eq_def]
      dsimp only
      cases hx : loadTagSub (write_tag t ++ ((ts.map write_tag).flatten ++ rest))
          t.getTagBit dl ⟨0, c⟩ with
      | error e =>
        rw [hx] at iht
        exact absurd iht (by simp [Except.map])
      | ok q =>
        obtain ⟨t2, a2, r2, hr2⟩ := q
        rw [hx] at iht
        simp only [Except.map, Except.ok.injEq, Prod.mk.injEq] at iht
        obtain ⟨ht2, ha2, hrv⟩ := iht
        have ht2s : t = t2 := ht2.symm
        clear ht2
        subst ht2s
        subst ha2
        subst hrv
        dsimp only
        have ihl := (ih (n - 1) (by omega)).2.1 t.getTagBit ts (by
            simp only [List.cons.sizeOf_spec] at hsz
            omega) dl c rest hwfts
        unfold load_list at ihl
        cases hy : loadListSub ((ts.map write_tag).flatten ++ rest) t.getTagBit
            ts.length dl ⟨0, c⟩ with
        | error e =>
          rw [hy] at ihl
          exact absurd ihl (by simp [Except.map])
        | ok q2 =>
          obtain ⟨ts2, a3, r3, hr3⟩ := q2
          rw [hy] at ihl
          simp only [Except.map, Except.ok.injEq, Prod.mk.injEq] at ihl
          obtain ⟨hts, ha3, hrv3⟩ := ihl
          subst hts
          subst ha3
          subst hrv3
          rfl
  · intro entries hsz d c rest hwe
    cases entries with
    | nil =>
      simp only [List.map_nil, List.flatten_nil, List.nil_append, List.cons_append]
      unfold load_compound
      rw [loadCompoundSub.eq_def]
      dsimp only
      rw [if_pos rfl]
      rfl
    | cons e es =>
      obtain ⟨k, t⟩ := e
      simp only [wfEntries] at hwe
      obtain ⟨hwk, hbit0, hwft, hwes⟩ := hwe
      have hn1 : 1 ≤ n := by
        simp only [List.cons.sizeOf_spec, Prod.mk.sizeOf_spec] at hsz
        omega
      simp only [List.map_cons, List.flatten_cons, List.append_assoc]
      rw [beBytes_one t.getTagBit (by
        have h := getTagBit_lt t
        norm_num at h ⊢
        omega)]
      simp only [List.cons_append, List.nil_append]
      unfold load_compound
      rw [loadCompoundSub.eq_def]
      dsimp only
      rw [if_neg hbit0]
      rw [account_bytes_zero]
      dsimp only
      rw [read_string_sub_write_string k _ c hwk]
      dsimp only
      have iht := (ih (n - 1) (by omega)).1 t (by
          simp only [List.cons.sizeOf_spec, Prod.mk.sizeOf_spec] at hsz
          omega) (d + 1) c ((es.map fun e =>
            beBytes 1 e.2.getTagBit ++ (write_string e.1 ++ write_tag e.2)).flatten ++
            (0 :: rest)) hwft
      unfold load_tag at iht
      cases hx : loadTagSub (write_tag t ++ ((es.map fun e =>
          beBytes 1 e.2.getTagBit ++ (write_string e.1 ++ write_tag e.2)).flatten ++
          (0 :: rest))) t.getTagBit (d + 1) ⟨0, c⟩ with
      | error e2 =>
        rw [hx] at iht
        exact absurd iht (by simp [Except.map])
      | ok q =>
        obtain ⟨t2, a2, r2, hr2⟩ := q
        rw [hx] at iht
        simp only [Except.map, Except.ok.injEq, Prod.mk.injEq] at iht
        obtain ⟨ht2, ha2, hrv⟩ := iht
        have ht2s : t = t2 := ht2.symm
        clear ht2
        subst ht2s
        subst ha2
        subst hrv
        try dsimp only
        rw [account_bytes_zero]
        try dsimp only
        have ihc := (ih (n - 1) (by omega)).2.2 es (by
            simp only [List.cons.sizeOf_spec, Prod.mk.sizeOf_spec] at hsz
            omega) d c rest hwes
        simp only [List.append_assoc, List.cons_append, List.nil_append] at ihc
        unfold load_compound at ihc
        cases hy : loadCompoundSub ((es.map fun e =>
            beBytes 1 e.2.getTagBit ++ (write_string e.1 ++ write_tag e.2)).flatten ++
            (0 :: rest)) d ⟨0, c⟩ with
        | error e2 =>
          rw [hy] at ihc
          exact absurd ihc (by simp [Except.map])
        | ok q2 =>
          obtain ⟨es2, a3, r3, hr3⟩ := q2
          rw [hy] at ihc
          simp only [Except.map, Except.ok.injEq, Prod.mk.injEq] at ihc
          obtain ⟨hes, ha3, hrv3⟩ := ihc
          subst hes
          subst ha3
          subst hrv3
          rfl


theorem flatten_length_beBytes (w : Nat) (g : Int → Nat) (l : List Int) :
    ((l.map fun i => beBytes w (g i)).flatten).length = w * l.length := by
  induction l with
  | nil => simp
  | cons x xs ihl =>
    simp [beBytes_length, ihl]
    ring

theorem sizeTagNat_write_length : ∀ n : Nat, ∀ t : Tag, sizeOf t ≤ n →
    sizeTagNat t = (write_tag t).length := by
  intro n
  induction n using Nat.strong_induction_on with
  | _ n ih =>
  intro t hsz
  cases t with
  | TagEnd =>
    rw [show write_tag Tag.TagEnd = [] from by rw [write_tag.eq_def]]
    rw [sizeTagNat.eq_def]
    try rfl
  | TagByte v =>
    rw [show write_tag (Tag.TagByte v) = beBytes 1 v from by rw [write_tag.eq_def],
      beBytes_length]
    rw [sizeTagNat.eq_def]
    try rfl
  | TagShort v =>
    rw [show write_tag (Tag.TagShort v) = beBytes 2 v from by rw [write_tag.eq_def],
      beBytes_length]
    rw [sizeTagNat.eq_def]
    try rfl
  | TagInt v =>
    rw [show write_tag (Tag.TagInt v) = beBytes 4 (toUnsigned 32 v) from by
        rw [write_tag.eq_def], beBytes_length]
    rw [sizeTagNat.eq_def]
    try rfl
  | TagLong v =>
    rw [show write_tag (Tag.TagLong v) = beBytes 8 (toUnsigned 64 v) from by
        rw [write_tag.eq_def], beBytes_length]
    rw [sizeTagNat.eq_def]
    try rfl
  | TagFloat bits =>
    rw [show write_tag (Tag.TagFloat bits) = beBytes 4 bits from by
        rw [write_tag.eq_def], beBytes_length]
    rw [sizeTagNat.eq_def]
    try rfl
  | TagDouble bits =>
    rw [show write_tag (Tag.TagDouble bits) = beBytes 8 bits from by
        rw [write_tag.eq_def], beBytes_length]
    rw [sizeTagNat.eq_def]
    try rfl
  | TagByteArray v =>
    rw [show write_tag (Tag.TagByteArray v) = beBytes 4 v.length ++ v from by
        rw [write_tag.eq_def]]
    rw [show sizeTagNat (Tag.TagByteArray v) = 4 + v.length from by
        rw [sizeTagNat.eq_def]]
    simp [beBytes_length]
  | TagString s =>
    rw [show write_tag (Tag.TagString s) = write_string s from by rw [write_tag.eq_def]]
    rw [show sizeTagNat (Tag.TagString s) = 2 + cesuLen s from by rw [sizeTagNat.eq_def]]
    simp [write_string, beBytes_length, cesuLen]
  | TagList b elems =>
    rw [write_tag_list_eq, sizeTagNat_list_eq]
    simp only [List.length_append, beBytes_length, List.length_flatten, List.map_map]
    have hmap : elems.map sizeTagNat = elems.map (List.length ∘ write_tag) := by
      refine List.map_congr_left ?_
      intro x hx
      have hlt := List.sizeOf_lt_of_mem hx
      simp only [Tag.TagList.sizeOf_spec] at hsz
      exact ih (n - 1) (by omega) x (by omega)
    rw [hmap]
  | CompoundTag entries =>
    rw [write_tag_compound_eq, sizeTagNat_compound_eq]
    simp only [List.length_append, List.length_flatten, List.map_map,
      List.length_cons, List.length_nil]
    have hmap : entries.map (fun e => 2 + cesuLen e.1 + 1 + sizeTagNat e.2) =
        entries.map (List.length ∘ fun e =>
          beBytes 1 e.2.getTagBit ++ write_string e.1 ++ write_tag e.2) := by
      refine List.map_congr_left ?_
      intro e he
      obtain ⟨k, t⟩ := e
      have hlt := List.sizeOf_lt_of_mem he
      simp only [Tag.CompoundTag.sizeOf_spec] at hsz
      simp only [Prod.mk.sizeOf_spec] at hlt
      have hrec := ih (n - 1) (by omega) t (by omega)
      simp only [Function.comp, List.length_append, beBytes_length, write_string,
        cesuLen]
      rw [hrec]
      simp [cesuLen]
      omega
    rw [hmap]
  | TagIntArray v =>
    rw [show write_tag (Tag.TagIntArray v) = beBytes 4 v.length ++
        (v.map fun i => beBytes 4 (toUnsigned 32 i)).flatten from by
      rw [write_tag.eq_def]]
    rw [show sizeTagNat (Tag.TagIntArray v) = 4 + 4 * v.length from by
      rw [sizeTagNat.eq_def]]
    simp only [List.length_append, beBytes_length, flatten_length_beBytes]
  | TagLongArray v =>
    rw [show write_tag (Tag.TagLongArray v) = beBytes 4 v.length ++
        (v.map fun i => beBytes 8 (toUnsigned 64 i)).flatten from by
      rw [write_tag.eq_def]]
    rw [show sizeTagNat (Tag.TagLongArray v) = 4 + 8 * v.length from by
      rw [sizeTagNat.eq_def]]
    simp only [List.length_append, beBytes_length, flatten_length_beBytes]

theorem ensuredCompoundTag_good :
    GoodOn (ensuredCompoundTag 0) (fun v => ∀ tag, v = some tag →
      ∃ entries, tag = Tag.CompoundTag entries ∧ wfTag 0 tag) := by
  intro v hv
  cases v with
  | none => exact ⟨[0], rfl, fun rest => rfl, ⟨.Constant 1, rfl, rfl⟩⟩
  | some tag =>
    obtain ⟨entries, htag, hwf⟩ := hv tag rfl
    subst htag
    refine ⟨beBytes 1 10 ++ write_string [] ++ write_tag (Tag.CompoundTag entries),
      rfl, fun rest => ?_, ?_⟩
    · have hshape : (beBytes 1 10 ++ write_string [] ++
          write_tag (Tag.CompoundTag entries)) ++ rest =
          10 :: (write_string [] ++ (write_tag (Tag.CompoundTag entries) ++ rest)) := by
        rw [beBytes_one 10 (by norm_num)]
        simp
      rw [hshape]
      simp only [ensuredCompoundTag]
      try dsimp only
      rw [if_neg (by decide), if_neg (by decide)]
      simp only [bind, Except.bind, read_string]
      rw [read_string_sub_write_string [] _ 0
        ⟨fun c hc => absurd hc (List.not_mem_nil c), by decide⟩]
      dsimp only [Except.map]
      have hload := (load_write (sizeOf (Tag.CompoundTag entries))).1
        (Tag.CompoundTag entries) le_rfl 0 0 rest hwf
      rw [show (Tag.CompoundTag entries).getTagBit = 10 from rfl] at hload
      rw [hload]
    · refine ⟨(Size.Dynamic 3).addUsize (sizeTagNat (Tag.CompoundTag entries)),
        rfl, ?_⟩
      simp only [Size.addUsize, Size.bytes]
      rw [sizeTagNat_write_length (sizeOf (Tag.CompoundTag entries)) _ le_rfl]
      simp [beBytes_length, write_string, cesuLen, cesuEncode]
      omega


/-- C1 counterexample: the claim's unqualified "size equals written length"
clause fails for the fixed-array delegate over `Maybe<i32>`. Encoding
`[None, Some 10]` under `[Maybe<i32>; 2]` writes 6 bytes, but the size loop
short-circuits on the first element's `Constant 1` report and returns
`Constant (1 * 2) = Constant 2`, whose byte count is 2, not 6. -/
theorem delegate_round_trip_claim_counterexample :
    (arrayCodec (maybeCodec (sintCodec 4)) 2).enc [none, some 10] =
      .ok [0, 1, 0, 0, 0, 10] ∧
    (arrayCodec (maybeCodec (sintCodec 4)) 2).sz [none, some 10] =
      .ok (.Constant 2) ∧
    Size.bytes (.Constant 2) ≠ ([0, 1, 0, 0, 0, 10] : Bytes).length := by
  refine ⟨rfl, rfl, by decide⟩

/-- C1: round trip and size faithfulness for every delegate, on the values
representable by the delegate's Rust component type (with the size clause of
`Vec`/`[T; N]` holding under a size-uniform element delegate, and the tree
codec round-tripping well-formed compound roots): each conjunct says that
encoding succeeds, decoding the produced bytes in front of any continuation
returns the value and the untouched continuation, and the reported size
carries exactly the number of bytes written. -/
theorem delegate_round_trip :
    (∀ w, GoodOn (uintCodec w) (fun v => v < 2 ^ (8 * w))) ∧
    (∀ w, 0 < w → GoodOn (sintCodec w) (fun v =>
      -((2 ^ (8 * w - 1) : Nat) : Int) ≤ v ∧ v < ((2 ^ (8 * w - 1) : Nat) : Int))) ∧
    GoodOn unitCodec (fun _ => True) ∧
    GoodOn boolCodec (fun _ => True) ∧
    GoodOn uuidCodec (fun v => v.length = 16) ∧
    GoodOn varIntCodec (fun v =>
      -((2 ^ 31 : Nat) : Int) ≤ v ∧ v < ((2 ^ 31 : Nat) : Int)) ∧
    GoodOn varLongCodec (fun v =>
      -((2 ^ 63 : Nat) : Int) ≤ v ∧ v < ((2 ^ 63 : Nat) : Int)) ∧
    (∀ (α : Type) (c : Codec α) (P : α → Prop), GoodOn c P →
      GoodOn (maybeCodec c) (fun v => ∀ x, v = some x → P x)) ∧
    (∀ (α : Type) (c : Codec α) (P : α → Prop) (k : Nat), GoodOn c P →
      (SizeAllConstant c P k ∨ SizeAllDynamic c P) →
      GoodOn (vecCodec c) (fun l => (∀ x ∈ l, P x) ∧ l.length < 2 ^ 31)) ∧
    (∀ (α : Type) (c : Codec α) (P : α → Prop) (N k : Nat), GoodOn c P →
      (SizeAllConstant c P k ∨ SizeAllDynamic c P) →
      GoodOn (arrayCodec c N) (fun l => (∀ x ∈ l, P x) ∧ l.length = N)) ∧
    GoodOn vecU8Codec (fun v => v.length < 2 ^ 31) ∧
    (∀ (κ ν : Type) [DecidableEq κ] (ck : Codec κ) (cv : Codec ν)
      (Pk : κ → Prop) (Pv : ν → Prop), GoodOn ck Pk → GoodOn cv Pv →
      GoodOn (mapCodec ck cv) (fun m => (∀ p ∈ m, Pk p.1 ∧ Pv p.2) ∧
        (m.map Prod.fst).Nodup ∧ m.length < 2 ^ 31)) ∧
    (∀ (α : Type) (c : Codec α) (P : α → Prop) (k N : Nat), GoodOn c P →
      (SizeAllConstant c P k ∨ SizeAllDynamic c P) → N < 2 ^ 31 →
      GoodOn (limitedVecCodec c N) (fun l => (∀ x ∈ l, P x) ∧ l.length ≤ N)) ∧
    (∀ (κ ν : Type) [DecidableEq κ] (ck : Codec κ) (cv : Codec ν)
      (Pk : κ → Prop) (Pv : ν → Prop) (N : Nat), GoodOn ck Pk → GoodOn cv Pv →
      N < 2 ^ 31 →
      GoodOn (limitedMapCodec ck cv N) (fun m => (∀ p ∈ m, Pk p.1 ∧ Pv p.2) ∧
        (m.map Prod.fst).Nodup ∧ m.length ≤ N)) ∧
    GoodOn stringCodec (fun s => (∀ c ∈ s, ValidScalar c) ∧ utf8Len s ≤ 131068) ∧
    (∀ N, N < 2 ^ 31 → GoodOn (limitedStringCodec N) (fun s =>
      (∀ c ∈ s, ValidScalar c) ∧ utf8Len s ≤ N ∧ utf8Len s ≤ 131068)) ∧
    (∀ (α : Type) (c : Codec α) (P : α → Prop), GoodOn c P →
      GoodOn (boxCodec c) P) ∧
    GoodOn (ensuredCompoundTag 0) (fun v => ∀ tag, v = some tag →
      ∃ entries, tag = Tag.CompoundTag entries ∧ wfTag 0 tag) := by
  refine ⟨uintCodec_good, sintCodec_good, unitCodec_good, boolCodec_good,
    uuidCodec_good, varIntCodec_good, varLongCodec_good, ?_, ?_, ?_,
    vecU8Codec_good, ?_, ?_, ?_, stringCodec_good, limitedStringCodec_good,
    ?_, ensuredCompoundTag_good⟩
  · intro α c P h
    exact maybeCodec_good c P h
  · intro α c P k hg hs
    exact vecCodec_good c P k hg hs
  · intro α c P N k hg hs
    exact arrayCodec_good c P N k hg hs
  · intro κ ν inst ck cv Pk Pv hk hv
    exact mapCodec_good ck cv Pk Pv hk hv
  · intro α c P k N hg hs hN
    exact limitedVecCodec_good c P k N hg hs hN
  · intro κ ν inst ck cv Pk Pv N hk hv hN
    exact limitedMapCodec_good ck cv Pk Pv N hk hv hN
  · intro α c P h
    exact boxCodec_good c P h

/-- Witness for C1: the `Vec` conjunct of `delegate_round_trip` instantiated at
the one-byte unsigned delegate and the concrete vector `[7, 8]`, with every
hypothesis discharged by evaluation. -/
theorem delegate_round_trip_witness :
    ∃ bs, (vecCodec (uintCodec 1)).enc [7, 8] = .ok bs ∧
      (∀ rest, (vecCodec (uintCodec 1)).dec (bs ++ rest) = .ok ([7, 8], rest)) ∧
      ∃ s, (vecCodec (uintCodec 1)).sz [7, 8] = .ok s ∧ s.bytes = bs.length := by
  exact delegate_round_trip.2.2.2.2.2.2.2.2.1 Nat (uintCodec 1)
    (fun v => v < 2 ^ (8 * 1)) 1 (delegate_round_trip.1 1)
    (Or.inl fun v hv => rfl) [7, 8] ⟨by decide, by decide⟩

end Drax
